import Mathlib

/-!
# Permission migrations (`app/permissions_migrations.go`)

A shallow embedding of the permission-migration engine and a verification of
its specification.

Modelling conventions.

* A Go `map[string]V` is an association list with unique keys (`AList`).  A
  read of a missing key gives `none` (Go: zero value, `ok = false`); a write
  `m[k] = v` is `AList.insert`.  Go leaves the iteration order of a map
  unspecified; the embedding iterates in the order of the association list,
  and every statement about the outcome of an iteration is stated through
  membership and `List.Nodup`, which do not depend on that order.
* The snapshot `map[string]map[string]bool` is a map of maps by value: two
  role names never share one inner map object.
* A write `roleMap[roleName][permission] = v` on a missing (nil) inner map
  panics in Go; functions that perform such writes return `Option`, `none`
  standing for the panic.
* The stores, the scheme iterator and the constants of package `model` are
  not part of the file; they are parameters (`App`).  Store state is passed
  explicitly (`World`) together with the log of the store calls performed.
-/

namespace Mattermost

/-! ## Data model -/

/-- Go `map[string]bool`: the permissions of one role in the snapshot. -/
abbrev PermissionSet := AList (fun _ : String => Bool)

/-- Go `map[string]map[string]bool`: the snapshot, role name to permissions. -/
abbrev RoleMap := AList (fun _ : String => PermissionSet)

/-- The type `func(string, map[string]map[string]bool) bool` of rule conditions. -/
abbrev PermissionPredicate := String → RoleMap → Bool

/-- The struct `permissionTransformation`. -/
structure permissionTransformation where
  On : PermissionPredicate
  Add : List String
  Remove : List String

/-- The type `permissionsMap`: an ordered rule list. -/
abbrev permissionsMap := List permissionTransformation

/-- The read `permissionsMap[roleName][permission]` with the comma-ok form:
`none` when the role or the permission is missing. -/
def readPermission (roleMap : RoleMap) (roleName permission : String) : Option Bool :=
  match roleMap.lookup roleName with
  | none => none
  | some inner => inner.lookup permission

/-- The write `roleMap[roleName][permission] = value`; `none` is the panic of
a write into a nil inner map. -/
def writePermission (roleMap : RoleMap) (roleName permission : String) (value : Bool) :
    Option RoleMap :=
  match roleMap.lookup roleName with
  | none => none
  | some inner => some (roleMap.insert roleName (inner.insert permission value))

/-! ## Predicate combinators (lines 54-100) -/

def isRole (role : String) : PermissionPredicate :=
  fun roleName _ => decide (roleName = role)

def permissionExists (permission : String) : PermissionPredicate :=
  fun roleName permissionsMap =>
    match readPermission permissionsMap roleName permission with
    | some val => val
    | none => false

def permissionNotExists (permission : String) : PermissionPredicate :=
  fun roleName permissionsMap =>
    match readPermission permissionsMap roleName permission with
    | some val => !val
    | none => !false

def onOtherRole (otherRole : String) (function : PermissionPredicate) : PermissionPredicate :=
  fun _ permissionsMap => function otherRole permissionsMap

def permissionOr : List PermissionPredicate → PermissionPredicate
  | [] => fun _ _ => false
  | f :: funcs => fun roleName permissionsMap =>
      if f roleName permissionsMap then true else permissionOr funcs roleName permissionsMap

def permissionAnd : List PermissionPredicate → PermissionPredicate
  | [] => fun _ _ => true
  | f :: funcs => fun roleName permissionsMap =>
      if !f roleName permissionsMap then false else permissionAnd funcs roleName permissionsMap

/-! ## applyPermissionsMap (lines 102-122) -/

/-- The loop `for _, permission := range permissions { roleMap[roleName][permission] = value }`. -/
def writePermissions (roleName : String) (value : Bool) :
    List String → RoleMap → Option RoleMap
  | [], roleMap => some roleMap
  | permission :: rest, roleMap =>
      match writePermission roleMap roleName permission value with
      | none => none
      | some roleMap1 => writePermissions roleName value rest roleMap1

/-- One iteration of the loop over the rules (lines 106-113). -/
def applyTransformation (roleName : String) (roleMap : RoleMap)
    (transformation : permissionTransformation) : Option RoleMap :=
  if transformation.On roleName roleMap then
    match writePermissions roleName true transformation.Add roleMap with
    | none => none
    | some roleMap1 => writePermissions roleName false transformation.Remove roleMap1
  else some roleMap

/-- The loop over the rules (lines 105-114). -/
def applyTransformations (roleName : String) : permissionsMap → RoleMap → Option RoleMap
  | [], roleMap => some roleMap
  | transformation :: rest, roleMap =>
      match applyTransformation roleName roleMap transformation with
      | none => none
      | some roleMap1 => applyTransformations roleName rest roleMap1

/-- The loop `for key, active := range m { if active { result = append(result, key) } }`
of lines 116-120, over the entries of one inner map. -/
def collectActive : List (Sigma fun _ : String => Bool) → List String → List String
  | [], result => result
  | entry :: rest, result =>
      if entry.2 then collectActive rest (result ++ [entry.1]) else collectActive rest result

/-- The function `applyPermissionsMap`: the returned list together with the
snapshot as the call leaves it (the Go function mutates `roleMap` in place). -/
def applyPermissionsMap (roleName : String) (roleMap : RoleMap) (migrationMap : permissionsMap) :
    Option (List String × RoleMap) :=
  match applyTransformations roleName migrationMap roleMap with
  | none => none
  | some roleMap1 =>
      match roleMap1.lookup roleName with
      | none => some ([], roleMap1)
      | some inner => some (collectActive inner.entries [], roleMap1)

/-! ## Stores and collaborators -/

/-- The error type `model.AppError`. -/
structure AppError where
  Id : String
  deriving DecidableEq

/-- The record `model.System`: a completion marker. -/
structure System where
  Name : String
  Value : String
  deriving DecidableEq

/-- The record `model.Role`, with the fields the migrations touch. -/
structure Role where
  Id : String
  Name : String
  Permissions : List String
  deriving DecidableEq

/-- The record `model.Scheme`, with the fields the migrations touch. -/
structure Scheme where
  DefaultChannelAdminRole : String
  DefaultChannelUserRole : String
  deriving DecidableEq

/-- A call of a store or of the scheme iterator. -/
inductive StoreCall where
  | systemGetByName (key : String)
  | getAllRoles
  | roleSave (role : Role)
  | systemSave (system : System)
  | schemesNext
  deriving DecidableEq

/-- The collaborators of the migrations, which the file takes from `*App` and
package `model`: the role store over states `ρ`, the marker (system) store
over states `μ`, the scheme iterator, and the constants of package `model`.
A lookup does not change the store; a write returns the new store state also
when it fails.  `SchemesIterator scope batchSize` is the sequence of batches a
fresh iterator returns on its successive calls; once the sequence is used up
it returns empty batches. -/
structure App (ρ μ : Type) where
  SystemGetByName : μ → String → Except AppError System
  SystemSave : μ → System → Option AppError × μ
  GetAllRoles : ρ → Except AppError (List Role)
  RoleSave : ρ → Role → Except AppError Role × ρ
  SchemesIterator : String → Nat → List (List Scheme)
  ModeratedPermissions : AList (fun _ : String => String)
  SCHEME_SCOPE_TEAM : String
  SYSTEM_ADMIN_ROLE_ID : String
  SYSTEM_USER_ROLE_ID : String
  TEAM_USER_ROLE_ID : String
  CHANNEL_USER_ROLE_ID : String
  CHANNEL_ADMIN_ROLE_ID : String
  PERMISSION_DELETE_PRIVATE_CHANNEL_Id : String
  MIGRATION_KEY_EMOJI_PERMISSIONS_SPLIT : String
  MIGRATION_KEY_WEBHOOK_PERMISSIONS_SPLIT : String
  MIGRATION_KEY_LIST_JOIN_PUBLIC_PRIVATE_TEAMS : String
  MIGRATION_KEY_REMOVE_PERMANENT_DELETE_USER : String
  MIGRATION_KEY_ADD_BOT_PERMISSIONS : String
  MIGRATION_KEY_APPLY_CHANNEL_MANAGE_DELETE_TO_CHANNEL_USER : String
  MIGRATION_KEY_REMOVE_CHANNEL_MANAGE_DELETE_FROM_TEAM_USER : String
  MIGRATION_KEY_VIEW_MEMBERS_NEW_PERMISSION : String
  MIGRATION_KEY_ADD_MANAGE_GUESTS_PERMISSIONS : String
  MIGRATION_KEY_CHANNEL_MODERATIONS_PERMISSIONS : String

/-- The state outside the process: the role store, the marker store, and the
log of the store calls made so far (oldest first). -/
structure World (ρ μ : Type) where
  roles : ρ
  system : μ
  calls : List StoreCall
  deriving DecidableEq

/-! ## doPermissionsMigration (lines 124-153) -/

/-- The loop of lines 137-139: `roleMap[role.Name][permission] = true` for
every permission of the role. -/
def seedPermissions (roleName : String) : List String → RoleMap → Option RoleMap :=
  writePermissions roleName true

/-- The loop of lines 135-140 building the snapshot from the loaded roles. -/
def buildRoleMap : List Role → RoleMap → Option RoleMap
  | [], roleMap => some roleMap
  | role :: rest, roleMap =>
      match seedPermissions role.Name role.Permissions (roleMap.insert role.Name ∅) with
      | none => none
      | some roleMap1 => buildRoleMap rest roleMap1

/-- The loop of lines 142-147: apply the rules to each role on the shared
snapshot, overwrite its permission list and save it; the first failing save
ends the loop with its error. -/
def saveRoles {ρ μ : Type} (a : App ρ μ) (migrationMap : permissionsMap) :
    List Role → RoleMap → World ρ μ → Option (Option AppError × RoleMap × World ρ μ)
  | [], roleMap, w => some (none, roleMap, w)
  | role :: rest, roleMap, w =>
      match applyPermissionsMap role.Name roleMap migrationMap with
      | none => none
      | some (permissions, roleMap1) =>
          let role1 : Role := { role with Permissions := permissions }
          match a.RoleSave w.roles role1 with
          | (Except.error err, roles1) =>
              some (some err, roleMap1,
                { w with roles := roles1, calls := w.calls ++ [StoreCall.roleSave role1] })
          | (Except.ok _, roles1) =>
              saveRoles a migrationMap rest roleMap1
                { w with roles := roles1, calls := w.calls ++ [StoreCall.roleSave role1] }

/-- The method `doPermissionsMigration`: the returned error (`none` is Go's
`nil`) and the world it leaves; the outer `none` is a panic. -/
def doPermissionsMigration {ρ μ : Type} (a : App ρ μ) (key : String)
    (migrationMap : permissionsMap) (w : World ρ μ) : Option (Option AppError × World ρ μ) :=
  let w1 : World ρ μ := { w with calls := w.calls ++ [StoreCall.systemGetByName key] }
  match a.SystemGetByName w.system key with
  | Except.ok _ => some (none, w1)
  | Except.error _ =>
      let w2 : World ρ μ := { w1 with calls := w1.calls ++ [StoreCall.getAllRoles] }
      match a.GetAllRoles w.roles with
      | Except.error err => some (some err, w2)
      | Except.ok roles =>
          match buildRoleMap roles ∅ with
          | none => none
          | some roleMap =>
              match saveRoles a migrationMap roles roleMap w2 with
              | none => none
              | some (some err, _, w3) => some (some err, w3)
              | some (none, _, w3) =>
                  let marker : System := { Name := key, Value := "true" }
                  match a.SystemSave w3.system marker with
                  | (some err, system1) =>
                      some (some err, { w3 with system := system1,
                                                calls := w3.calls ++ [StoreCall.systemSave marker] })
                  | (none, system1) =>
                      some (none, { w3 with system := system1,
                                            calls := w3.calls ++ [StoreCall.systemSave marker] })

/-! ## Permission constants (lines 17-52) -/

def PERMISSION_MANAGE_SYSTEM : String := "manage_system"
def PERMISSION_MANAGE_EMOJIS : String := "manage_emojis"
def PERMISSION_MANAGE_OTHERS_EMOJIS : String := "manage_others_emojis"
def PERMISSION_CREATE_EMOJIS : String := "create_emojis"
def PERMISSION_DELETE_EMOJIS : String := "delete_emojis"
def PERMISSION_DELETE_OTHERS_EMOJIS : String := "delete_others_emojis"
def PERMISSION_MANAGE_WEBHOOKS : String := "manage_webhooks"
def PERMISSION_MANAGE_OTHERS_WEBHOOKS : String := "manage_others_webhooks"
def PERMISSION_MANAGE_INCOMING_WEBHOOKS : String := "manage_incoming_webhooks"
def PERMISSION_MANAGE_OTHERS_INCOMING_WEBHOOKS : String := "manage_others_incoming_webhooks"
def PERMISSION_MANAGE_OUTGOING_WEBHOOKS : String := "manage_outgoing_webhooks"
def PERMISSION_MANAGE_OTHERS_OUTGOING_WEBHOOKS : String := "manage_others_outgoing_webhooks"
def PERMISSION_LIST_PUBLIC_TEAMS : String := "list_public_teams"
def PERMISSION_LIST_PRIVATE_TEAMS : String := "list_private_teams"
def PERMISSION_JOIN_PUBLIC_TEAMS : String := "join_public_teams"
def PERMISSION_JOIN_PRIVATE_TEAMS : String := "join_private_teams"
def PERMISSION_PERMANENT_DELETE_USER : String := "permanent_delete_user"
def PERMISSION_CREATE_BOT : String := "create_bot"
def PERMISSION_READ_BOTS : String := "read_bots"
def PERMISSION_READ_OTHERS_BOTS : String := "read_others_bots"
def PERMISSION_MANAGE_BOTS : String := "manage_bots"
def PERMISSION_MANAGE_OTHERS_BOTS : String := "manage_others_bots"
def PERMISSION_DELETE_PUBLIC_CHANNEL : String := "delete_public_channel"
def PERMISSION_DELETE_PRIVATE_CHANNEL : String := "delete_private_channel"
def PERMISSION_MANAGE_PUBLIC_CHANNEL_PROPERTIES : String := "manage_public_channel_properties"
def PERMISSION_MANAGE_PRIVATE_CHANNEL_PROPERTIES : String := "manage_private_channel_properties"
def PERMISSION_VIEW_MEMBERS : String := "view_members"
def PERMISSION_INVITE_USER : String := "invite_user"
def PERMISSION_INVITE_GUEST : String := "invite_guest"
def PERMISSION_PROMOTE_GUEST : String := "promote_guest"
def PERMISSION_DEMOTE_TO_GUEST : String := "demote_to_guest"
def PERMISSION_USE_CHANNEL_MENTIONS : String := "use_channel_mentions"
def PERMISSION_CREATE_POST : String := "create_post"
def PERMISSION_CREATE_POST_PUBLIC : String := "create_post_public"

/-! ## The migration catalog (lines 155-323) -/

/-- Go's `error`, as `DoPermissionsMigrations` and the rule-list builders
return it: an `*model.AppError` or an error of another kind. -/
inductive GoError where
  | appError (err : AppError)
  | other (message : String)
  deriving DecidableEq

/-- The type `func(*App) (permissionsMap, error)` of a rule-list builder; a
builder may call the scheme iterator, which the log records. -/
abbrev MigrationBuilder (ρ μ : Type) :=
  App ρ μ → World ρ μ → Except GoError permissionsMap × World ρ μ

def getEmojisPermissionsSplitMigration {ρ μ : Type} : MigrationBuilder ρ μ :=
  fun _ w => (Except.ok [
    { On := permissionExists PERMISSION_MANAGE_EMOJIS,
      Add := [PERMISSION_CREATE_EMOJIS, PERMISSION_DELETE_EMOJIS],
      Remove := [PERMISSION_MANAGE_EMOJIS] },
    { On := permissionExists PERMISSION_MANAGE_OTHERS_EMOJIS,
      Add := [PERMISSION_DELETE_OTHERS_EMOJIS],
      Remove := [PERMISSION_MANAGE_OTHERS_EMOJIS] }], w)

def getWebhooksPermissionsSplitMigration {ρ μ : Type} : MigrationBuilder ρ μ :=
  fun _ w => (Except.ok [
    { On := permissionExists PERMISSION_MANAGE_WEBHOOKS,
      Add := [PERMISSION_MANAGE_INCOMING_WEBHOOKS, PERMISSION_MANAGE_OUTGOING_WEBHOOKS],
      Remove := [PERMISSION_MANAGE_WEBHOOKS] },
    { On := permissionExists PERMISSION_MANAGE_OTHERS_WEBHOOKS,
      Add := [PERMISSION_MANAGE_OTHERS_INCOMING_WEBHOOKS,
              PERMISSION_MANAGE_OTHERS_OUTGOING_WEBHOOKS],
      Remove := [PERMISSION_MANAGE_OTHERS_WEBHOOKS] }], w)

def getListJoinPublicPrivateTeamsPermissionsMigration {ρ μ : Type} : MigrationBuilder ρ μ :=
  fun a w => (Except.ok [
    { On := isRole a.SYSTEM_ADMIN_ROLE_ID,
      Add := [PERMISSION_LIST_PRIVATE_TEAMS, PERMISSION_JOIN_PRIVATE_TEAMS],
      Remove := [] },
    { On := isRole a.SYSTEM_USER_ROLE_ID,
      Add := [PERMISSION_LIST_PUBLIC_TEAMS, PERMISSION_JOIN_PUBLIC_TEAMS],
      Remove := [] }], w)

def removePermanentDeleteUserMigration {ρ μ : Type} : MigrationBuilder ρ μ :=
  fun _ w => (Except.ok [
    { On := permissionExists PERMISSION_PERMANENT_DELETE_USER,
      Add := [],
      Remove := [PERMISSION_PERMANENT_DELETE_USER] }], w)

def getAddBotPermissionsMigration {ρ μ : Type} : MigrationBuilder ρ μ :=
  fun a w => (Except.ok [
    { On := isRole a.SYSTEM_ADMIN_ROLE_ID,
      Add := [PERMISSION_CREATE_BOT, PERMISSION_READ_BOTS, PERMISSION_READ_OTHERS_BOTS,
              PERMISSION_MANAGE_BOTS, PERMISSION_MANAGE_OTHERS_BOTS],
      Remove := [] }], w)

def applyChannelManageDeleteToChannelUser {ρ μ : Type} : MigrationBuilder ρ μ :=
  fun a w => (Except.ok [
    { On := permissionAnd [isRole a.CHANNEL_USER_ROLE_ID,
        onOtherRole a.TEAM_USER_ROLE_ID
          (permissionExists PERMISSION_MANAGE_PRIVATE_CHANNEL_PROPERTIES)],
      Add := [PERMISSION_MANAGE_PRIVATE_CHANNEL_PROPERTIES],
      Remove := [] },
    { On := permissionAnd [isRole a.CHANNEL_USER_ROLE_ID,
        onOtherRole a.TEAM_USER_ROLE_ID (permissionExists PERMISSION_DELETE_PRIVATE_CHANNEL)],
      Add := [PERMISSION_DELETE_PRIVATE_CHANNEL],
      Remove := [] },
    { On := permissionAnd [isRole a.CHANNEL_USER_ROLE_ID,
        onOtherRole a.TEAM_USER_ROLE_ID
          (permissionExists PERMISSION_MANAGE_PUBLIC_CHANNEL_PROPERTIES)],
      Add := [PERMISSION_MANAGE_PUBLIC_CHANNEL_PROPERTIES],
      Remove := [] },
    { On := permissionAnd [isRole a.CHANNEL_USER_ROLE_ID,
        onOtherRole a.TEAM_USER_ROLE_ID (permissionExists PERMISSION_DELETE_PUBLIC_CHANNEL)],
      Add := [PERMISSION_DELETE_PUBLIC_CHANNEL],
      Remove := [] }], w)

def removeChannelManageDeleteFromTeamUser {ρ μ : Type} : MigrationBuilder ρ μ :=
  fun a w => (Except.ok [
    { On := permissionAnd [isRole a.TEAM_USER_ROLE_ID,
        permissionExists PERMISSION_MANAGE_PRIVATE_CHANNEL_PROPERTIES],
      Add := [],
      Remove := [PERMISSION_MANAGE_PRIVATE_CHANNEL_PROPERTIES] },
    { On := permissionAnd [isRole a.TEAM_USER_ROLE_ID,
        permissionExists PERMISSION_DELETE_PRIVATE_CHANNEL],
      Add := [],
      Remove := [a.PERMISSION_DELETE_PRIVATE_CHANNEL_Id] },
    { On := permissionAnd [isRole a.TEAM_USER_ROLE_ID,
        permissionExists PERMISSION_MANAGE_PUBLIC_CHANNEL_PROPERTIES],
      Add := [],
      Remove := [PERMISSION_MANAGE_PUBLIC_CHANNEL_PROPERTIES] },
    { On := permissionAnd [isRole a.TEAM_USER_ROLE_ID,
        permissionExists PERMISSION_DELETE_PUBLIC_CHANNEL],
      Add := [],
      Remove := [PERMISSION_DELETE_PUBLIC_CHANNEL] }], w)

def getViewMembersPermissionMigration {ρ μ : Type} : MigrationBuilder ρ μ :=
  fun a w => (Except.ok [
    { On := isRole a.SYSTEM_USER_ROLE_ID, Add := [PERMISSION_VIEW_MEMBERS], Remove := [] },
    { On := isRole a.SYSTEM_ADMIN_ROLE_ID, Add := [PERMISSION_VIEW_MEMBERS], Remove := [] }], w)

def getAddManageGuestsPermissionsMigration {ρ μ : Type} : MigrationBuilder ρ μ :=
  fun a w => (Except.ok [
    { On := isRole a.SYSTEM_ADMIN_ROLE_ID,
      Add := [PERMISSION_PROMOTE_GUEST, PERMISSION_DEMOTE_TO_GUEST, PERMISSION_INVITE_GUEST],
      Remove := [] }], w)

/-- The local struct `rolePair` of `channelModerationPermissionsMigration`. -/
structure rolePair where
  targetRole : String
  otherRole : String
  deriving DecidableEq

/-- The loop of lines 299-301 over the batches of the scheme iterator: it
stops at the first empty batch; every call of `next` is logged. -/
def collectTeamSchemes :
    List (List Scheme) → List Scheme → List StoreCall → List Scheme × List StoreCall
  | [], allTeamSchemes, calls => (allTeamSchemes, calls ++ [StoreCall.schemesNext])
  | schemeBatch :: rest, allTeamSchemes, calls =>
      if schemeBatch.length > 0 then
        collectTeamSchemes rest (allTeamSchemes ++ schemeBatch) (calls ++ [StoreCall.schemesNext])
      else (allTeamSchemes, calls ++ [StoreCall.schemesNext])

/-- The rule of lines 309-312 for one role pair and one moderated permission. -/
def moderationTransformation (pair : rolePair) (perm : String) : permissionTransformation :=
  { On := permissionAnd [isRole pair.targetRole,
      onOtherRole pair.otherRole (permissionExists perm)],
    Add := [perm],
    Remove := [] }

def channelModerationPermissionsMigration {ρ μ : Type} : MigrationBuilder ρ μ :=
  fun a w =>
    let rolePairs0 : List rolePair :=
      [{ targetRole := a.CHANNEL_ADMIN_ROLE_ID, otherRole := a.CHANNEL_USER_ROLE_ID }]
    let collected := collectTeamSchemes (a.SchemesIterator a.SCHEME_SCOPE_TEAM 100) [] w.calls
    let rolePairs := collected.1.foldl
      (fun pairs ts => pairs ++ [{ targetRole := ts.DefaultChannelAdminRole,
                                   otherRole := ts.DefaultChannelUserRole }]) rolePairs0
    let transformations : permissionsMap := rolePairs.foldl
      (fun acc pair => a.ModeratedPermissions.keys.foldl
        (fun acc1 perm => acc1 ++ [moderationTransformation pair perm]) acc) []
    (Except.ok (transformations ++ [
      { On := permissionOr [permissionExists PERMISSION_CREATE_POST,
          permissionExists PERMISSION_CREATE_POST_PUBLIC],
        Add := [PERMISSION_USE_CHANNEL_MENTIONS],
        Remove := [] }]), { w with calls := collected.2 })

/-! ## DoPermissionsMigrations (lines 326-353) -/

/-- An entry of the local table `PermissionsMigrations`. -/
structure MigrationEntry (ρ μ : Type) where
  Key : String
  Migration : MigrationBuilder ρ μ

/-- The table `PermissionsMigrations` of lines 327-341. -/
def PermissionsMigrations {ρ μ : Type} (a : App ρ μ) : List (MigrationEntry ρ μ) :=
  [ { Key := a.MIGRATION_KEY_EMOJI_PERMISSIONS_SPLIT,
      Migration := getEmojisPermissionsSplitMigration },
    { Key := a.MIGRATION_KEY_WEBHOOK_PERMISSIONS_SPLIT,
      Migration := getWebhooksPermissionsSplitMigration },
    { Key := a.MIGRATION_KEY_LIST_JOIN_PUBLIC_PRIVATE_TEAMS,
      Migration := getListJoinPublicPrivateTeamsPermissionsMigration },
    { Key := a.MIGRATION_KEY_REMOVE_PERMANENT_DELETE_USER,
      Migration := removePermanentDeleteUserMigration },
    { Key := a.MIGRATION_KEY_ADD_BOT_PERMISSIONS,
      Migration := getAddBotPermissionsMigration },
    { Key := a.MIGRATION_KEY_APPLY_CHANNEL_MANAGE_DELETE_TO_CHANNEL_USER,
      Migration := applyChannelManageDeleteToChannelUser },
    { Key := a.MIGRATION_KEY_REMOVE_CHANNEL_MANAGE_DELETE_FROM_TEAM_USER,
      Migration := removeChannelManageDeleteFromTeamUser },
    { Key := a.MIGRATION_KEY_VIEW_MEMBERS_NEW_PERMISSION,
      Migration := getViewMembersPermissionMigration },
    { Key := a.MIGRATION_KEY_ADD_MANAGE_GUESTS_PERMISSIONS,
      Migration := getAddManageGuestsPermissionsMigration },
    { Key := a.MIGRATION_KEY_CHANNEL_MODERATIONS_PERMISSIONS,
      Migration := channelModerationPermissionsMigration } ]

/-- The loop of lines 343-351 over the entries of the table. -/
def runPermissionsMigrations {ρ μ : Type} (a : App ρ μ) :
    List (MigrationEntry ρ μ) → World ρ μ → Option (Option GoError × World ρ μ)
  | [], w => some (none, w)
  | migration :: rest, w =>
      match migration.Migration a w with
      | (Except.error err, w1) => some (some err, w1)
      | (Except.ok migMap, w1) =>
          match doPermissionsMigration a migration.Key migMap w1 with
          | none => none
          | some (some err, w2) => some (some (GoError.appError err), w2)
          | some (none, w2) => runPermissionsMigrations a rest w2

/-- The method `DoPermissionsMigrations`. -/
def DoPermissionsMigrations {ρ μ : Type} (a : App ρ μ) (w : World ρ μ) :
    Option (Option GoError × World ρ μ) :=
  runPermissionsMigrations a (PermissionsMigrations a) w

/-! ## The role pass of doPermissionsMigration, without the store -/

/-- The in-memory part of the loop of lines 142-147: `applyPermissionsMap` for
each role in list order on the shared snapshot, and the role with its
permission list overwritten (line 143), as it is handed to the store. -/
def updateRoles (migrationMap : permissionsMap) :
    List Role → RoleMap → Option (List Role × RoleMap)
  | [], roleMap => some ([], roleMap)
  | role :: rest, roleMap =>
      match applyPermissionsMap role.Name roleMap migrationMap with
      | none => none
      | some (permissions, roleMap1) =>
          match updateRoles migrationMap rest roleMap1 with
          | none => none
          | some (updated, final) => some ({ role with Permissions := permissions } :: updated, final)

/-- The role pass of lines 134-143: build the snapshot from the loaded roles,
then update every role in list order. -/
def rolePass (migrationMap : permissionsMap) (roles : List Role) : Option (List Role) :=
  match buildRoleMap roles ∅ with
  | none => none
  | some roleMap =>
      match updateRoles migrationMap roles roleMap with
      | none => none
      | some (updated, _) => some updated

/-- The state of the role store after the given roles were handed to
`RoleSave` one after the other. -/
def roleStoreAfter {ρ μ : Type} (a : App ρ μ) (saved : List Role) (roles : ρ) : ρ :=
  saved.foldl (fun st role => (a.RoleSave st role).2) roles

/-! ## An in-memory instance of the collaborators

Used to evaluate the embedding on concrete inputs. -/

/-- An in-memory role store and marker store: `RoleSave` replaces the stored
role of the same `Id` and fails for the role names of `failRole`;
`SystemSave` appends the marker and fails for the keys of `failMarker`. -/
def memApp (failRole failMarker : List String) (schemes : List (List Scheme))
    (moderated : AList (fun _ : String => String)) : App (List Role) (List System) where
  SystemGetByName := fun markers key =>
    match markers.find? (fun m => decide (m.Name = key)) with
    | some m => Except.ok m
    | none => Except.error { Id := "store.sql_system.get_by_name.app_error" }
  SystemSave := fun markers m =>
    if m.Name ∈ failMarker then (some { Id := "store.sql_system.save.app_error" }, markers)
    else (none, markers ++ [m])
  GetAllRoles := fun roles => Except.ok roles
  RoleSave := fun roles role =>
    if role.Name ∈ failRole then (Except.error { Id := "store.sql_role.save.update.app_error" }, roles)
    else (Except.ok role, roles.map (fun r => if r.Id = role.Id then role else r))
  SchemesIterator := fun _ _ => schemes
  ModeratedPermissions := moderated
  SCHEME_SCOPE_TEAM := "team"
  SYSTEM_ADMIN_ROLE_ID := "system_admin"
  SYSTEM_USER_ROLE_ID := "system_user"
  TEAM_USER_ROLE_ID := "team_user"
  CHANNEL_USER_ROLE_ID := "channel_user"
  CHANNEL_ADMIN_ROLE_ID := "channel_admin"
  PERMISSION_DELETE_PRIVATE_CHANNEL_Id := "delete_private_channel"
  MIGRATION_KEY_EMOJI_PERMISSIONS_SPLIT := "emoji_permissions_split"
  MIGRATION_KEY_WEBHOOK_PERMISSIONS_SPLIT := "webhook_permissions_split"
  MIGRATION_KEY_LIST_JOIN_PUBLIC_PRIVATE_TEAMS := "list_join_public_private_teams"
  MIGRATION_KEY_REMOVE_PERMANENT_DELETE_USER := "remove_permanent_delete_user"
  MIGRATION_KEY_ADD_BOT_PERMISSIONS := "add_bot_permissions"
  MIGRATION_KEY_APPLY_CHANNEL_MANAGE_DELETE_TO_CHANNEL_USER :=
    "apply_channel_manage_delete_to_channel_user"
  MIGRATION_KEY_REMOVE_CHANNEL_MANAGE_DELETE_FROM_TEAM_USER :=
    "remove_channel_manage_delete_from_team_user"
  MIGRATION_KEY_VIEW_MEMBERS_NEW_PERMISSION := "view_members_new_permission"
  MIGRATION_KEY_ADD_MANAGE_GUESTS_PERMISSIONS := "add_manage_guests_permissions"
  MIGRATION_KEY_CHANNEL_MODERATIONS_PERMISSIONS := "channel_moderations_permissions"

/-- The snapshot with the given roles, each holding the listed permissions. -/
def snapshotOf (roles : List (String × List String)) : RoleMap :=
  roles.foldr (fun r acc =>
    acc.insert r.1 (r.2.foldr (fun p inner => inner.insert p true) ∅)) ∅

/-- Three roles used to evaluate the embedding on concrete inputs. -/
def sampleRoles : List Role :=
  [ { Id := "1", Name := "system_admin", Permissions := ["manage_emojis", "manage_system"] },
    { Id := "2", Name := "team_user", Permissions := ["manage_emojis"] },
    { Id := "3", Name := "channel_user", Permissions := ["create_post"] } ]

/-- A world with the sample roles, no marker and an empty call log. -/
def sampleWorld : World (List Role) (List System) :=
  { roles := sampleRoles, system := [], calls := [] }

/-- The first rule of the emoji split (lines 157-161). -/
def sampleRules : permissionsMap :=
  [{ On := permissionExists PERMISSION_MANAGE_EMOJIS,
     Add := [PERMISSION_CREATE_EMOJIS, PERMISSION_DELETE_EMOJIS],
     Remove := [PERMISSION_MANAGE_EMOJIS] }]

/-- Two roles for the cross-role rule: the channel user holds `q`. -/
def crossRoles : List Role :=
  [⟨"1", "channel_admin", []⟩, ⟨"2", "channel_user", ["q"]⟩]

/-- A world with the cross-role roles, no marker and an empty call log. -/
def crossWorld : World (List Role) (List System) :=
  { roles := crossRoles, system := [], calls := [] }

/-- The world a migration with the cross-role rule leaves from `crossWorld`. -/
def crossWorldAfter : World (List Role) (List System) :=
  { roles := [⟨"1", "channel_admin", ["r"]⟩, ⟨"2", "channel_user", ["r", "q"]⟩],
    system := [⟨"k", "true"⟩],
    calls := [ StoreCall.systemGetByName "k", StoreCall.getAllRoles,
               StoreCall.roleSave ⟨"1", "channel_admin", ["r"]⟩,
               StoreCall.roleSave ⟨"2", "channel_user", ["r", "q"]⟩,
               StoreCall.systemSave ⟨"k", "true"⟩ ] }

/-! ## The specification of rule application, in the words of the spec -/

/-- What one rule does to the snapshot, as the spec words it: when the
condition holds on the current snapshot, in the subject role's entry every
permission of `Add` is set to true and then every permission of `Remove` to
false (so a permission of both lists ends false), the entry stays present and
no other role's entry changes; when the condition does not hold, nothing
changes. -/
def SpecRuleStep (subject : String) (rule : permissionTransformation)
    (before after : RoleMap) : Prop :=
  if rule.On subject before = true then
    (after.lookup subject).isSome = true ∧
    (∀ r, r ≠ subject → after.lookup r = before.lookup r) ∧
    (∀ p, readPermission after subject p =
      if p ∈ rule.Remove then some false
      else if p ∈ rule.Add then some true
      else readPermission before subject p)
  else after = before

/-- The final snapshot of a rule list: the rules are folded left to right,
each acting on the snapshot its predecessors left. -/
def SpecFinalSnapshot (subject : String) : permissionsMap → RoleMap → RoleMap → Prop
  | [], before, final => final = before
  | rule :: rest, before, final =>
      ∃ mid, SpecRuleStep subject rule before mid ∧ SpecFinalSnapshot subject rest mid final

/-! ## The specification of the catalog loop, in the words of the spec -/

/-- A catalog entry runs without error from `w` to `w1`: its builder returns a
rule list and `doPermissionsMigration` returns no error. -/
def EntrySucceeds {ρ μ : Type} (a : App ρ μ) (entry : MigrationEntry ρ μ)
    (w w1 : World ρ μ) : Prop :=
  ∃ migMap w0, entry.Migration a w = (Except.ok migMap, w0) ∧
    doPermissionsMigration a entry.Key migMap w0 = some (none, w1)

/-- A catalog entry fails with `err` from `w`, leaving `w1`: its builder
returns `err`, or `doPermissionsMigration` returns it. -/
def EntryFails {ρ μ : Type} (a : App ρ μ) (entry : MigrationEntry ρ μ)
    (w : World ρ μ) (err : GoError) (w1 : World ρ μ) : Prop :=
  entry.Migration a w = (Except.error err, w1) ∨
  ∃ migMap w0 appErr, entry.Migration a w = (Except.ok migMap, w0) ∧
    doPermissionsMigration a entry.Key migMap w0 = some (some appErr, w1) ∧
    err = GoError.appError appErr

/-- The entries of a list run one after the other without error, each from the
world its predecessor left. -/
def EntriesSucceed {ρ μ : Type} (a : App ρ μ) :
    List (MigrationEntry ρ μ) → World ρ μ → World ρ μ → Prop
  | [], w, w1 => w1 = w
  | entry :: rest, w, w1 => ∃ mid, EntrySucceeds a entry w mid ∧ EntriesSucceed a rest mid w1

/-- The marker store finds the key. -/
def MarkerFound {ρ μ : Type} (a : App ρ μ) (system : μ) (key : String) : Prop :=
  ∃ marker, a.SystemGetByName system key = Except.ok marker

/-- A world in which only the first migration can complete: the marker write
of the webhook split fails. -/
def sampleWorldAfterEmoji : World (List Role) (List System) :=
  { roles := [ ⟨"1", "system_admin", ["delete_emojis", "create_emojis", "manage_system"]⟩,
               ⟨"2", "team_user", ["delete_emojis", "create_emojis"]⟩,
               ⟨"3", "channel_user", ["create_post"]⟩ ],
    system := [⟨"emoji_permissions_split", "true"⟩],
    calls := [ StoreCall.systemGetByName "emoji_permissions_split", StoreCall.getAllRoles,
               StoreCall.roleSave
                 ⟨"1", "system_admin", ["delete_emojis", "create_emojis", "manage_system"]⟩,
               StoreCall.roleSave ⟨"2", "team_user", ["delete_emojis", "create_emojis"]⟩,
               StoreCall.roleSave ⟨"3", "channel_user", ["create_post"]⟩,
               StoreCall.systemSave ⟨"emoji_permissions_split", "true"⟩ ] }

/-- The world the failing marker write of the webhook split leaves from
`sampleWorldAfterEmoji`: the roles are saved a second time, no marker is added. -/
def sampleWorldAfterWebhook : World (List Role) (List System) :=
  { roles := [ ⟨"1", "system_admin", ["manage_system", "create_emojis", "delete_emojis"]⟩,
               ⟨"2", "team_user", ["create_emojis", "delete_emojis"]⟩,
               ⟨"3", "channel_user", ["create_post"]⟩ ],
    system := [⟨"emoji_permissions_split", "true"⟩],
    calls := sampleWorldAfterEmoji.calls ++
             [ StoreCall.systemGetByName "webhook_permissions_split", StoreCall.getAllRoles,
               StoreCall.roleSave
                 ⟨"1", "system_admin", ["manage_system", "create_emojis", "delete_emojis"]⟩,
               StoreCall.roleSave ⟨"2", "team_user", ["create_emojis", "delete_emojis"]⟩,
               StoreCall.roleSave ⟨"3", "channel_user", ["create_post"]⟩,
               StoreCall.systemSave ⟨"webhook_permissions_split", "true"⟩ ] }

/-- A builder that always returns a rule list and calls nothing but the scheme
iterator. -/
def BuilderQuiet {ρ μ : Type} (a : App ρ μ) (entry : MigrationEntry ρ μ) : Prop :=
  ∀ w : World ρ μ, ∃ migMap extra,
    entry.Migration a w
      = (Except.ok migMap, { roles := w.roles, system := w.system, calls := w.calls ++ extra }) ∧
    ∀ c ∈ extra, c = StoreCall.schemesNext

/-- A world with a single role, no marker and an empty call log. -/
def smallWorld : World (List Role) (List System) :=
  { roles := [⟨"1", "guest", ["read_channel"]⟩], system := [], calls := [] }

/-- The store calls of one migration that changes nothing in `smallWorld`. -/
def smallWorldCalls (key : String) : List StoreCall :=
  [ StoreCall.systemGetByName key, StoreCall.getAllRoles,
    StoreCall.roleSave ⟨"1", "guest", ["read_channel"]⟩,
    StoreCall.systemSave ⟨key, "true"⟩ ]

/-- The migration keys of `memApp`, in the order of the table. -/
def smallKeys : List String :=
  [ "emoji_permissions_split", "webhook_permissions_split", "list_join_public_private_teams",
    "remove_permanent_delete_user", "add_bot_permissions",
    "apply_channel_manage_delete_to_channel_user",
    "remove_channel_manage_delete_from_team_user", "view_members_new_permission",
    "add_manage_guests_permissions", "channel_moderations_permissions" ]

/-- The world after the first `n` migrations ran on `smallWorld`; the last
migration calls the scheme iterator once before its marker lookup. -/
def smallWorldAt (n : Nat) : World (List Role) (List System) :=
  { roles := [⟨"1", "guest", ["read_channel"]⟩],
    system := (smallKeys.take n).map (fun key => ⟨key, "true"⟩),
    calls := ((smallKeys.take (min n 9)).map smallWorldCalls).flatten
      ++ (if n = 10 then StoreCall.schemesNext :: smallWorldCalls "channel_moderations_permissions"
          else []) }

/-- The world a first run of all the migrations leaves from `smallWorld`. -/
def smallWorldAfter : World (List Role) (List System) := smallWorldAt 10

/-! ## Re-running the role pass -/

/-- Two snapshots grant the same permissions: they map the same permissions of
the same roles to true (`permissionExists` reads exactly that). -/
def SameGrants (roleMap roleMap1 : RoleMap) : Prop :=
  ∀ r p, permissionExists p r roleMap = permissionExists p r roleMap1

/-- A condition that only depends on which permissions the snapshot grants. -/
def GrantsCond (c : PermissionPredicate) : Prop :=
  ∀ n roleMap roleMap1, SameGrants roleMap roleMap1 → c n roleMap = c n roleMap1

/-- A condition that only depends on the subject and on the permissions the
snapshot grants to the subject. -/
def LocalCond (c : PermissionPredicate) : Prop :=
  ∀ n roleMap roleMap1,
    (∀ p, permissionExists p n roleMap = permissionExists p n roleMap1) →
    c n roleMap = c n roleMap1

/-- A rule has nothing left to do for role `n` on the snapshot: if its
condition holds, what it removes is not granted and what it adds (and does
not remove) is granted. -/
def Settled (rule : permissionTransformation) (n : String) (roleMap : RoleMap) : Prop :=
  rule.On n roleMap = true →
    (∀ p ∈ rule.Remove, permissionExists p n roleMap = false) ∧
    (∀ p ∈ rule.Add, p ∉ rule.Remove → permissionExists p n roleMap = true)

/-- The role pass run a second time, on the roles the first pass produced,
leaves every role with the permission set the first pass gave it. -/
def RolePassIdempotent (migrationMap : permissionsMap) (roles : List Role) : Prop :=
  ∃ first second, rolePass migrationMap roles = some first ∧
    rolePass migrationMap first = some second ∧
    List.Forall₂ (fun r1 r2 : Role =>
      r2.Name = r1.Name ∧ ∀ p, p ∈ r2.Permissions ↔ p ∈ r1.Permissions) first second

/-- A condition that is monotone in the permissions granted to the subject:
if it holds on a snapshot, it holds on every snapshot that grants the subject
at least the same permissions. -/
def MonoCond (c : PermissionPredicate) : Prop :=
  ∀ n roleMap roleMap1,
    (∀ p, permissionExists p n roleMap1 = true → permissionExists p n roleMap = true) →
    c n roleMap1 = true → c n roleMap = true

/-- A moderated-permission table with the six permissions of channel
moderation (a value for the parameter `ModeratedPermissions`). -/
def moderatedSample : AList (fun _ : String => String) :=
  List.toAList
    [ ⟨"create_post", "create_post"⟩, ⟨"add_reaction", "create_reactions"⟩,
      ⟨"remove_reaction", "create_reactions"⟩,
      ⟨"manage_public_channel_members", "manage_members"⟩,
      ⟨"manage_private_channel_members", "manage_members"⟩,
      ⟨"use_channel_mentions", "use_channel_mentions"⟩ ]

/-- The built-in channel roles, the channel user holding `create_post_public`
only. -/
def moderationRoles : List Role :=
  [⟨"1", "channel_admin", []⟩, ⟨"2", "channel_user", ["create_post_public"]⟩]

/-- The rule list `channelModerationPermissionsMigration` builds for
`moderatedSample` and no scheme. -/
def moderationRules : permissionsMap :=
  match (channelModerationPermissionsMigration (memApp [] [] [] moderatedSample) smallWorld).1 with
  | Except.ok migMap => migMap
  | Except.error _ => []

/-- No rule of the list whose condition holds, on the snapshot it is applied
to, mentions `p` in its Add or Remove list. -/
def NoFiringMention (n p : String) : permissionsMap → RoleMap → Prop
  | [], _ => True
  | rule :: rest, roleMap =>
      (rule.On n roleMap = true → p ∉ rule.Add ∧ p ∉ rule.Remove) ∧
      ∀ roleMap1, applyTransformation n roleMap rule = some roleMap1 →
        NoFiringMention n p rest roleMap1

/-- The schemes of the batches the iterator returns before its first empty
batch, in order. -/
def consumedSchemes (batches : List (List Scheme)) : List Scheme :=
  (batches.takeWhile (fun batch => decide (batch.length > 0))).flatten

/-- The built-in channel admin/user pair followed by the admin/user pair of
every scheme. -/
def moderationRolePairs {ρ μ : Type} (a : App ρ μ) (schemes : List Scheme) : List rolePair :=
  { targetRole := a.CHANNEL_ADMIN_ROLE_ID, otherRole := a.CHANNEL_USER_ROLE_ID } ::
    schemes.map (fun ts =>
      { targetRole := ts.DefaultChannelAdminRole, otherRole := ts.DefaultChannelUserRole })

/-- One moderation rule per role pair and moderated permission, pair by pair. -/
def moderationRulesFor (pairs : List rolePair) (perms : List String) : permissionsMap :=
  (pairs.map (fun pair => perms.map (moderationTransformation pair))).flatten

/-- The last rule of `channelModerationPermissionsMigration` (lines 317-320). -/
def useChannelMentionsRule : permissionTransformation :=
  { On := permissionOr [permissionExists PERMISSION_CREATE_POST,
      permissionExists PERMISSION_CREATE_POST_PUBLIC],
    Add := [PERMISSION_USE_CHANNEL_MENTIONS],
    Remove := [] }

/-- The snapshot with the entry `s[r][p]` deleted (Go `delete(s[r], p)`);
nothing changes when the role has no entry. -/
def deletePermission (roleMap : RoleMap) (r p : String) : RoleMap :=
  match roleMap.lookup r with
  | none => roleMap
  | some inner => roleMap.insert r (inner.erase p)

/-- The conditions built only from `isRole`, `permissionExists`,
`permissionNotExists`, `onOtherRole`, `permissionOr` and `permissionAnd`. -/
inductive BuiltCondition : PermissionPredicate → Prop where
  | isRole (role : String) : BuiltCondition (isRole role)
  | permissionExists (permission : String) : BuiltCondition (permissionExists permission)
  | permissionNotExists (permission : String) : BuiltCondition (permissionNotExists permission)
  | onOtherRole (otherRole : String) (function : PermissionPredicate) :
      BuiltCondition function → BuiltCondition (onOtherRole otherRole function)
  | permissionOr (funcs : List PermissionPredicate) :
      (∀ f ∈ funcs, BuiltCondition f) → BuiltCondition (permissionOr funcs)
  | permissionAnd (funcs : List PermissionPredicate) :
      (∀ f ∈ funcs, BuiltCondition f) → BuiltCondition (permissionAnd funcs)

/-- A snapshot in which role `r` holds `x` and has the entry `p` set to false. -/
def falseEntrySnapshot : RoleMap :=
  (∅ : RoleMap).insert "r" (((∅ : PermissionSet).insert "x" true).insert "p" false)

/-- Every call of `applyPermissionsMap` in the role loop of lines 142-147 is
made with a subject role that has an entry in the snapshot of that moment. -/
def CallsHaveEntry (migrationMap : permissionsMap) : List Role → RoleMap → Prop
  | [], _ => True
  | role :: rest, roleMap =>
      (roleMap.lookup role.Name).isSome = true ∧
      ∀ permissions roleMap1,
        applyPermissionsMap role.Name roleMap migrationMap = some (permissions, roleMap1) →
        CallsHaveEntry migrationMap rest roleMap1

/-! ## Sample store for the channel manage and delete migrations -/

/-- The four permissions the rules of `applyChannelManageDeleteToChannelUser`
(lines 219-238) add, in the order of the rules. -/
def channelManageDeletePermissions : List String :=
  [PERMISSION_MANAGE_PRIVATE_CHANNEL_PROPERTIES, PERMISSION_DELETE_PRIVATE_CHANNEL,
   PERMISSION_MANAGE_PUBLIC_CHANNEL_PROPERTIES, PERMISSION_DELETE_PUBLIC_CHANNEL]

/-- A role store for the channel manage and delete migrations, with the team
user role listed first. -/
def channelRoles : List Role :=
  [ ⟨"1", "team_user", ["manage_private_channel_properties", "delete_public_channel",
      "read_channel"]⟩,
    ⟨"2", "channel_user", ["create_post", "delete_public_channel"]⟩,
    ⟨"3", "system_admin", ["delete_private_channel", "manage_system"]⟩ ]

/-- The world over `channelRoles` with no marker and no call made. -/
def channelWorld : World (List Role) (List System) :=
  { roles := channelRoles, system := [], calls := [] }

/-- The rules `applyChannelManageDeleteToChannelUser` returns on the in-memory
instance. -/
def channelApplyRules : permissionsMap :=
  match (applyChannelManageDeleteToChannelUser (memApp [] [] [] ∅) channelWorld).1 with
  | Except.ok migMap => migMap
  | Except.error _ => []

/-- The rules `removeChannelManageDeleteFromTeamUser` returns on the in-memory
instance. -/
def channelRemoveRules : permissionsMap :=
  match (removeChannelManageDeleteFromTeamUser (memApp [] [] [] ∅) channelWorld).1 with
  | Except.ok migMap => migMap
  | Except.error _ => []

/-- The roles of `channelRoles` as the first of the two migrations saves them. -/
def channelRolesAfterApply : List Role :=
  [ ⟨"1", "team_user", ["read_channel", "delete_public_channel",
      "manage_private_channel_properties"]⟩,
    ⟨"2", "channel_user", ["delete_public_channel", "manage_private_channel_properties",
      "create_post"]⟩,
    ⟨"3", "system_admin", ["manage_system", "delete_private_channel"]⟩ ]

/-- The roles of `channelRoles` as the second of the two migrations saves them. -/
def channelRolesAfterRemove : List Role :=
  [ ⟨"1", "team_user", ["read_channel"]⟩,
    ⟨"2", "channel_user", ["create_post", "manage_private_channel_properties",
      "delete_public_channel"]⟩,
    ⟨"3", "system_admin", ["delete_private_channel", "manage_system"]⟩ ]

/-- The world after the first of the two migrations ran on `channelWorld`. -/
def channelWorldAfterApply : World (List Role) (List System) :=
  { roles := channelRolesAfterApply,
    system := [⟨"apply_channel_manage_delete_to_channel_user", "true"⟩],
    calls := [ StoreCall.systemGetByName "apply_channel_manage_delete_to_channel_user",
               StoreCall.getAllRoles ]
      ++ channelRolesAfterApply.map StoreCall.roleSave
      ++ [StoreCall.systemSave ⟨"apply_channel_manage_delete_to_channel_user", "true"⟩] }

/-- The world after both migrations ran on `channelWorld`. -/
def channelWorldAfterRemove : World (List Role) (List System) :=
  { roles := channelRolesAfterRemove,
    system := [ ⟨"apply_channel_manage_delete_to_channel_user", "true"⟩,
                ⟨"remove_channel_manage_delete_from_team_user", "true"⟩ ],
    calls := channelWorldAfterApply.calls
      ++ [ StoreCall.systemGetByName "remove_channel_manage_delete_from_team_user",
           StoreCall.getAllRoles ]
      ++ channelRolesAfterRemove.map StoreCall.roleSave
      ++ [StoreCall.systemSave ⟨"remove_channel_manage_delete_from_team_user", "true"⟩] }

/-! ## Lemmas on the snapshot writes -/

theorem writePermission_of_lookup {roleMap : RoleMap} {roleName : String} {inner : PermissionSet}
    (h : roleMap.lookup roleName = some inner) (permission : String) (value : Bool) :
    writePermission roleMap roleName permission value
      = some (roleMap.insert roleName (inner.insert permission value)) := by
  simp [writePermission, h]

/-- The effect of a write loop on a snapshot that has an entry for the role. -/
theorem writePermissions_spec (roleName : String) (value : Bool) (permissions : List String) :
    ∀ (roleMap : RoleMap) (inner : PermissionSet), roleMap.lookup roleName = some inner →
      ∃ roleMap1 inner1, writePermissions roleName value permissions roleMap = some roleMap1 ∧
        roleMap1.lookup roleName = some inner1 ∧
        (∀ r, r ≠ roleName → roleMap1.lookup r = roleMap.lookup r) ∧
        (∀ p, inner1.lookup p = if p ∈ permissions then some value else inner.lookup p) := by
  induction permissions with
  | nil =>
      intro roleMap inner h
      exact ⟨roleMap, inner, rfl, h, fun _ _ => rfl, fun p => by simp⟩
  | cons permission rest ih =>
      intro roleMap inner h
      have hw := writePermission_of_lookup h permission value
      obtain ⟨roleMap1, inner1, h1, h2, h3, h4⟩ :=
        ih (roleMap.insert roleName (inner.insert permission value))
          (inner.insert permission value) (AList.lookup_insert _)
      refine ⟨roleMap1, inner1, ?_, h2, ?_, ?_⟩
      · simp only [writePermissions, hw]
        exact h1
      · intro r hr
        rw [h3 r hr, AList.lookup_insert_ne hr]
      · intro p
        rw [h4 p]
        by_cases hp : p ∈ rest
        · simp [hp]
        · by_cases hpe : p = permission
          · subst hpe
            simp [AList.lookup_insert]
          · simp [hp, hpe, AList.lookup_insert_ne hpe]

theorem readPermission_of_lookup {roleMap : RoleMap} {roleName : String} {inner : PermissionSet}
    (h : roleMap.lookup roleName = some inner) (p : String) :
    readPermission roleMap roleName p = inner.lookup p := by
  simp [readPermission, h]

/-- One rule on a snapshot that has an entry for the subject role: the step
does not panic and acts as the spec words it. -/
theorem applyTransformation_spec (roleName : String) (roleMap : RoleMap)
    (transformation : permissionTransformation)
    (h : (roleMap.lookup roleName).isSome = true) :
    ∃ roleMap1, applyTransformation roleName roleMap transformation = some roleMap1 ∧
      (roleMap1.lookup roleName).isSome = true ∧
      (∀ r, r ≠ roleName → roleMap1.lookup r = roleMap.lookup r) ∧
      SpecRuleStep roleName transformation roleMap roleMap1 := by
  obtain ⟨inner, hin⟩ := Option.isSome_iff_exists.mp h
  by_cases hOn : transformation.On roleName roleMap = true
  · obtain ⟨rmA, inA, hA1, hA2, hA3, hA4⟩ :=
      writePermissions_spec roleName true transformation.Add roleMap inner hin
    obtain ⟨rmR, inR, hR1, hR2, hR3, hR4⟩ :=
      writePermissions_spec roleName false transformation.Remove rmA inA hA2
    have hframe : ∀ r, r ≠ roleName → rmR.lookup r = roleMap.lookup r := by
      intro r hr
      rw [hR3 r hr, hA3 r hr]
    refine ⟨rmR, ?_, by simp [hR2], hframe, ?_⟩
    · simp only [applyTransformation, hOn, if_true, hA1]
      exact hR1
    · simp only [SpecRuleStep, hOn, if_true]
      refine ⟨by simp [hR2], hframe, ?_⟩
      intro p
      rw [readPermission_of_lookup hR2, readPermission_of_lookup hin, hR4 p, hA4 p]
  · refine ⟨roleMap, ?_, h, fun _ _ => rfl, ?_⟩
    · simp [applyTransformation, hOn]
    · simp [SpecRuleStep, hOn]

/-- The rule loop on a snapshot that has an entry for the subject role. -/
theorem applyTransformations_spec (roleName : String) (migrationMap : permissionsMap) :
    ∀ (roleMap : RoleMap), (roleMap.lookup roleName).isSome = true →
      ∃ final, applyTransformations roleName migrationMap roleMap = some final ∧
        (final.lookup roleName).isSome = true ∧
        (∀ r, r ≠ roleName → final.lookup r = roleMap.lookup r) ∧
        SpecFinalSnapshot roleName migrationMap roleMap final := by
  induction migrationMap with
  | nil =>
      intro roleMap h
      exact ⟨roleMap, rfl, h, fun _ _ => rfl, rfl⟩
  | cons transformation rest ih =>
      intro roleMap h
      obtain ⟨mid, hm1, hm2, hm3, hm4⟩ := applyTransformation_spec roleName roleMap transformation h
      obtain ⟨final, hf1, hf2, hf3, hf4⟩ := ih mid hm2
      refine ⟨final, ?_, hf2, ?_, mid, hm4, hf4⟩
      · simp only [applyTransformations, hm1]
        exact hf1
      · intro r hr
        rw [hf3 r hr, hm3 r hr]

theorem collectActive_eq (entries : List (Sigma fun _ : String => Bool)) :
    ∀ result, collectActive entries result
      = result ++ (entries.filter (fun e => e.2)).map (fun e => e.1) := by
  induction entries with
  | nil => intro result; simp [collectActive]
  | cons e rest ih =>
      intro result
      by_cases he : e.2 = true
      · simp [collectActive, he, ih]
      · simp [collectActive, he, ih]

theorem collectActive_nodup (inner : PermissionSet) : (collectActive inner.entries []).Nodup := by
  rw [collectActive_eq]
  have hk : (inner.entries.map (fun e => e.1)).Nodup := inner.keys_nodup
  have hs : ((inner.entries.filter (fun e => e.2)).map (fun e => e.1)).Sublist
      (inner.entries.map (fun e => e.1)) := (List.filter_sublist _).map _
  simpa using hs.nodup hk

theorem mem_collectActive (inner : PermissionSet) (p : String) :
    p ∈ collectActive inner.entries [] ↔ inner.lookup p = some true := by
  rw [collectActive_eq]
  have key : inner.lookup p = some true ↔ (⟨p, true⟩ : Sigma fun _ : String => Bool) ∈ inner.entries :=
    AList.mem_lookup_iff
  rw [key]
  simp only [List.nil_append, List.mem_map, List.mem_filter]
  constructor
  · rintro ⟨⟨k, v⟩, ⟨hmem, hv⟩, hk⟩
    simp only at hv hk
    subst hv
    subst hk
    exact hmem
  · intro h
    exact ⟨⟨p, true⟩, ⟨h, rfl⟩, rfl⟩

/-- The contract of `applyPermissionsMap` on a snapshot that has an entry for
the subject role: no panic, the final snapshot is the fold of the rules, the
subject keeps its entry, no other entry changes, and the returned list is
duplicate-free and holds exactly the permissions that are true in the final
entry. -/
theorem applyPermissionsMap_spec (roleName : String) (roleMap : RoleMap)
    (migrationMap : permissionsMap) (h : (roleMap.lookup roleName).isSome = true) :
    ∃ result final, applyPermissionsMap roleName roleMap migrationMap = some (result, final) ∧
      SpecFinalSnapshot roleName migrationMap roleMap final ∧
      (final.lookup roleName).isSome = true ∧
      (∀ r, r ≠ roleName → final.lookup r = roleMap.lookup r) ∧
      result.Nodup ∧
      (∀ p, p ∈ result ↔ readPermission final roleName p = some true) := by
  obtain ⟨final, hf1, hf2, hf3, hf4⟩ := applyTransformations_spec roleName migrationMap roleMap h
  obtain ⟨inner, hin⟩ := Option.isSome_iff_exists.mp hf2
  refine ⟨collectActive inner.entries [], final, ?_, hf4, hf2, hf3, collectActive_nodup inner, ?_⟩
  · simp [applyPermissionsMap, hf1, hin]
  · intro p
    rw [mem_collectActive, readPermission_of_lookup hin]

/-! ## Lemmas on the role pass -/

theorem applyPermissionsMap_keeps_entries {roleName : String} {roleMap final : RoleMap}
    {migrationMap : permissionsMap} {result : List String}
    (h : (roleMap.lookup roleName).isSome = true)
    (hap : applyPermissionsMap roleName roleMap migrationMap = some (result, final))
    (n : String) (hn : (roleMap.lookup n).isSome = true) : (final.lookup n).isSome = true := by
  obtain ⟨result1, final1, h1, _, h3, h4, _, _⟩ :=
    applyPermissionsMap_spec roleName roleMap migrationMap h
  rw [hap] at h1
  cases h1
  by_cases hne : n = roleName
  · subst hne
    exact h3
  · rw [h4 n hne]
    exact hn

/-- The snapshot built from the loaded roles: never a panic; every role name
has an entry; with unique names the entry of a role maps exactly its
permissions to true. -/
theorem buildRoleMap_spec (roles : List Role) : ∀ init : RoleMap,
    ∃ roleMap, buildRoleMap roles init = some roleMap ∧
      (∀ n, n ∉ roles.map Role.Name → roleMap.lookup n = init.lookup n) ∧
      (∀ n, (init.lookup n).isSome = true → (roleMap.lookup n).isSome = true) ∧
      (∀ role ∈ roles, (roleMap.lookup role.Name).isSome = true) ∧
      ((roles.map Role.Name).Nodup → ∀ role ∈ roles, ∃ inner,
        roleMap.lookup role.Name = some inner ∧
        ∀ p, inner.lookup p = if p ∈ role.Permissions then some true else none) := by
  induction roles with
  | nil =>
      intro init
      exact ⟨init, rfl, fun _ _ => rfl, fun _ h => h, by simp, by simp⟩
  | cons role rest ih =>
      intro init
      obtain ⟨rm1, inner1, hw, hl, hframe, hcontent⟩ :=
        writePermissions_spec role.Name true role.Permissions (init.insert role.Name ∅) ∅
          (AList.lookup_insert _)
      obtain ⟨rm, hb, h1, h2, h3, h4⟩ := ih rm1
      refine ⟨rm, ?_, ?_, ?_, ?_, ?_⟩
      · simp only [buildRoleMap, seedPermissions, hw]
        exact hb
      · intro n hn
        simp only [List.map_cons, List.mem_cons, not_or] at hn
        rw [h1 n hn.2, hframe n hn.1, AList.lookup_insert_ne hn.1]
      · intro n hn
        apply h2
        by_cases hne : n = role.Name
        · subst hne
          simp [hl]
        · rw [hframe n hne, AList.lookup_insert_ne hne]
          exact hn
      · intro r hr
        rcases List.mem_cons.mp hr with hr | hr
        · subst hr
          apply h2
          simp [hl]
        · exact h3 r hr
      · intro hnd r hr
        simp only [List.map_cons, List.nodup_cons] at hnd
        rcases List.mem_cons.mp hr with hr | hr
        · subst hr
          refine ⟨inner1, ?_, ?_⟩
          · rw [h1 _ hnd.1]
            exact hl
          · intro p
            rw [hcontent p, AList.lookup_empty]
        · exact h4 hnd.2 r hr

/-- The in-memory role loop on a snapshot holding an entry for every role
name: never a panic, one updated role per role, entries are kept. -/
theorem updateRoles_spec (migrationMap : permissionsMap) (roles : List Role) :
    ∀ roleMap : RoleMap, (∀ role ∈ roles, (roleMap.lookup role.Name).isSome = true) →
      ∃ updated final, updateRoles migrationMap roles roleMap = some (updated, final) ∧
        updated.length = roles.length ∧
        (∀ n, (roleMap.lookup n).isSome = true → (final.lookup n).isSome = true) := by
  induction roles with
  | nil =>
      intro roleMap _
      exact ⟨[], roleMap, rfl, rfl, fun _ h => h⟩
  | cons role rest ih =>
      intro roleMap hall
      have hrole := hall role (List.mem_cons_self _ _)
      obtain ⟨result, mid, hap, _⟩ := applyPermissionsMap_spec role.Name roleMap migrationMap hrole
      have hkeep := applyPermissionsMap_keeps_entries hrole hap
      obtain ⟨updated, final, hu, hlen, hk⟩ :=
        ih mid (fun r hr => hkeep r.Name (hall r (List.mem_cons_of_mem _ hr)))
      refine ⟨{ role with Permissions := result } :: updated, final, ?_, ?_, ?_⟩
      · simp only [updateRoles, hap, hu]
      · simp [hlen]
      · intro n hn
        exact hk n (hkeep n hn)

/-- The role pass never panics and yields one updated role per loaded role. -/
theorem rolePass_total (migrationMap : permissionsMap) (roles : List Role) :
    ∃ roleMap updated final, buildRoleMap roles ∅ = some roleMap ∧
      updateRoles migrationMap roles roleMap = some (updated, final) ∧
      rolePass migrationMap roles = some updated ∧ updated.length = roles.length := by
  obtain ⟨roleMap, hb, _, _, h3, _⟩ := buildRoleMap_spec roles ∅
  obtain ⟨updated, final, hu, hlen, _⟩ := updateRoles_spec migrationMap roles roleMap h3
  exact ⟨roleMap, updated, final, hb, hu, by simp [rolePass, hb, hu], hlen⟩

theorem roleStoreAfter_cons {ρ μ : Type} (a : App ρ μ) (role : Role) (saved : List Role)
    (roles : ρ) :
    roleStoreAfter a (role :: saved) roles = roleStoreAfter a saved (a.RoleSave roles role).2 :=
  rfl

/-- The save loop when every save succeeds: all updated roles are saved, in
order, and nothing else is called. -/
theorem saveRoles_all_ok {ρ μ : Type} (a : App ρ μ) (migrationMap : permissionsMap)
    (roles : List Role) :
    ∀ (roleMap : RoleMap) (w : World ρ μ) (updated : List Role) (final : RoleMap),
      updateRoles migrationMap roles roleMap = some (updated, final) →
      (∀ i r, updated[i]? = some r →
        ∃ r1, (a.RoleSave (roleStoreAfter a (updated.take i) w.roles) r).1 = Except.ok r1) →
      saveRoles a migrationMap roles roleMap w
        = some (none, final,
            { roles := roleStoreAfter a updated w.roles, system := w.system,
              calls := w.calls ++ updated.map StoreCall.roleSave }) := by
  induction roles with
  | nil =>
      intro roleMap w updated final hu _
      simp only [updateRoles, Option.some.injEq, Prod.mk.injEq] at hu
      obtain ⟨h1, h2⟩ := hu
      subst h1
      subst h2
      simp [saveRoles, roleStoreAfter]
  | cons role rest ih =>
      intro roleMap w updated final hu hok
      simp only [updateRoles] at hu
      cases hap : applyPermissionsMap role.Name roleMap migrationMap with
      | none => simp [hap] at hu
      | some pr =>
          obtain ⟨permissions, mid⟩ := pr
          simp only [hap] at hu
          cases hrest : updateRoles migrationMap rest mid with
          | none => simp [hrest] at hu
          | some pr2 =>
              obtain ⟨updated1, final1⟩ := pr2
              simp only [hrest, Option.some.injEq, Prod.mk.injEq] at hu
              obtain ⟨h1, h2⟩ := hu
              subst h1
              subst h2
              obtain ⟨r1, hr1⟩ := hok 0 _ (List.getElem?_cons_zero)
              simp only [List.take_zero, roleStoreAfter, List.foldl_nil] at hr1
              cases hsave : a.RoleSave w.roles { role with Permissions := permissions } with
              | mk res roles1 =>
                  rw [hsave] at hr1
                  simp only at hr1
                  subst hr1
                  have := ih mid
                    { w with roles := roles1,
                             calls := w.calls ++
                               [StoreCall.roleSave { role with Permissions := permissions }] }
                    updated1 final1 hrest (by
                      intro i r hi
                      have := hok (i + 1) r (by simpa using hi)
                      simpa [roleStoreAfter, hsave] using this)
                  simp only [saveRoles, hap, hsave, this]
                  simp [roleStoreAfter, hsave]

/-- The save loop when the save of the `k`-th updated role is the first that
fails: the loop ends with that error, having called `RoleSave` for the first
`k + 1` roles only. -/
theorem saveRoles_first_failure {ρ μ : Type} (a : App ρ μ) (migrationMap : permissionsMap)
    (roles : List Role) :
    ∀ (roleMap : RoleMap) (w : World ρ μ) (updated : List Role) (final : RoleMap) (k : Nat)
      (failing : Role) (err : AppError) (roles1 : ρ),
      updateRoles migrationMap roles roleMap = some (updated, final) →
      updated[k]? = some failing →
      (∀ i r, i < k → updated[i]? = some r →
        ∃ r1, (a.RoleSave (roleStoreAfter a (updated.take i) w.roles) r).1 = Except.ok r1) →
      a.RoleSave (roleStoreAfter a (updated.take k) w.roles) failing = (Except.error err, roles1) →
      ∃ mid, saveRoles a migrationMap roles roleMap w
        = some (some err, mid,
            { roles := roles1, system := w.system,
              calls := w.calls ++ (updated.take (k + 1)).map StoreCall.roleSave }) := by
  induction roles with
  | nil =>
      intro roleMap w updated final k failing err roles1 hu hk _ _
      simp only [updateRoles, Option.some.injEq, Prod.mk.injEq] at hu
      obtain ⟨h1, _⟩ := hu
      subst h1
      simp at hk
  | cons role rest ih =>
      intro roleMap w updated final k failing err roles1 hu hk hok hfail
      simp only [updateRoles] at hu
      cases hap : applyPermissionsMap role.Name roleMap migrationMap with
      | none => simp [hap] at hu
      | some pr =>
          obtain ⟨permissions, mid⟩ := pr
          simp only [hap] at hu
          cases hrest : updateRoles migrationMap rest mid with
          | none => simp [hrest] at hu
          | some pr2 =>
              obtain ⟨updated1, final1⟩ := pr2
              simp only [hrest, Option.some.injEq, Prod.mk.injEq] at hu
              obtain ⟨h1, h2⟩ := hu
              subst h1
              subst h2
              cases k with
              | zero =>
                  simp only [List.getElem?_cons_zero, Option.some.injEq] at hk
                  subst hk
                  simp only [List.take_zero, roleStoreAfter, List.foldl_nil] at hfail
                  refine ⟨mid, ?_⟩
                  simp [saveRoles, hap, hfail]
              | succ k =>
                  obtain ⟨r1, hr1⟩ := hok 0 _ (Nat.succ_pos k) (List.getElem?_cons_zero)
                  simp only [List.take_zero, roleStoreAfter, List.foldl_nil] at hr1
                  cases hsave : a.RoleSave w.roles { role with Permissions := permissions } with
                  | mk res roles2 =>
                      rw [hsave] at hr1
                      simp only at hr1
                      subst hr1
                      obtain ⟨mid2, hmid2⟩ := ih mid
                        { w with roles := roles2,
                                 calls := w.calls ++
                                   [StoreCall.roleSave { role with Permissions := permissions }] }
                        updated1 final1 k failing err roles1 hrest (by simpa using hk)
                        (by
                          intro i r hi hir
                          have := hok (i + 1) r (Nat.succ_lt_succ hi) (by simpa using hir)
                          simpa [roleStoreAfter, hsave] using this)
                        (by simpa [roleStoreAfter, hsave] using hfail)
                      refine ⟨mid2, ?_⟩
                      simp only [saveRoles, hap, hsave, hmid2]
                      simp

/-- The save loop when it ends without error: every updated role was saved,
in order, and the marker store was not touched. -/
theorem saveRoles_of_no_error {ρ μ : Type} (a : App ρ μ) (migrationMap : permissionsMap)
    (roles : List Role) :
    ∀ (roleMap : RoleMap) (w w1 : World ρ μ) (updated : List Role) (final mid : RoleMap),
      updateRoles migrationMap roles roleMap = some (updated, final) →
      saveRoles a migrationMap roles roleMap w = some (none, mid, w1) →
      w1 = { roles := roleStoreAfter a updated w.roles, system := w.system,
             calls := w.calls ++ updated.map StoreCall.roleSave } := by
  induction roles with
  | nil =>
      intro roleMap w w1 updated final mid hu hs
      simp only [updateRoles, Option.some.injEq, Prod.mk.injEq] at hu
      obtain ⟨h1, _⟩ := hu
      subst h1
      simp only [saveRoles, Option.some.injEq, Prod.mk.injEq, true_and] at hs
      obtain ⟨_, h2⟩ := hs
      subst h2
      simp [roleStoreAfter]
  | cons role rest ih =>
      intro roleMap w w1 updated final mid hu hs
      simp only [updateRoles] at hu
      cases hap : applyPermissionsMap role.Name roleMap migrationMap with
      | none => simp [hap] at hu
      | some pr =>
          obtain ⟨permissions, mid1⟩ := pr
          simp only [hap] at hu
          cases hrest : updateRoles migrationMap rest mid1 with
          | none => simp [hrest] at hu
          | some pr2 =>
              obtain ⟨updated1, final1⟩ := pr2
              simp only [hrest, Option.some.injEq, Prod.mk.injEq] at hu
              obtain ⟨h1, h2⟩ := hu
              subst h1
              subst h2
              simp only [saveRoles, hap] at hs
              cases hsave : a.RoleSave w.roles { role with Permissions := permissions } with
              | mk res roles1 =>
                  cases res with
                  | error err => simp [hsave] at hs
                  | ok r1 =>
                      simp only [hsave] at hs
                      have := ih mid1 _ w1 updated1 final1 mid hrest hs
                      rw [this]
                      simp [roleStoreAfter, hsave]

/-- A run of `doPermissionsMigration` that finds no marker and returns no
error: it performed the role pass, saved every updated role and wrote the
marker. -/
theorem doPermissionsMigration_of_no_error {ρ μ : Type} (a : App ρ μ) (key : String)
    (migrationMap : permissionsMap) (w w1 : World ρ μ) (roles : List Role) (err0 : AppError)
    (hmarker : a.SystemGetByName w.system key = Except.error err0)
    (hroles : a.GetAllRoles w.roles = Except.ok roles)
    (hrun : doPermissionsMigration a key migrationMap w = some (none, w1)) :
    ∃ updated, rolePass migrationMap roles = some updated ∧
      a.SystemSave w.system { Name := key, Value := "true" } = (none, w1.system) ∧
      w1 = { roles := roleStoreAfter a updated w.roles, system := w1.system,
             calls := w.calls ++ [StoreCall.systemGetByName key, StoreCall.getAllRoles]
               ++ updated.map StoreCall.roleSave
               ++ [StoreCall.systemSave { Name := key, Value := "true" }] } := by
  obtain ⟨roleMap, updated, final, hb, hu, hp, _⟩ := rolePass_total migrationMap roles
  refine ⟨updated, hp, ?_⟩
  simp only [doPermissionsMigration, hmarker, hroles, hb] at hrun
  simp only [List.append_assoc, List.singleton_append] at hrun
  cases hs : saveRoles a migrationMap roles roleMap
      { roles := w.roles, system := w.system,
        calls := w.calls ++ [StoreCall.systemGetByName key, StoreCall.getAllRoles] } with
  | none => simp [hs] at hrun
  | some res =>
      obtain ⟨e, mid, w3⟩ := res
      cases e with
      | some err => simp [hs] at hrun
      | none =>
          have hw3 := saveRoles_of_no_error a migrationMap roles roleMap _ w3 updated final mid hu hs
          simp only [hs] at hrun
          cases hm : a.SystemSave w3.system { Name := key, Value := "true" } with
          | mk e2 system1 =>
              cases e2 with
              | some err => simp [hm] at hrun
              | none =>
                  simp only [hm, Option.some.injEq, Prod.mk.injEq, true_and] at hrun
                  subst hrun
                  subst hw3
                  simp only at hm
                  refine ⟨hm, ?_⟩
                  simp

/-- The cross-role rule `{On: onOtherRole(B, permissionExists(Q)), Add: [R]}`
in the role loop: as long as the entry of `B` holds `Q`, every role is given
`R`. -/
theorem updateRoles_cross_role (B Q R : String) (roles : List Role) :
    ∀ (roleMap : RoleMap) (updated : List Role) (final : RoleMap),
      (∀ role ∈ roles, (roleMap.lookup role.Name).isSome = true) →
      readPermission roleMap B Q = some true →
      updateRoles [{ On := onOtherRole B (permissionExists Q), Add := [R], Remove := [] }]
        roles roleMap = some (updated, final) →
      ∀ role ∈ roles, ∃ perms, R ∈ perms ∧ { role with Permissions := perms } ∈ updated := by
  induction roles with
  | nil => intro _ _ _ _ _ _ role hr; simp at hr
  | cons role rest ih =>
      intro roleMap updated final hall hQ hu r hr
      have hrole := hall role (List.mem_cons_self _ _)
      obtain ⟨result, mid, hap, ⟨m, hstep, hfin⟩, _, hframe, _, hmem⟩ :=
        applyPermissionsMap_spec role.Name roleMap
          [{ On := onOtherRole B (permissionExists Q), Add := [R], Remove := [] }] hrole
      have hkeep := applyPermissionsMap_keeps_entries hrole hap
      simp only [SpecFinalSnapshot] at hfin
      subst hfin
      have hOn : onOtherRole B (permissionExists Q) role.Name roleMap = true := by
        simp [onOtherRole, permissionExists, hQ]
      simp only [SpecRuleStep, hOn, if_true] at hstep
      obtain ⟨_, _, hread⟩ := hstep
      have hR : R ∈ result := by
        rw [hmem R, hread R]
        simp
      have hQ1 : readPermission mid B Q = some true := by
        by_cases hB : B = role.Name
        · subst hB
          rw [hread Q]
          by_cases hQR : Q = R
          · simp [hQR]
          · simp [hQR, hQ]
        · simp only [readPermission, hframe B hB] at hQ ⊢
          exact hQ
      simp only [updateRoles, hap] at hu
      cases hrest : updateRoles
          [{ On := onOtherRole B (permissionExists Q), Add := [R], Remove := [] }] rest mid with
      | none => simp [hrest] at hu
      | some pr =>
          obtain ⟨updated1, final1⟩ := pr
          simp only [hrest, Option.some.injEq, Prod.mk.injEq] at hu
          obtain ⟨h1, _⟩ := hu
          subst h1
          rcases List.mem_cons.mp hr with hr | hr
          · subst hr
            exact ⟨result, hR, List.mem_cons_self _ _⟩
          · obtain ⟨perms, hp1, hp2⟩ := ih mid updated1 final1
              (fun x hx => hkeep x.Name (hall x (List.mem_cons_of_mem _ hx))) hQ1 hrest r hr
            exact ⟨perms, hp1, List.mem_cons_of_mem _ hp2⟩

/-- The short-circuit of `doPermissionsMigration` when the marker is found. -/
theorem doPermissionsMigration_short_circuit {ρ μ : Type} (a : App ρ μ) (key : String)
    (migrationMap : permissionsMap) (w : World ρ μ) (marker : System)
    (h : a.SystemGetByName w.system key = Except.ok marker) :
    doPermissionsMigration a key migrationMap w
      = some (none, { roles := w.roles, system := w.system,
                      calls := w.calls ++ [StoreCall.systemGetByName key] }) := by
  simp [doPermissionsMigration, h]

/-! ## Lemmas on granted permissions -/

theorem permissionExists_eq_true_iff (p r : String) (roleMap : RoleMap) :
    permissionExists p r roleMap = true ↔ readPermission roleMap r p = some true := by
  unfold permissionExists
  cases h : readPermission roleMap r p with
  | none => simp
  | some v => simp

theorem permissionExists_congr_lookup {roleMap roleMap1 : RoleMap} {r : String}
    (h : roleMap1.lookup r = roleMap.lookup r) (p : String) :
    permissionExists p r roleMap1 = permissionExists p r roleMap := by
  simp only [permissionExists, readPermission, h]

/-- What a rule step does to the granted permissions. -/
theorem specRuleStep_grants {n : String} {rule : permissionTransformation}
    {roleMap roleMap1 : RoleMap} (h : SpecRuleStep n rule roleMap roleMap1) :
    (∀ r, r ≠ n → ∀ p, permissionExists p r roleMap1 = permissionExists p r roleMap) ∧
    (∀ p, permissionExists p n roleMap1 =
      if rule.On n roleMap = true then
        (if p ∈ rule.Remove then false
         else if p ∈ rule.Add then true else permissionExists p n roleMap)
      else permissionExists p n roleMap) := by
  by_cases hOn : rule.On n roleMap = true
  · simp only [SpecRuleStep, hOn, if_true] at h ⊢
    obtain ⟨_, hframe, hread⟩ := h
    refine ⟨fun r hr p => permissionExists_congr_lookup (hframe r hr) p, ?_⟩
    intro p
    simp only [permissionExists, hread p]
    by_cases hR : p ∈ rule.Remove
    · simp [hR]
    · by_cases hA : p ∈ rule.Add
      · simp [hR, hA]
      · simp [hR, hA]
  · simp only [SpecRuleStep, hOn, if_false] at h ⊢
    subst h
    exact ⟨fun _ _ _ => rfl, fun _ => by trivial⟩

theorem grantsCond_of_local {c : PermissionPredicate} (h : LocalCond c) : GrantsCond c :=
  fun n roleMap roleMap1 hs => h n roleMap roleMap1 (fun p => hs n p)

theorem localCond_isRole (role : String) : LocalCond (isRole role) :=
  fun _ _ _ _ => rfl

theorem localCond_permissionExists (permission : String) :
    LocalCond (permissionExists permission) :=
  fun _ _ _ h => h permission

theorem localCond_permissionAnd (funcs : List PermissionPredicate)
    (h : ∀ f ∈ funcs, LocalCond f) : LocalCond (permissionAnd funcs) := by
  induction funcs with
  | nil => exact fun _ _ _ _ => rfl
  | cons f rest ih =>
      intro n roleMap roleMap1 hs
      simp only [permissionAnd]
      rw [h f (List.mem_cons_self _ _) n roleMap roleMap1 hs,
        ih (fun g hg => h g (List.mem_cons_of_mem _ hg)) n roleMap roleMap1 hs]

theorem grantsCond_permissionExists (permission : String) :
    GrantsCond (permissionExists permission) :=
  grantsCond_of_local (localCond_permissionExists permission)

theorem grantsCond_isRole (role : String) : GrantsCond (isRole role) :=
  grantsCond_of_local (localCond_isRole role)

theorem grantsCond_onOtherRole (otherRole : String) (function : PermissionPredicate)
    (h : GrantsCond function) : GrantsCond (onOtherRole otherRole function) :=
  fun _ roleMap roleMap1 hs => h otherRole roleMap roleMap1 hs

theorem grantsCond_permissionAnd (funcs : List PermissionPredicate)
    (h : ∀ f ∈ funcs, GrantsCond f) : GrantsCond (permissionAnd funcs) := by
  induction funcs with
  | nil => exact fun _ _ _ _ => rfl
  | cons f rest ih =>
      intro n roleMap roleMap1 hs
      simp only [permissionAnd]
      rw [h f (List.mem_cons_self _ _) n roleMap roleMap1 hs,
        ih (fun g hg => h g (List.mem_cons_of_mem _ hg)) n roleMap roleMap1 hs]

theorem grantsCond_permissionOr (funcs : List PermissionPredicate)
    (h : ∀ f ∈ funcs, GrantsCond f) : GrantsCond (permissionOr funcs) := by
  induction funcs with
  | nil => exact fun _ _ _ _ => rfl
  | cons f rest ih =>
      intro n roleMap roleMap1 hs
      simp only [permissionOr]
      rw [h f (List.mem_cons_self _ _) n roleMap roleMap1 hs,
        ih (fun g hg => h g (List.mem_cons_of_mem _ hg)) n roleMap roleMap1 hs]

theorem settled_congr {rule : permissionTransformation} {n : String} {roleMap roleMap1 : RoleMap}
    (hc : rule.On n roleMap1 = rule.On n roleMap)
    (hg : ∀ p, permissionExists p n roleMap1 = permissionExists p n roleMap)
    (h : Settled rule n roleMap) : Settled rule n roleMap1 := by
  intro hOn
  rw [hc] at hOn
  obtain ⟨h1, h2⟩ := h hOn
  exact ⟨fun p hp => by rw [hg p]; exact h1 p hp, fun p hp hnp => by rw [hg p]; exact h2 p hp hnp⟩

/-- A settled rule leaves the granted permissions as they are. -/
theorem applyTransformation_settled {n : String} {rule : permissionTransformation}
    {roleMap roleMap1 : RoleMap} (h : (roleMap.lookup n).isSome = true)
    (hs : Settled rule n roleMap) (ha : applyTransformation n roleMap rule = some roleMap1) :
    SameGrants roleMap roleMap1 ∧ (roleMap1.lookup n).isSome = true := by
  obtain ⟨rm, h1, h2, _, h4⟩ := applyTransformation_spec n roleMap rule h
  rw [ha] at h1
  cases h1
  obtain ⟨hframe, hsub⟩ := specRuleStep_grants h4
  refine ⟨?_, h2⟩
  intro r p
  by_cases hr : r = n
  · subst hr
    rw [hsub p]
    by_cases hOn : rule.On r roleMap = true
    · obtain ⟨hrem, hadd⟩ := hs hOn
      simp only [hOn, if_true]
      by_cases hR : p ∈ rule.Remove
      · simp only [hR, if_true]
        exact hrem p hR
      · by_cases hA : p ∈ rule.Add
        · simp only [hR, hA, if_true, if_false]
          exact hadd p hA hR
        · simp only [hR, hA, if_false]
    · simp only [hOn]
      rfl
  · exact (hframe r hr p).symm

/-- A rule list whose rules are all settled leaves the granted permissions as
they are. -/
theorem applyTransformations_settled (n : String) (migrationMap : permissionsMap) :
    ∀ (roleMap final : RoleMap), (roleMap.lookup n).isSome = true →
      (∀ rule ∈ migrationMap, GrantsCond rule.On) →
      (∀ rule ∈ migrationMap, Settled rule n roleMap) →
      applyTransformations n migrationMap roleMap = some final →
      SameGrants roleMap final := by
  induction migrationMap with
  | nil =>
      intro roleMap final _ _ _ ha
      simp only [applyTransformations, Option.some.injEq] at ha
      subst ha
      exact fun _ _ => rfl
  | cons rule rest ih =>
      intro roleMap final h hc hs ha
      simp only [applyTransformations] at ha
      cases hstep : applyTransformation n roleMap rule with
      | none => simp [hstep] at ha
      | some mid =>
          simp only [hstep] at ha
          obtain ⟨hg, hmid⟩ := applyTransformation_settled h (hs rule (List.mem_cons_self _ _)) hstep
          have := ih mid final hmid (fun r hr => hc r (List.mem_cons_of_mem _ hr))
            (fun r hr => settled_congr
              ((hc r (List.mem_cons_of_mem _ hr)) n roleMap mid hg).symm
              (fun p => (hg n p).symm) (hs r (List.mem_cons_of_mem _ hr))) ha
          exact fun r p => (hg r p).trans (this r p)

theorem applyPermissionsMap_transformations {n : String} {roleMap final : RoleMap}
    {migrationMap : permissionsMap} {result : List String}
    (h : applyPermissionsMap n roleMap migrationMap = some (result, final)) :
    applyTransformations n migrationMap roleMap = some final := by
  unfold applyPermissionsMap at h
  cases ht : applyTransformations n migrationMap roleMap with
  | none => simp [ht] at h
  | some rm =>
      simp only [ht] at h
      cases hl : rm.lookup n with
      | none =>
          simp only [hl, Option.some.injEq, Prod.mk.injEq] at h
          rw [h.2]
      | some inner =>
          simp only [hl, Option.some.injEq, Prod.mk.injEq] at h
          rw [h.2]

/-- The list `applyPermissionsMap` returns holds the permissions the final
snapshot grants to the subject, and only the subject's entry may change. -/
theorem applyPermissionsMap_grants {n : String} {roleMap final : RoleMap}
    {migrationMap : permissionsMap} {result : List String}
    (h : (roleMap.lookup n).isSome = true)
    (hap : applyPermissionsMap n roleMap migrationMap = some (result, final)) :
    (∀ p, p ∈ result ↔ permissionExists p n final = true) ∧
    (∀ r, r ≠ n → final.lookup r = roleMap.lookup r) := by
  obtain ⟨result1, final1, h1, _, _, h4, _, h6⟩ := applyPermissionsMap_spec n roleMap migrationMap h
  rw [hap] at h1
  cases h1
  exact ⟨fun p => by rw [h6 p, permissionExists_eq_true_iff], h4⟩

/-- The role loop changes no entry of a role that is not in the list. -/
theorem updateRoles_frame (migrationMap : permissionsMap) (roles : List Role) :
    ∀ (roleMap final : RoleMap) (updated : List Role),
      (∀ role ∈ roles, (roleMap.lookup role.Name).isSome = true) →
      updateRoles migrationMap roles roleMap = some (updated, final) →
      ∀ n, n ∉ roles.map Role.Name → final.lookup n = roleMap.lookup n := by
  induction roles with
  | nil =>
      intro roleMap final updated _ hu n _
      simp only [updateRoles, Option.some.injEq, Prod.mk.injEq] at hu
      rw [hu.2]
  | cons role rest ih =>
      intro roleMap final updated hall hu n hn
      have hrole := hall role (List.mem_cons_self _ _)
      simp only [updateRoles] at hu
      cases hap : applyPermissionsMap role.Name roleMap migrationMap with
      | none => simp [hap] at hu
      | some pr =>
          obtain ⟨perms, mid⟩ := pr
          simp only [hap] at hu
          cases hrest : updateRoles migrationMap rest mid with
          | none => simp [hrest] at hu
          | some pr2 =>
              obtain ⟨updated1, final1⟩ := pr2
              simp only [hrest, Option.some.injEq, Prod.mk.injEq] at hu
              obtain ⟨_, h2⟩ := hu
              subst h2
              simp only [List.map_cons, List.mem_cons, not_or] at hn
              have hkeep := applyPermissionsMap_keeps_entries hrole hap
              rw [ih mid final1 updated1
                (fun r hr => hkeep r.Name (hall r (List.mem_cons_of_mem _ hr))) hrest n hn.2]
              exact (applyPermissionsMap_grants hrole hap).2 n hn.1

/-- After the role loop over roles of unique names, the list of every updated
role holds exactly the permissions the final snapshot grants to it. -/
theorem updateRoles_grants (migrationMap : permissionsMap) (roles : List Role) :
    ∀ (roleMap final : RoleMap) (updated : List Role),
      (roles.map Role.Name).Nodup →
      (∀ role ∈ roles, (roleMap.lookup role.Name).isSome = true) →
      updateRoles migrationMap roles roleMap = some (updated, final) →
      List.Forall₂ (fun r u : Role =>
        u.Name = r.Name ∧ ∀ p, p ∈ u.Permissions ↔ permissionExists p r.Name final = true)
        roles updated := by
  induction roles with
  | nil =>
      intro roleMap final updated _ _ hu
      simp only [updateRoles, Option.some.injEq, Prod.mk.injEq] at hu
      rw [← hu.1]
      exact List.Forall₂.nil
  | cons role rest ih =>
      intro roleMap final updated hnd hall hu
      have hrole := hall role (List.mem_cons_self _ _)
      simp only [List.map_cons, List.nodup_cons] at hnd
      simp only [updateRoles] at hu
      cases hap : applyPermissionsMap role.Name roleMap migrationMap with
      | none => simp [hap] at hu
      | some pr =>
          obtain ⟨perms, mid⟩ := pr
          simp only [hap] at hu
          cases hrest : updateRoles migrationMap rest mid with
          | none => simp [hrest] at hu
          | some pr2 =>
              obtain ⟨updated1, final1⟩ := pr2
              simp only [hrest, Option.some.injEq, Prod.mk.injEq] at hu
              obtain ⟨h1, h2⟩ := hu
              subst h1
              subst h2
              have hkeep := applyPermissionsMap_keeps_entries hrole hap
              have hall1 : ∀ r ∈ rest, (mid.lookup r.Name).isSome = true :=
                fun r hr => hkeep r.Name (hall r (List.mem_cons_of_mem _ hr))
              have hfr := updateRoles_frame migrationMap rest mid final1 updated1 hall1 hrest
                role.Name hnd.1
              refine List.Forall₂.cons ⟨rfl, ?_⟩ (ih mid final1 updated1 hnd.2 hall1 hrest)
              intro p
              rw [permissionExists_congr_lookup hfr p]
              exact (applyPermissionsMap_grants hrole hap).1 p

/-- The role loop on a snapshot on which every rule is settled for every role
of the list: the granted permissions stay, and every role is handed the
permissions the snapshot grants to it. -/
theorem updateRoles_settled (migrationMap : permissionsMap) (roles : List Role)
    (hc : ∀ rule ∈ migrationMap, GrantsCond rule.On) :
    ∀ (roleMap final : RoleMap) (updated : List Role),
      (∀ role ∈ roles, (roleMap.lookup role.Name).isSome = true) →
      (∀ role ∈ roles, ∀ rule ∈ migrationMap, Settled rule role.Name roleMap) →
      updateRoles migrationMap roles roleMap = some (updated, final) →
      SameGrants roleMap final ∧
      List.Forall₂ (fun r u : Role =>
        u.Name = r.Name ∧ ∀ p, p ∈ u.Permissions ↔ permissionExists p r.Name roleMap = true)
        roles updated := by
  induction roles with
  | nil =>
      intro roleMap final updated _ _ hu
      simp only [updateRoles, Option.some.injEq, Prod.mk.injEq] at hu
      rw [← hu.1, ← hu.2]
      exact ⟨fun _ _ => rfl, List.Forall₂.nil⟩
  | cons role rest ih =>
      intro roleMap final updated hall hs hu
      have hrole := hall role (List.mem_cons_self _ _)
      simp only [updateRoles] at hu
      cases hap : applyPermissionsMap role.Name roleMap migrationMap with
      | none => simp [hap] at hu
      | some pr =>
          obtain ⟨perms, mid⟩ := pr
          simp only [hap] at hu
          cases hrest : updateRoles migrationMap rest mid with
          | none => simp [hrest] at hu
          | some pr2 =>
              obtain ⟨updated1, final1⟩ := pr2
              simp only [hrest, Option.some.injEq, Prod.mk.injEq] at hu
              obtain ⟨h1, h2⟩ := hu
              subst h1
              subst h2
              have hkeep := applyPermissionsMap_keeps_entries hrole hap
              have hall1 : ∀ r ∈ rest, (mid.lookup r.Name).isSome = true :=
                fun r hr => hkeep r.Name (hall r (List.mem_cons_of_mem _ hr))
              have hg : SameGrants roleMap mid :=
                applyTransformations_settled role.Name migrationMap roleMap mid hrole hc
                  (hs role (List.mem_cons_self _ _)) (applyPermissionsMap_transformations hap)
              obtain ⟨hg2, hf⟩ := ih mid final1 updated1 hall1
                (fun r hr rule hrule => settled_congr ((hc rule hrule) r.Name roleMap mid hg).symm
                  (fun p => (hg r.Name p).symm) (hs r (List.mem_cons_of_mem _ hr) rule hrule))
                hrest
              refine ⟨fun r p => (hg r p).trans (hg2 r p), List.Forall₂.cons ⟨rfl, ?_⟩ ?_⟩
              · intro p
                rw [hg role.Name p]
                exact (applyPermissionsMap_grants hrole hap).1 p
              · refine hf.imp ?_
                intro r u hru
                refine ⟨hru.1, fun p => ?_⟩
                rw [hg r.Name p]
                exact hru.2 p

/-- The permissions the snapshot built from roles of unique names grants. -/
theorem buildRoleMap_grants (roles : List Role) (roleMap : RoleMap)
    (hnd : (roles.map Role.Name).Nodup) (hb : buildRoleMap roles ∅ = some roleMap) (r p : String) :
    permissionExists p r roleMap = true ↔ ∃ role ∈ roles, role.Name = r ∧ p ∈ role.Permissions := by
  obtain ⟨rm, hb1, h1, _, _, h4⟩ := buildRoleMap_spec roles ∅
  rw [hb] at hb1
  cases hb1
  rw [permissionExists_eq_true_iff]
  constructor
  · intro h
    by_cases hr : r ∈ roles.map Role.Name
    · obtain ⟨role, hrole, hname⟩ := List.mem_map.mp hr
      obtain ⟨inner, hin, hcontent⟩ := h4 hnd role hrole
      refine ⟨role, hrole, hname, ?_⟩
      rw [← hname, readPermission_of_lookup hin, hcontent p] at h
      by_contra hp
      simp [hp] at h
    · have := h1 r hr
      simp [readPermission, this] at h
  · rintro ⟨role, hrole, hname, hp⟩
    obtain ⟨inner, hin, hcontent⟩ := h4 hnd role hrole
    rw [← hname, readPermission_of_lookup hin, hcontent p]
    simp [hp]

theorem forall₂_imp_of_mem_left {α β : Type} {R S : α → β → Prop} {l1 : List α} {l2 : List β}
    (h : List.Forall₂ R l1 l2) (hi : ∀ a ∈ l1, ∀ b, R a b → S a b) : List.Forall₂ S l1 l2 := by
  induction h with
  | nil => exact List.Forall₂.nil
  | cons hab _ ih =>
      exact List.Forall₂.cons (hi _ (List.mem_cons_self _ _) _ hab)
        (ih (fun a ha b hr => hi a (List.mem_cons_of_mem _ ha) b hr))

theorem forall₂_exists_right {α β : Type} {R : α → β → Prop} {l1 : List α} {l2 : List β}
    (h : List.Forall₂ R l1 l2) : ∀ a ∈ l1, ∃ b ∈ l2, R a b := by
  induction h with
  | nil => intro a ha; simp at ha
  | cons hab _ ih =>
      intro a ha
      rcases List.mem_cons.mp ha with ha | ha
      · subst ha
        exact ⟨_, List.mem_cons_self _ _, hab⟩
      · obtain ⟨b, hb, hr⟩ := ih a ha
        exact ⟨b, List.mem_cons_of_mem _ hb, hr⟩

theorem forall₂_exists_left {α β : Type} {R : α → β → Prop} {l1 : List α} {l2 : List β}
    (h : List.Forall₂ R l1 l2) : ∀ b ∈ l2, ∃ a ∈ l1, R a b := by
  induction h with
  | nil => intro b hb; simp at hb
  | cons hab _ ih =>
      intro b hb
      rcases List.mem_cons.mp hb with hb | hb
      · subst hb
        exact ⟨_, List.mem_cons_self _ _, hab⟩
      · obtain ⟨a, ha, hr⟩ := ih b hb
        exact ⟨a, List.mem_cons_of_mem _ ha, hr⟩

theorem forall₂_names {R : Role → Role → Prop} {l1 l2 : List Role}
    (h : List.Forall₂ R l1 l2) (hn : ∀ a b, R a b → b.Name = a.Name) :
    l2.map Role.Name = l1.map Role.Name := by
  induction h with
  | nil => rfl
  | cons hab _ ih => simp [hn _ _ hab, ih]

/-- The role pass is idempotent on roles of unique names when its conditions
depend on the granted permissions only and every rule is settled, for every
role, on the snapshot the first pass leaves. -/
theorem rolePass_idempotent_of_settled (migrationMap : permissionsMap) (roles : List Role)
    (hnd : (roles.map Role.Name).Nodup)
    (hc : ∀ rule ∈ migrationMap, GrantsCond rule.On)
    (hs : ∀ (roleMap final : RoleMap) (first : List Role),
      (∀ role ∈ roles, (roleMap.lookup role.Name).isSome = true) →
      updateRoles migrationMap roles roleMap = some (first, final) →
      ∀ role ∈ roles, ∀ rule ∈ migrationMap, Settled rule role.Name final) :
    RolePassIdempotent migrationMap roles := by
  obtain ⟨rm0, hb, hout, _, h3, _⟩ := buildRoleMap_spec roles ∅
  obtain ⟨first, rmF, hu, _, _⟩ := updateRoles_spec migrationMap roles rm0 h3
  have hF := updateRoles_grants migrationMap roles rm0 rmF first hnd h3 hu
  have hnames : first.map Role.Name = roles.map Role.Name := forall₂_names hF (fun _ _ h => h.1)
  have hnd1 : (first.map Role.Name).Nodup := by rw [hnames]; exact hnd
  obtain ⟨rm1, hb1, _, _, h31, h41⟩ := buildRoleMap_spec first ∅
  have hown : ∀ u ∈ first, ∀ p, permissionExists p u.Name rm1 = true ↔ p ∈ u.Permissions := by
    intro u hu1 p
    obtain ⟨inner, hin, hcontent⟩ := h41 hnd1 u hu1
    rw [permissionExists_eq_true_iff, readPermission_of_lookup hin, hcontent p]
    by_cases hp : p ∈ u.Permissions
    · simp [hp]
    · simp [hp]
  have hsame : SameGrants rm1 rmF := by
    intro r p
    rw [Bool.eq_iff_iff]
    constructor
    · intro h
      obtain ⟨u, hu1, hname, hp⟩ := (buildRoleMap_grants first rm1 hnd1 hb1 r p).mp h
      obtain ⟨role, _, hr⟩ := forall₂_exists_left hF u hu1
      rw [← hname, hr.1]
      exact (hr.2 p).mp hp
    · intro h
      by_cases hr : r ∈ roles.map Role.Name
      · obtain ⟨role, hrole, hname⟩ := List.mem_map.mp hr
        obtain ⟨u, hu1, hru⟩ := forall₂_exists_right hF role hrole
        rw [← hname, ← hru.1]
        rw [← hname] at h
        exact (hown u hu1 p).mpr ((hru.2 p).mpr h)
      · have hfr := updateRoles_frame migrationMap roles rm0 rmF first h3 hu r hr
        rw [permissionExists_congr_lookup hfr p, permissionExists_eq_true_iff] at h
        simp [readPermission, hout r hr] at h
  obtain ⟨second, rmF2, hu2, _, _⟩ := updateRoles_spec migrationMap first rm1 h31
  have hsettled : ∀ u ∈ first, ∀ rule ∈ migrationMap, Settled rule u.Name rm1 := by
    intro u hu1 rule hrule
    obtain ⟨role, hrole, hr⟩ := forall₂_exists_left hF u hu1
    rw [hr.1]
    exact settled_congr ((hc rule hrule) role.Name rm1 rmF hsame) (fun p => hsame role.Name p)
      (hs rm0 rmF first h3 hu role hrole rule hrule)
  obtain ⟨_, hF2⟩ := updateRoles_settled migrationMap first hc rm1 rmF2 second h31 hsettled hu2
  refine ⟨first, second, by simp [rolePass, hb, hu], by simp [rolePass, hb1, hu2], ?_⟩
  refine forall₂_imp_of_mem_left hF2 ?_
  intro u hu1 u2 hr
  exact ⟨hr.1, fun p => (hr.2 p).trans (hown u hu1 p)⟩

/-- For local conditions it is enough that the rule list settles its own
rules on the role it is applied to. -/
theorem settled_after_pass_of_local (migrationMap : permissionsMap)
    (hl : ∀ rule ∈ migrationMap, LocalCond rule.On)
    (hself : ∀ (n : String) (roleMap final : RoleMap), (roleMap.lookup n).isSome = true →
      applyTransformations n migrationMap roleMap = some final →
      ∀ rule ∈ migrationMap, Settled rule n final)
    (roles : List Role) :
    ∀ (roleMap final : RoleMap) (first : List Role),
      (roles.map Role.Name).Nodup →
      (∀ role ∈ roles, (roleMap.lookup role.Name).isSome = true) →
      updateRoles migrationMap roles roleMap = some (first, final) →
      ∀ role ∈ roles, ∀ rule ∈ migrationMap, Settled rule role.Name final := by
  induction roles with
  | nil => intro _ _ _ _ _ _ role hr; simp at hr
  | cons role rest ih =>
      intro roleMap final first hnd hall hu r hr rule hrule
      have hrole := hall role (List.mem_cons_self _ _)
      simp only [List.map_cons, List.nodup_cons] at hnd
      simp only [updateRoles] at hu
      cases hap : applyPermissionsMap role.Name roleMap migrationMap with
      | none => simp [hap] at hu
      | some pr =>
          obtain ⟨perms, mid⟩ := pr
          simp only [hap] at hu
          cases hrest : updateRoles migrationMap rest mid with
          | none => simp [hrest] at hu
          | some pr2 =>
              obtain ⟨updated1, final1⟩ := pr2
              simp only [hrest, Option.some.injEq, Prod.mk.injEq] at hu
              obtain ⟨h1, h2⟩ := hu
              subst h1
              subst h2
              have hkeep := applyPermissionsMap_keeps_entries hrole hap
              have hall1 : ∀ x ∈ rest, (mid.lookup x.Name).isSome = true :=
                fun x hx => hkeep x.Name (hall x (List.mem_cons_of_mem _ hx))
              rcases List.mem_cons.mp hr with hr | hr
              · subst hr
                have hfr := updateRoles_frame migrationMap rest mid final1 updated1 hall1 hrest
                  r.Name hnd.1
                have hg : ∀ p, permissionExists p r.Name final1 = permissionExists p r.Name mid :=
                  fun p => permissionExists_congr_lookup hfr p
                exact settled_congr ((hl rule hrule) r.Name final1 mid hg) hg
                  (hself r.Name roleMap mid hrole (applyPermissionsMap_transformations hap)
                    rule hrule)
              · exact ih mid final1 updated1 hnd.2 hall1 hrest r hr rule hrule

/-! ## Lemmas on re-running the migrations of the table -/

theorem monoCond_isRole (role : String) : MonoCond (isRole role) :=
  fun _ _ _ _ h => h

theorem monoCond_permissionExists (permission : String) :
    MonoCond (permissionExists permission) :=
  fun _ _ _ hm h => hm permission h

theorem monoCond_permissionAnd (funcs : List PermissionPredicate)
    (h : ∀ f ∈ funcs, MonoCond f) : MonoCond (permissionAnd funcs) := by
  induction funcs with
  | nil => exact fun _ _ _ _ _ => rfl
  | cons f rest ih =>
      intro n roleMap roleMap1 hm hc
      simp only [permissionAnd] at hc ⊢
      by_cases hf : f n roleMap1 = true
      · have hf1 := h f (List.mem_cons_self _ _) n roleMap roleMap1 hm hf
        simp only [hf, Bool.not_true, Bool.false_eq_true, if_false] at hc
        simp only [hf1, Bool.not_true, Bool.false_eq_true, if_false]
        exact ih (fun g hg => h g (List.mem_cons_of_mem _ hg)) n roleMap roleMap1 hm hc
      · simp [hf] at hc

/-- A rule list that only removes, under conditions that are monotone in the
subject's permissions, settles its own rules. -/
theorem settles_of_removals (n : String) (migrationMap : permissionsMap) :
    ∀ (roleMap final : RoleMap), (roleMap.lookup n).isSome = true →
      (∀ rule ∈ migrationMap, rule.Add = []) →
      (∀ rule ∈ migrationMap, MonoCond rule.On) →
      applyTransformations n migrationMap roleMap = some final →
      (∀ p, permissionExists p n final = true → permissionExists p n roleMap = true) ∧
      ∀ rule ∈ migrationMap, Settled rule n final := by
  induction migrationMap with
  | nil =>
      intro roleMap final _ _ _ ha
      simp only [applyTransformations, Option.some.injEq] at ha
      subst ha
      exact ⟨fun _ h => h, by simp⟩
  | cons rule rest ih =>
      intro roleMap final h hadd hmono ha
      obtain ⟨mid, hstep, hmid, _, hspec⟩ := applyTransformation_spec n roleMap rule h
      simp only [applyTransformations, hstep] at ha
      obtain ⟨hdec, hset⟩ := ih mid final hmid
        (fun r hr => hadd r (List.mem_cons_of_mem _ hr))
        (fun r hr => hmono r (List.mem_cons_of_mem _ hr)) ha
      have hg := (specRuleStep_grants hspec).2
      have hA := hadd rule (List.mem_cons_self _ _)
      have hdec1 : ∀ p, permissionExists p n mid = true → permissionExists p n roleMap = true := by
        intro p hp
        rw [hg p] at hp
        by_cases hOn : rule.On n roleMap = true
        · by_cases hR : p ∈ rule.Remove
          · simp [hOn, hR] at hp
          · simpa [hOn, hR, hA] using hp
        · simpa [hOn] using hp
      refine ⟨fun p hp => hdec1 p (hdec p hp), ?_⟩
      intro r hr
      rcases List.mem_cons.mp hr with hr | hr
      · subst hr
        intro hOn
        have hOn0 : r.On n roleMap = true :=
          hmono r (List.mem_cons_self _ _) n roleMap final (fun p hp => hdec1 p (hdec p hp)) hOn
        refine ⟨?_, by simp [hA]⟩
        intro p hp
        have hpm : permissionExists p n mid = false := by
          rw [hg p]
          simp [hOn0, hp]
        by_contra hne
        have := hdec p (by simpa using hne)
        rw [hpm] at this
        exact Bool.false_ne_true this
      · exact hset r hr


theorem rolePass_idempotent_of_local (migrationMap : permissionsMap) (roles : List Role)
    (hnd : (roles.map Role.Name).Nodup)
    (hl : ∀ rule ∈ migrationMap, LocalCond rule.On)
    (hself : ∀ (n : String) (roleMap final : RoleMap), (roleMap.lookup n).isSome = true →
      applyTransformations n migrationMap roleMap = some final →
      ∀ rule ∈ migrationMap, Settled rule n final) :
    RolePassIdempotent migrationMap roles :=
  rolePass_idempotent_of_settled migrationMap roles hnd
    (fun r hr => grantsCond_of_local (hl r hr))
    (fun roleMap final first hall hu =>
      settled_after_pass_of_local migrationMap hl hself roles roleMap final first hnd hall hu)

/-- The grants after a list of two rules. -/
theorem applyTransformations_two {n : String} {r1 r2 : permissionTransformation}
    {roleMap final : RoleMap} (h : (roleMap.lookup n).isSome = true)
    (ha : applyTransformations n [r1, r2] roleMap = some final) :
    ∃ m1, SpecRuleStep n r1 roleMap m1 ∧ SpecRuleStep n r2 m1 final := by
  obtain ⟨f, hf, _, _, hspec⟩ := applyTransformations_spec n [r1, r2] roleMap h
  rw [ha] at hf
  cases hf
  simp only [SpecFinalSnapshot] at hspec
  obtain ⟨m1, hs1, m2, hs2, hfin⟩ := hspec
  subst hfin
  exact ⟨m1, hs1, hs2⟩

theorem applyTransformations_one {n : String} {r1 : permissionTransformation}
    {roleMap final : RoleMap} (h : (roleMap.lookup n).isSome = true)
    (ha : applyTransformations n [r1] roleMap = some final) :
    SpecRuleStep n r1 roleMap final := by
  obtain ⟨f, hf, _, _, hspec⟩ := applyTransformations_spec n [r1] roleMap h
  rw [ha] at hf
  cases hf
  simp only [SpecFinalSnapshot] at hspec
  obtain ⟨m1, hs1, hfin⟩ := hspec
  subst hfin
  exact hs1

theorem idempotent_emojis {ρ μ : Type} (a : App ρ μ) (w w0 : World ρ μ)
    (migMap : permissionsMap)
    (hb : getEmojisPermissionsSplitMigration a w = (Except.ok migMap, w0))
    (roles : List Role) (hnd : (roles.map Role.Name).Nodup) :
    RolePassIdempotent migMap roles := by
  simp only [getEmojisPermissionsSplitMigration, Prod.mk.injEq, Except.ok.injEq] at hb
  obtain ⟨hb, _⟩ := hb
  subst hb
  refine rolePass_idempotent_of_local _ roles hnd ?_ ?_
  · intro rule hrule
    simp only [List.mem_cons, List.mem_singleton, List.not_mem_nil, or_false] at hrule
    rcases hrule with rfl | rfl
    · exact localCond_permissionExists _
    · exact localCond_permissionExists _
  · intro n roleMap final h ha
    obtain ⟨m1, hs1, hs2⟩ := applyTransformations_two h ha
    have g1 := (specRuleStep_grants hs1).2
    have g2 := (specRuleStep_grants hs2).2
    simp only [List.mem_cons, List.mem_singleton, List.not_mem_nil, or_false, forall_eq_or_imp,
      forall_eq, Settled]
    simp only [g2, g1]
    simp [PERMISSION_MANAGE_EMOJIS, PERMISSION_CREATE_EMOJIS, PERMISSION_DELETE_EMOJIS,
      PERMISSION_MANAGE_OTHERS_EMOJIS, PERMISSION_DELETE_OTHERS_EMOJIS]

theorem idempotent_webhooks {ρ μ : Type} (a : App ρ μ) (w w0 : World ρ μ)
    (migMap : permissionsMap)
    (hb : getWebhooksPermissionsSplitMigration a w = (Except.ok migMap, w0))
    (roles : List Role) (hnd : (roles.map Role.Name).Nodup) :
    RolePassIdempotent migMap roles := by
  simp only [getWebhooksPermissionsSplitMigration, Prod.mk.injEq, Except.ok.injEq] at hb
  obtain ⟨hb, _⟩ := hb
  subst hb
  refine rolePass_idempotent_of_local _ roles hnd ?_ ?_
  · intro rule hrule
    simp only [List.mem_cons, List.mem_singleton, List.not_mem_nil, or_false] at hrule
    rcases hrule with rfl | rfl
    · exact localCond_permissionExists _
    · exact localCond_permissionExists _
  · intro n roleMap final h ha
    obtain ⟨m1, hs1, hs2⟩ := applyTransformations_two h ha
    have g1 := (specRuleStep_grants hs1).2
    have g2 := (specRuleStep_grants hs2).2
    simp only [List.mem_cons, List.mem_singleton, List.not_mem_nil, or_false, forall_eq_or_imp,
      forall_eq, Settled]
    simp only [g2, g1]
    simp [PERMISSION_MANAGE_WEBHOOKS, PERMISSION_MANAGE_INCOMING_WEBHOOKS,
      PERMISSION_MANAGE_OUTGOING_WEBHOOKS, PERMISSION_MANAGE_OTHERS_WEBHOOKS,
      PERMISSION_MANAGE_OTHERS_INCOMING_WEBHOOKS, PERMISSION_MANAGE_OTHERS_OUTGOING_WEBHOOKS]

theorem idempotent_listJoin {ρ μ : Type} (a : App ρ μ) (w w0 : World ρ μ)
    (migMap : permissionsMap)
    (hb : getListJoinPublicPrivateTeamsPermissionsMigration a w = (Except.ok migMap, w0))
    (roles : List Role) (hnd : (roles.map Role.Name).Nodup) :
    RolePassIdempotent migMap roles := by
  simp only [getListJoinPublicPrivateTeamsPermissionsMigration, Prod.mk.injEq,
    Except.ok.injEq] at hb
  obtain ⟨hb, _⟩ := hb
  subst hb
  refine rolePass_idempotent_of_local _ roles hnd ?_ ?_
  · intro rule hrule
    simp only [List.mem_cons, List.mem_singleton, List.not_mem_nil, or_false] at hrule
    rcases hrule with rfl | rfl
    · exact localCond_isRole _
    · exact localCond_isRole _
  · intro n roleMap final h ha
    obtain ⟨m1, hs1, hs2⟩ := applyTransformations_two h ha
    have g1 := (specRuleStep_grants hs1).2
    have g2 := (specRuleStep_grants hs2).2
    simp only [List.mem_cons, List.mem_singleton, List.not_mem_nil, or_false, forall_eq_or_imp,
      forall_eq, Settled]
    simp only [g2, g1]
    simp [isRole, PERMISSION_LIST_PRIVATE_TEAMS, PERMISSION_JOIN_PRIVATE_TEAMS,
      PERMISSION_LIST_PUBLIC_TEAMS, PERMISSION_JOIN_PUBLIC_TEAMS]
    tauto

theorem idempotent_viewMembers {ρ μ : Type} (a : App ρ μ) (w w0 : World ρ μ)
    (migMap : permissionsMap)
    (hb : getViewMembersPermissionMigration a w = (Except.ok migMap, w0))
    (roles : List Role) (hnd : (roles.map Role.Name).Nodup) :
    RolePassIdempotent migMap roles := by
  simp only [getViewMembersPermissionMigration, Prod.mk.injEq, Except.ok.injEq] at hb
  obtain ⟨hb, _⟩ := hb
  subst hb
  refine rolePass_idempotent_of_local _ roles hnd ?_ ?_
  · intro rule hrule
    simp only [List.mem_cons, List.mem_singleton, List.not_mem_nil, or_false] at hrule
    rcases hrule with rfl | rfl
    · exact localCond_isRole _
    · exact localCond_isRole _
  · intro n roleMap final h ha
    obtain ⟨m1, hs1, hs2⟩ := applyTransformations_two h ha
    have g1 := (specRuleStep_grants hs1).2
    have g2 := (specRuleStep_grants hs2).2
    simp only [List.mem_cons, List.mem_singleton, List.not_mem_nil, or_false, forall_eq_or_imp,
      forall_eq, Settled]
    simp only [g2, g1]
    simp [isRole, PERMISSION_VIEW_MEMBERS]
    tauto

theorem idempotent_addBot {ρ μ : Type} (a : App ρ μ) (w w0 : World ρ μ)
    (migMap : permissionsMap)
    (hb : getAddBotPermissionsMigration a w = (Except.ok migMap, w0))
    (roles : List Role) (hnd : (roles.map Role.Name).Nodup) :
    RolePassIdempotent migMap roles := by
  simp only [getAddBotPermissionsMigration, Prod.mk.injEq, Except.ok.injEq] at hb
  obtain ⟨hb, _⟩ := hb
  subst hb
  refine rolePass_idempotent_of_local _ roles hnd ?_ ?_
  · intro rule hrule
    simp only [List.mem_singleton] at hrule
    subst hrule
    exact localCond_isRole _
  · intro n roleMap final h ha
    have g1 := (specRuleStep_grants (applyTransformations_one h ha)).2
    simp only [List.mem_singleton, forall_eq, Settled]
    simp only [g1]
    simp [isRole]
    tauto

theorem idempotent_manageGuests {ρ μ : Type} (a : App ρ μ) (w w0 : World ρ μ)
    (migMap : permissionsMap)
    (hb : getAddManageGuestsPermissionsMigration a w = (Except.ok migMap, w0))
    (roles : List Role) (hnd : (roles.map Role.Name).Nodup) :
    RolePassIdempotent migMap roles := by
  simp only [getAddManageGuestsPermissionsMigration, Prod.mk.injEq, Except.ok.injEq] at hb
  obtain ⟨hb, _⟩ := hb
  subst hb
  refine rolePass_idempotent_of_local _ roles hnd ?_ ?_
  · intro rule hrule
    simp only [List.mem_singleton] at hrule
    subst hrule
    exact localCond_isRole _
  · intro n roleMap final h ha
    have g1 := (specRuleStep_grants (applyTransformations_one h ha)).2
    simp only [List.mem_singleton, forall_eq, Settled]
    simp only [g1]
    simp [isRole]
    tauto

theorem idempotent_permanentDelete {ρ μ : Type} (a : App ρ μ) (w w0 : World ρ μ)
    (migMap : permissionsMap)
    (hb : removePermanentDeleteUserMigration a w = (Except.ok migMap, w0))
    (roles : List Role) (hnd : (roles.map Role.Name).Nodup) :
    RolePassIdempotent migMap roles := by
  simp only [removePermanentDeleteUserMigration, Prod.mk.injEq, Except.ok.injEq] at hb
  obtain ⟨hb, _⟩ := hb
  subst hb
  refine rolePass_idempotent_of_local _ roles hnd ?_ ?_
  · intro rule hrule
    simp only [List.mem_singleton] at hrule
    subst hrule
    exact localCond_permissionExists _
  · intro n roleMap final h ha
    refine (settles_of_removals n _ roleMap final h ?_ ?_ ha).2
    · intro rule hrule
      simp only [List.mem_singleton] at hrule
      subst hrule
      rfl
    · intro rule hrule
      simp only [List.mem_singleton] at hrule
      subst hrule
      exact monoCond_permissionExists _

theorem idempotent_removeChannelManageDelete {ρ μ : Type} (a : App ρ μ) (w w0 : World ρ μ)
    (migMap : permissionsMap)
    (hb : removeChannelManageDeleteFromTeamUser a w = (Except.ok migMap, w0))
    (roles : List Role) (hnd : (roles.map Role.Name).Nodup) :
    RolePassIdempotent migMap roles := by
  simp only [removeChannelManageDeleteFromTeamUser, Prod.mk.injEq, Except.ok.injEq] at hb
  obtain ⟨hb, _⟩ := hb
  subst hb
  have hand : ∀ (role p : String),
      LocalCond (permissionAnd [isRole role, permissionExists p]) ∧
      MonoCond (permissionAnd [isRole role, permissionExists p]) := by
    intro role p
    constructor
    · refine localCond_permissionAnd _ ?_
      intro f hf
      simp only [List.mem_cons, List.mem_singleton, List.not_mem_nil, or_false] at hf
      rcases hf with rfl | rfl
      · exact localCond_isRole _
      · exact localCond_permissionExists _
    · refine monoCond_permissionAnd _ ?_
      intro f hf
      simp only [List.mem_cons, List.mem_singleton, List.not_mem_nil, or_false] at hf
      rcases hf with rfl | rfl
      · exact monoCond_isRole _
      · exact monoCond_permissionExists _
  refine rolePass_idempotent_of_local _ roles hnd ?_ ?_
  · intro rule hrule
    simp only [List.mem_cons, List.mem_singleton, List.not_mem_nil, or_false] at hrule
    rcases hrule with rfl | rfl | rfl | rfl
    all_goals exact (hand _ _).1
  · intro n roleMap final h ha
    refine (settles_of_removals n _ roleMap final h ?_ ?_ ha).2
    · intro rule hrule
      simp only [List.mem_cons, List.mem_singleton, List.not_mem_nil, or_false] at hrule
      rcases hrule with rfl | rfl | rfl | rfl
      all_goals rfl
    · intro rule hrule
      simp only [List.mem_cons, List.mem_singleton, List.not_mem_nil, or_false] at hrule
      rcases hrule with rfl | rfl | rfl | rfl
      all_goals exact (hand _ _).2


/-- One role under the rules of `applyChannelManageDeleteToChannelUser`, when
the team user role and the channel user role differ: the team user role keeps
its permissions and the rules are settled for the role. -/
theorem applyChannelManageDelete_role {ρ μ : Type} (a : App ρ μ) (w w0 : World ρ μ)
    (migMap : permissionsMap)
    (hb : applyChannelManageDeleteToChannelUser a w = (Except.ok migMap, w0))
    (hne : a.TEAM_USER_ROLE_ID ≠ a.CHANNEL_USER_ROLE_ID)
    (n : String) (roleMap final : RoleMap) (h : (roleMap.lookup n).isSome = true)
    (ha : applyTransformations n migMap roleMap = some final) :
    (∀ p, permissionExists p a.TEAM_USER_ROLE_ID final
      = permissionExists p a.TEAM_USER_ROLE_ID roleMap) ∧
    ∀ rule ∈ migMap, Settled rule n final := by
  simp only [applyChannelManageDeleteToChannelUser, Prod.mk.injEq, Except.ok.injEq] at hb
  obtain ⟨hb, _⟩ := hb
  subst hb
  obtain ⟨f, hf, _, _, hspec⟩ := applyTransformations_spec n _ roleMap h
  rw [ha] at hf
  cases hf
  simp only [SpecFinalSnapshot] at hspec
  obtain ⟨m1, hs1, m2, hs2, m3, hs3, m4, hs4, hfin⟩ := hspec
  subst hfin
  obtain ⟨f1, g1⟩ := specRuleStep_grants hs1
  obtain ⟨f2, g2⟩ := specRuleStep_grants hs2
  obtain ⟨f3, g3⟩ := specRuleStep_grants hs3
  obtain ⟨f4, g4⟩ := specRuleStep_grants hs4
  by_cases hn : n = a.CHANNEL_USER_ROLE_ID
  · subst hn
    have t1 := f1 _ hne
    have t2 := f2 _ hne
    have t3 := f3 _ hne
    have t4 := f4 _ hne
    refine ⟨fun p => by rw [t4, t3, t2, t1], ?_⟩
    simp only [List.mem_cons, List.mem_singleton, List.not_mem_nil, or_false, forall_eq_or_imp,
      forall_eq, Settled]
    simp only [permissionAnd, isRole, onOtherRole, g4, g3, g2, g1, t4, t3, t2, t1]
    simp [PERMISSION_MANAGE_PRIVATE_CHANNEL_PROPERTIES, PERMISSION_DELETE_PRIVATE_CHANNEL,
      PERMISSION_MANAGE_PUBLIC_CHANNEL_PROPERTIES, PERMISSION_DELETE_PUBLIC_CHANNEL]
    tauto
  · have e1 : ∀ r p, permissionExists p r m1 = permissionExists p r roleMap := by
      intro r p
      by_cases hr : r = n
      · subst hr
        rw [g1 p]
        simp [permissionAnd, isRole, hn]
      · exact f1 r hr p
    have e2 : ∀ r p, permissionExists p r m2 = permissionExists p r m1 := by
      intro r p
      by_cases hr : r = n
      · subst hr
        rw [g2 p]
        simp [permissionAnd, isRole, hn]
      · exact f2 r hr p
    have e3 : ∀ r p, permissionExists p r m3 = permissionExists p r m2 := by
      intro r p
      by_cases hr : r = n
      · subst hr
        rw [g3 p]
        simp [permissionAnd, isRole, hn]
      · exact f3 r hr p
    have e4 : ∀ r p, permissionExists p r final = permissionExists p r m3 := by
      intro r p
      by_cases hr : r = n
      · subst hr
        rw [g4 p]
        simp [permissionAnd, isRole, hn]
      · exact f4 r hr p
    refine ⟨fun p => by rw [e4, e3, e2, e1], ?_⟩
    simp only [List.mem_cons, List.mem_singleton, List.not_mem_nil, or_false, forall_eq_or_imp,
      forall_eq, Settled]
    simp [permissionAnd, isRole, hn]

theorem applyChannelManageDelete_cond {ρ μ : Type} (a : App ρ μ) (w w0 : World ρ μ)
    (migMap : permissionsMap)
    (hb : applyChannelManageDeleteToChannelUser a w = (Except.ok migMap, w0))
    (n : String) (roleMap roleMap1 : RoleMap)
    (ht : ∀ p, permissionExists p a.TEAM_USER_ROLE_ID roleMap1
      = permissionExists p a.TEAM_USER_ROLE_ID roleMap) :
    ∀ rule ∈ migMap, rule.On n roleMap1 = rule.On n roleMap := by
  simp only [applyChannelManageDeleteToChannelUser, Prod.mk.injEq, Except.ok.injEq] at hb
  obtain ⟨hb, _⟩ := hb
  subst hb
  simp only [List.mem_cons, List.mem_singleton, List.not_mem_nil, or_false, forall_eq_or_imp,
    forall_eq]
  simp only [permissionAnd, onOtherRole, isRole, ht]
  simp

theorem applyChannelManageDelete_pass {ρ μ : Type} (a : App ρ μ) (w w0 : World ρ μ)
    (migMap : permissionsMap)
    (hb : applyChannelManageDeleteToChannelUser a w = (Except.ok migMap, w0))
    (hne : a.TEAM_USER_ROLE_ID ≠ a.CHANNEL_USER_ROLE_ID) (roles : List Role) :
    ∀ (roleMap final : RoleMap) (first : List Role),
      (roles.map Role.Name).Nodup →
      (∀ role ∈ roles, (roleMap.lookup role.Name).isSome = true) →
      updateRoles migMap roles roleMap = some (first, final) →
      (∀ p, permissionExists p a.TEAM_USER_ROLE_ID final
        = permissionExists p a.TEAM_USER_ROLE_ID roleMap) ∧
      ∀ role ∈ roles, ∀ rule ∈ migMap, Settled rule role.Name final := by
  induction roles with
  | nil =>
      intro roleMap final first _ _ hu
      simp only [updateRoles, Option.some.injEq, Prod.mk.injEq] at hu
      rw [hu.2]
      exact ⟨fun _ => rfl, by simp⟩
  | cons role rest ih =>
      intro roleMap final first hnd hall hu
      have hrole := hall role (List.mem_cons_self _ _)
      simp only [List.map_cons, List.nodup_cons] at hnd
      simp only [updateRoles] at hu
      cases hap : applyPermissionsMap role.Name roleMap migMap with
      | none => simp [hap] at hu
      | some pr =>
          obtain ⟨perms, mid⟩ := pr
          simp only [hap] at hu
          cases hrest : updateRoles migMap rest mid with
          | none => simp [hrest] at hu
          | some pr2 =>
              obtain ⟨updated1, final1⟩ := pr2
              simp only [hrest, Option.some.injEq, Prod.mk.injEq] at hu
              obtain ⟨h1, h2⟩ := hu
              subst h1
              subst h2
              have hkeep := applyPermissionsMap_keeps_entries hrole hap
              have hall1 : ∀ x ∈ rest, (mid.lookup x.Name).isSome = true :=
                fun x hx => hkeep x.Name (hall x (List.mem_cons_of_mem _ hx))
              obtain ⟨ht1, hs1⟩ := applyChannelManageDelete_role a w w0 migMap hb hne role.Name
                roleMap mid hrole (applyPermissionsMap_transformations hap)
              obtain ⟨ht2, hs2⟩ := ih mid final1 updated1 hnd.2 hall1 hrest
              refine ⟨fun p => (ht2 p).trans (ht1 p), ?_⟩
              intro r hr rule hrule
              rcases List.mem_cons.mp hr with hr | hr
              · subst hr
                have hfr := updateRoles_frame migMap rest mid final1 updated1 hall1 hrest
                  r.Name hnd.1
                exact settled_congr
                  (applyChannelManageDelete_cond a w w0 migMap hb r.Name mid final1 ht2 rule hrule)
                  (fun p => permissionExists_congr_lookup hfr p) (hs1 rule hrule)
              · exact hs2 r hr rule hrule

theorem idempotent_applyChannelManageDelete {ρ μ : Type} (a : App ρ μ) (w w0 : World ρ μ)
    (migMap : permissionsMap)
    (hb : applyChannelManageDeleteToChannelUser a w = (Except.ok migMap, w0))
    (roles : List Role) (hnd : (roles.map Role.Name).Nodup) :
    RolePassIdempotent migMap roles := by
  have hc : ∀ rule ∈ migMap, GrantsCond rule.On := by
    intro rule hrule n roleMap roleMap1 hsame
    exact (applyChannelManageDelete_cond a w w0 migMap hb n roleMap1 roleMap
      (fun p => hsame _ p) rule hrule)
  refine rolePass_idempotent_of_settled migMap roles hnd hc ?_
  intro roleMap final first hall hu
  by_cases hne : a.TEAM_USER_ROLE_ID = a.CHANNEL_USER_ROLE_ID
  · intro role _
    simp only [applyChannelManageDeleteToChannelUser, Prod.mk.injEq, Except.ok.injEq] at hb
    obtain ⟨hb, _⟩ := hb
    subst hb
    simp only [List.mem_cons, List.mem_singleton, List.not_mem_nil, or_false, forall_eq_or_imp,
      forall_eq, Settled]
    simp only [permissionAnd, isRole, onOtherRole, hne]
    simp
    refine ⟨?_, ?_, ?_, ?_⟩ <;> intro h1 h2 <;> rw [h1] <;> exact h2
  · exact (applyChannelManageDelete_pass a w w0 migMap hb hne roles roleMap final first hnd
      hall hu).2

/-! ## Claims on applyPermissionsMap -/

/-- C1: on every snapshot that has an entry for the subject role and for every
rule list, `applyPermissionsMap` returns a list without repeated element whose
members are exactly the permissions mapped to true in the subject role's entry
of the final snapshot, the final snapshot being the left-to-right fold of the
rules (`SpecFinalSnapshot`). -/
theorem applyPermissionsMap_returns_true_permissions (roleName : String) (roleMap : RoleMap)
    (migrationMap : permissionsMap) (h : (roleMap.lookup roleName).isSome = true) :
    ∃ result final, applyPermissionsMap roleName roleMap migrationMap = some (result, final) ∧
      SpecFinalSnapshot roleName migrationMap roleMap final ∧
      result.Nodup ∧
      (∀ p, p ∈ result ↔ readPermission final roleName p = some true) := by
  obtain ⟨result, final, h1, h2, _, _, h5, h6⟩ :=
    applyPermissionsMap_spec roleName roleMap migrationMap h
  exact ⟨result, final, h1, h2, h5, h6⟩

theorem applyPermissionsMap_returns_true_permissions_witness :
    ((snapshotOf [("r", ["x", "y"]), ("s", ["q"])]).lookup "r").isSome = true ∧
    ∃ result final,
      applyPermissionsMap "r" (snapshotOf [("r", ["x", "y"]), ("s", ["q"])])
        [{ On := permissionExists "x", Add := ["a", "b"], Remove := ["x"] },
         { On := onOtherRole "s" (permissionExists "zz"), Add := ["c"], Remove := ["y"] }]
        = some (result, final) ∧
      SpecFinalSnapshot "r"
        [{ On := permissionExists "x", Add := ["a", "b"], Remove := ["x"] },
         { On := onOtherRole "s" (permissionExists "zz"), Add := ["c"], Remove := ["y"] }]
        (snapshotOf [("r", ["x", "y"]), ("s", ["q"])]) final ∧
      result.Nodup ∧
      (∀ p, p ∈ result ↔ readPermission final "r" p = some true) :=
  ⟨by decide, applyPermissionsMap_returns_true_permissions "r" _ _ (by decide)⟩

/-- C7: on every snapshot that has an entry for the subject role and for every
rule list (whatever its conditions read, `onOtherRole` included),
`applyPermissionsMap` leaves the entry of every role other than the subject
role exactly as it was. -/
theorem applyPermissionsMap_other_roles_unchanged (roleName : String) (roleMap : RoleMap)
    (migrationMap : permissionsMap) (h : (roleMap.lookup roleName).isSome = true) :
    ∃ result final, applyPermissionsMap roleName roleMap migrationMap = some (result, final) ∧
      ∀ r, r ≠ roleName → final.lookup r = roleMap.lookup r := by
  obtain ⟨result, final, h1, _, _, h4, _, _⟩ :=
    applyPermissionsMap_spec roleName roleMap migrationMap h
  exact ⟨result, final, h1, h4⟩

theorem applyPermissionsMap_other_roles_unchanged_witness :
    ((snapshotOf [("a", []), ("b", ["q"])]).lookup "a").isSome = true ∧
    ∃ result final,
      applyPermissionsMap "a" (snapshotOf [("a", []), ("b", ["q"])])
        [{ On := onOtherRole "b" (permissionExists "q"), Add := ["r"], Remove := ["q"] }]
        = some (result, final) ∧
      ∀ r, r ≠ "a" → final.lookup r = (snapshotOf [("a", []), ("b", ["q"])]).lookup r :=
  ⟨by decide, applyPermissionsMap_other_roles_unchanged "a" _ _ (by decide)⟩

theorem lookup_single (k : String) (p : String) :
    AList.lookup p ((∅ : PermissionSet).insert k true) = if p = k then some true else none := by
  by_cases h : p = k
  · subst h
    rw [AList.lookup_insert, if_pos rfl]
  · rw [AList.lookup_insert_ne h, AList.lookup_empty, if_neg h]

theorem readPermission_single {roleMap : RoleMap} {roleName k : String}
    (h : roleMap.lookup roleName = some ((∅ : PermissionSet).insert k true)) (p : String) :
    readPermission roleMap roleName p = if p = k then some true else none := by
  rw [readPermission_of_lookup h, lookup_single]

/-- C9: with the single rule `{On: permissionExists(X), Add: [A, B], Remove: [X]}`
for pairwise distinct `X`, `A`, `B`: a role whose entry is exactly `{X: true}`
gets exactly the permissions `A` and `B`, and a role whose entry is exactly
`{Y: true}` with `Y` different from `X` keeps exactly `Y`. -/
theorem applyPermissionsMap_single_rule_split (X A B Y roleName : String)
    (roleMapX roleMapY : RoleMap)
    (hXA : X ≠ A) (hXB : X ≠ B) (hAB : A ≠ B) (hYX : Y ≠ X)
    (hX : roleMapX.lookup roleName = some ((∅ : PermissionSet).insert X true))
    (hY : roleMapY.lookup roleName = some ((∅ : PermissionSet).insert Y true)) :
    (∃ result final,
        applyPermissionsMap roleName roleMapX
          [{ On := permissionExists X, Add := [A, B], Remove := [X] }] = some (result, final) ∧
        result.Perm [A, B]) ∧
    (∃ result final,
        applyPermissionsMap roleName roleMapY
          [{ On := permissionExists X, Add := [A, B], Remove := [X] }] = some (result, final) ∧
        result.Perm [Y]) := by
  constructor
  · obtain ⟨result, final, h1, ⟨mid, hstep, hfin⟩, _, _, hnd, hmem⟩ :=
      applyPermissionsMap_spec roleName roleMapX
        [{ On := permissionExists X, Add := [A, B], Remove := [X] }] (by simp [hX])
    refine ⟨result, final, h1, ?_⟩
    have hOn : permissionExists X roleName roleMapX = true := by
      simp only [permissionExists, readPermission_single hX, if_pos]
    simp only [SpecFinalSnapshot] at hfin
    subst hfin
    simp only [SpecRuleStep, hOn, if_true] at hstep
    obtain ⟨_, _, hread⟩ := hstep
    have hnd2 : [A, B].Nodup := by simp [hAB]
    refine (List.perm_ext_iff_of_nodup hnd hnd2).mpr ?_
    intro p
    rw [hmem p, hread p, readPermission_single hX]
    by_cases hpX : p = X
    · subst hpX
      simp [hXA, hXB]
    · by_cases hpA : p = A
      · subst hpA
        simp [hpX]
      · by_cases hpB : p = B
        · subst hpB
          simp [hpX]
        · simp [hpX, hpA, hpB]
  · obtain ⟨result, final, h1, ⟨mid, hstep, hfin⟩, _, _, hnd, hmem⟩ :=
      applyPermissionsMap_spec roleName roleMapY
        [{ On := permissionExists X, Add := [A, B], Remove := [X] }] (by simp [hY])
    refine ⟨result, final, h1, ?_⟩
    have hOn : ¬ permissionExists X roleName roleMapY = true := by
      simp only [permissionExists, readPermission_single hY, if_neg (Ne.symm hYX)]
      simp
    simp only [SpecFinalSnapshot] at hfin
    subst hfin
    simp only [SpecRuleStep, hOn, if_false] at hstep
    subst hstep
    refine (List.perm_ext_iff_of_nodup hnd (by simp)).mpr ?_
    intro p
    rw [hmem p, readPermission_single hY]
    by_cases hpY : p = Y
    · simp [hpY]
    · simp [hpY]

theorem applyPermissionsMap_single_rule_split_witness :
    ("manage_emojis" ≠ "create_emojis" ∧ "manage_emojis" ≠ "delete_emojis" ∧
      "create_emojis" ≠ "delete_emojis" ∧ "read_channel" ≠ "manage_emojis") ∧
    (∃ result final,
        applyPermissionsMap "r"
          ((∅ : RoleMap).insert "r" ((∅ : PermissionSet).insert "manage_emojis" true))
          [{ On := permissionExists "manage_emojis",
             Add := ["create_emojis", "delete_emojis"],
             Remove := ["manage_emojis"] }] = some (result, final) ∧
        result.Perm ["create_emojis", "delete_emojis"]) ∧
    (∃ result final,
        applyPermissionsMap "r"
          ((∅ : RoleMap).insert "r" ((∅ : PermissionSet).insert "read_channel" true))
          [{ On := permissionExists "manage_emojis",
             Add := ["create_emojis", "delete_emojis"],
             Remove := ["manage_emojis"] }] = some (result, final) ∧
        result.Perm ["read_channel"]) :=
  ⟨by decide,
   applyPermissionsMap_single_rule_split "manage_emojis" "create_emojis" "delete_emojis"
     "read_channel" "r" _ _ (by decide) (by decide) (by decide) (by decide)
     (AList.lookup_insert _) (AList.lookup_insert _)⟩

/-! ## Claims on doPermissionsMigration -/

/-- C2: when the lookup of the completion marker for the key succeeds,
`doPermissionsMigration` returns no error and leaves the role store and the
marker store as they were; the marker lookup is the only store call it makes
(no `RoleSave`, no `GetAllRoles`, no `SystemSave`). -/
theorem doPermissionsMigration_marker_present {ρ μ : Type} (a : App ρ μ) (key : String)
    (migrationMap : permissionsMap) (w : World ρ μ) (marker : System)
    (h : a.SystemGetByName w.system key = Except.ok marker) :
    doPermissionsMigration a key migrationMap w
      = some (none, { roles := w.roles, system := w.system,
                      calls := w.calls ++ [StoreCall.systemGetByName key] }) := by
  simp [doPermissionsMigration, h]

theorem doPermissionsMigration_marker_present_witness :
    (memApp [] [] [] ∅).SystemGetByName [{ Name := "emoji_permissions_split", Value := "true" }]
        "emoji_permissions_split"
      = Except.ok { Name := "emoji_permissions_split", Value := "true" } ∧
    doPermissionsMigration (memApp [] [] [] ∅) "emoji_permissions_split"
        [{ On := permissionExists "manage_emojis", Add := ["create_emojis"],
           Remove := ["manage_emojis"] }]
        { roles := [{ Id := "1", Name := "system_admin", Permissions := ["manage_emojis"] }],
          system := [{ Name := "emoji_permissions_split", Value := "true" }],
          calls := [] }
      = some (none,
          { roles := [{ Id := "1", Name := "system_admin", Permissions := ["manage_emojis"] }],
            system := [{ Name := "emoji_permissions_split", Value := "true" }],
            calls := [] ++ [StoreCall.systemGetByName "emoji_permissions_split"] }) :=
  ⟨rfl, doPermissionsMigration_marker_present (memApp [] [] [] ∅) _ _ _ _ rfl⟩

/-- C3: with the marker absent and the roles loaded, if saving the `k`-th
updated role (in the order the store returned the roles) is the first save
that fails, `doPermissionsMigration` returns that error; `RoleSave` was called
for the first `k + 1` roles only, `SystemSave` was not called, and the marker
store is unchanged.  The role pass itself never panics. -/
theorem doPermissionsMigration_save_failure {ρ μ : Type} (a : App ρ μ) (key : String)
    (migrationMap : permissionsMap) (w : World ρ μ) (roles : List Role) (err0 : AppError)
    (hmarker : a.SystemGetByName w.system key = Except.error err0)
    (hroles : a.GetAllRoles w.roles = Except.ok roles) :
    ∃ updated, rolePass migrationMap roles = some updated ∧ updated.length = roles.length ∧
      ∀ (k : Nat) (failing : Role) (err : AppError) (roles1 : ρ),
        updated[k]? = some failing →
        (∀ i r, i < k → updated[i]? = some r →
          ∃ r1, (a.RoleSave (roleStoreAfter a (updated.take i) w.roles) r).1 = Except.ok r1) →
        a.RoleSave (roleStoreAfter a (updated.take k) w.roles) failing
          = (Except.error err, roles1) →
        doPermissionsMigration a key migrationMap w
          = some (some err,
              { roles := roles1, system := w.system,
                calls := w.calls ++ [StoreCall.systemGetByName key, StoreCall.getAllRoles]
                  ++ (updated.take (k + 1)).map StoreCall.roleSave }) := by
  obtain ⟨roleMap, updated, final, hb, hu, hp, hlen⟩ := rolePass_total migrationMap roles
  refine ⟨updated, hp, hlen, ?_⟩
  intro k failing err roles1 hk hok hfail
  obtain ⟨mid, hsave⟩ := saveRoles_first_failure a migrationMap roles roleMap
    { w with calls := w.calls ++ [StoreCall.systemGetByName key] ++ [StoreCall.getAllRoles] }
    updated final k failing err roles1 hu hk hok hfail
  simp only [doPermissionsMigration, hmarker, hroles, hb, hsave]
  simp

theorem doPermissionsMigration_save_failure_witness :
    (memApp ["team_user"] [] [] ∅).SystemGetByName sampleWorld.system "k"
      = Except.error { Id := "store.sql_system.get_by_name.app_error" } ∧
    (memApp ["team_user"] [] [] ∅).GetAllRoles sampleWorld.roles = Except.ok sampleRoles ∧
    doPermissionsMigration (memApp ["team_user"] [] [] ∅) "k" sampleRules sampleWorld
      = some (some { Id := "store.sql_role.save.update.app_error" },
          { roles :=
              [ { Id := "1", Name := "system_admin",
                  Permissions := ["delete_emojis", "create_emojis", "manage_system"] },
                { Id := "2", Name := "team_user", Permissions := ["manage_emojis"] },
                { Id := "3", Name := "channel_user", Permissions := ["create_post"] } ],
            system := [],
            calls :=
              [ StoreCall.systemGetByName "k", StoreCall.getAllRoles,
                StoreCall.roleSave ⟨"1", "system_admin", ["delete_emojis", "create_emojis", "manage_system"]⟩,
                StoreCall.roleSave ⟨"2", "team_user", ["delete_emojis", "create_emojis"]⟩ ] }) := by
  refine ⟨rfl, rfl, ?_⟩
  obtain ⟨updated, hp, _, hall⟩ :=
    doPermissionsMigration_save_failure (memApp ["team_user"] [] [] ∅) "k" sampleRules
      sampleWorld sampleRoles _ rfl rfl
  have h2 : rolePass sampleRules sampleRoles
      = some [ { Id := "1", Name := "system_admin",
                 Permissions := ["delete_emojis", "create_emojis", "manage_system"] },
               { Id := "2", Name := "team_user", Permissions := ["delete_emojis", "create_emojis"] },
               { Id := "3", Name := "channel_user", Permissions := ["create_post"] } ] := by
    decide
  rw [h2] at hp
  cases hp
  refine hall 1 _ _ _ rfl ?_ rfl
  intro i r hi hir
  have hi0 : i = 0 := by omega
  subst hi0
  cases hir
  exact ⟨_, rfl⟩

/-- C6: with the marker absent, the roles loaded and every save succeeding, if
the write of the completion marker fails, `doPermissionsMigration` returns the
error of the marker write, and the role store is in the state the saves of all
the updated roles left it in: every role was saved with the list
`applyPermissionsMap` computed (`rolePass`) and nothing is undone. -/
theorem doPermissionsMigration_marker_write_failure {ρ μ : Type} (a : App ρ μ) (key : String)
    (migrationMap : permissionsMap) (w : World ρ μ) (roles : List Role) (err0 : AppError)
    (hmarker : a.SystemGetByName w.system key = Except.error err0)
    (hroles : a.GetAllRoles w.roles = Except.ok roles) :
    ∃ updated, rolePass migrationMap roles = some updated ∧ updated.length = roles.length ∧
      ∀ (err : AppError) (system1 : μ),
        (∀ i r, updated[i]? = some r →
          ∃ r1, (a.RoleSave (roleStoreAfter a (updated.take i) w.roles) r).1 = Except.ok r1) →
        a.SystemSave w.system { Name := key, Value := "true" } = (some err, system1) →
        doPermissionsMigration a key migrationMap w
          = some (some err,
              { roles := roleStoreAfter a updated w.roles, system := system1,
                calls := w.calls ++ [StoreCall.systemGetByName key, StoreCall.getAllRoles]
                  ++ updated.map StoreCall.roleSave
                  ++ [StoreCall.systemSave { Name := key, Value := "true" }] }) := by
  obtain ⟨roleMap, updated, final, hb, hu, hp, hlen⟩ := rolePass_total migrationMap roles
  refine ⟨updated, hp, hlen, ?_⟩
  intro err system1 hok hfail
  have hsave := saveRoles_all_ok a migrationMap roles roleMap
    { w with calls := w.calls ++ [StoreCall.systemGetByName key] ++ [StoreCall.getAllRoles] }
    updated final hu hok
  simp only [doPermissionsMigration, hmarker, hroles, hb, hsave, hfail]
  simp

theorem doPermissionsMigration_marker_write_failure_witness :
    (memApp [] ["k"] [] ∅).SystemGetByName sampleWorld.system "k"
      = Except.error { Id := "store.sql_system.get_by_name.app_error" } ∧
    (memApp [] ["k"] [] ∅).GetAllRoles sampleWorld.roles = Except.ok sampleRoles ∧
    doPermissionsMigration (memApp [] ["k"] [] ∅) "k" sampleRules sampleWorld
      = some (some { Id := "store.sql_system.save.app_error" },
          { roles :=
              [ { Id := "1", Name := "system_admin",
                  Permissions := ["delete_emojis", "create_emojis", "manage_system"] },
                { Id := "2", Name := "team_user",
                  Permissions := ["delete_emojis", "create_emojis"] },
                { Id := "3", Name := "channel_user", Permissions := ["create_post"] } ],
            system := [],
            calls :=
              [ StoreCall.systemGetByName "k", StoreCall.getAllRoles,
                StoreCall.roleSave ⟨"1", "system_admin", ["delete_emojis", "create_emojis", "manage_system"]⟩,
                StoreCall.roleSave ⟨"2", "team_user", ["delete_emojis", "create_emojis"]⟩,
                StoreCall.roleSave ⟨"3", "channel_user", ["create_post"]⟩,
                StoreCall.systemSave { Name := "k", Value := "true" } ] }) := by
  refine ⟨rfl, rfl, ?_⟩
  obtain ⟨updated, hp, _, hall⟩ :=
    doPermissionsMigration_marker_write_failure (memApp [] ["k"] [] ∅) "k" sampleRules
      sampleWorld sampleRoles _ rfl rfl
  have h2 : rolePass sampleRules sampleRoles
      = some [ { Id := "1", Name := "system_admin",
                 Permissions := ["delete_emojis", "create_emojis", "manage_system"] },
               { Id := "2", Name := "team_user", Permissions := ["delete_emojis", "create_emojis"] },
               { Id := "3", Name := "channel_user", Permissions := ["create_post"] } ] := by
    decide
  rw [h2] at hp
  cases hp
  refine hall _ _ ?_ rfl
  intro i r hir
  exact ⟨r, rfl⟩

/-- C10: with the marker absent, roles of unique names among which role `B`
holds `Q`, and a run of `doPermissionsMigration` with the single rule
`{On: onOtherRole(B, permissionExists(Q)), Add: [R]}` in which every store
call succeeds (the run returns no error): role `A` is saved with a permission
list that contains `R`, whether or not `A` held `Q` and whatever the order of
the roles.  (`A` need not even differ from `B`.) -/
theorem doPermissionsMigration_cross_role {ρ μ : Type} (a : App ρ μ) (key : String)
    (w w1 : World ρ μ) (roles : List Role) (err0 : AppError) (B Q R : String)
    (roleA roleB : Role)
    (hmarker : a.SystemGetByName w.system key = Except.error err0)
    (hroles : a.GetAllRoles w.roles = Except.ok roles)
    (hnames : (roles.map Role.Name).Nodup)
    (hA : roleA ∈ roles) (hB : roleB ∈ roles) (hBname : roleB.Name = B)
    (hQ : Q ∈ roleB.Permissions)
    (hrun : doPermissionsMigration a key
      [{ On := onOtherRole B (permissionExists Q), Add := [R], Remove := [] }] w
        = some (none, w1)) :
    ∃ updated perms,
      w1.roles = roleStoreAfter a updated w.roles ∧
      w1.calls = w.calls ++ [StoreCall.systemGetByName key, StoreCall.getAllRoles]
        ++ updated.map StoreCall.roleSave
        ++ [StoreCall.systemSave { Name := key, Value := "true" }] ∧
      { roleA with Permissions := perms } ∈ updated ∧ R ∈ perms := by
  obtain ⟨updated, hp, _, hw1⟩ :=
    doPermissionsMigration_of_no_error a key _ w w1 roles err0 hmarker hroles hrun
  obtain ⟨roleMap, hb, _, _, h3, h4⟩ := buildRoleMap_spec roles ∅
  obtain ⟨inner, hin, hcontent⟩ := h4 hnames roleB hB
  have hQ0 : readPermission roleMap B Q = some true := by
    rw [← hBname, readPermission_of_lookup hin, hcontent Q]
    simp [hQ]
  simp only [rolePass, hb] at hp
  cases hu : updateRoles [{ On := onOtherRole B (permissionExists Q), Add := [R], Remove := [] }]
      roles roleMap with
  | none => simp [hu] at hp
  | some pr =>
      obtain ⟨updated1, final⟩ := pr
      simp only [hu, Option.some.injEq] at hp
      subst hp
      obtain ⟨perms, hR, hmem⟩ := updateRoles_cross_role B Q R roles roleMap updated1 final h3 hQ0
        hu roleA hA
      refine ⟨updated1, perms, ?_, ?_, hmem, hR⟩
      · rw [hw1]
      · rw [hw1]

theorem doPermissionsMigration_cross_role_witness :
    doPermissionsMigration (memApp [] [] [] ∅) "k"
        [{ On := onOtherRole "channel_user" (permissionExists "q"), Add := ["r"], Remove := [] }]
        crossWorld = some (none, crossWorldAfter) ∧
    ∃ updated perms,
      crossWorldAfter.roles = roleStoreAfter (memApp [] [] [] ∅) updated crossWorld.roles ∧
      crossWorldAfter.calls
        = crossWorld.calls ++ [StoreCall.systemGetByName "k", StoreCall.getAllRoles]
          ++ updated.map StoreCall.roleSave
          ++ [StoreCall.systemSave { Name := "k", Value := "true" }] ∧
      { (⟨"1", "channel_admin", []⟩ : Role) with Permissions := perms } ∈ updated ∧
      "r" ∈ perms :=
  ⟨by decide,
   doPermissionsMigration_cross_role (memApp [] [] [] ∅) "k" crossWorld crossWorldAfter
    crossRoles ⟨"store.sql_system.get_by_name.app_error"⟩ "channel_user" "q" "r"
    ⟨"1", "channel_admin", []⟩ ⟨"2", "channel_user", ["q"]⟩
    rfl rfl (by decide) (by decide) (by decide) rfl (by decide) (by decide)⟩

/-! ## Lemmas on the catalog and the completion markers -/

theorem collectTeamSchemes_calls (batches : List (List Scheme)) :
    ∀ (all : List Scheme) (calls : List StoreCall), ∃ extra,
      (collectTeamSchemes batches all calls).2 = calls ++ extra ∧
      ∀ c ∈ extra, c = StoreCall.schemesNext := by
  induction batches with
  | nil =>
      intro all calls
      exact ⟨[StoreCall.schemesNext], rfl, by simp⟩
  | cons batch rest ih =>
      intro all calls
      by_cases hb : batch.length > 0
      · obtain ⟨extra, h1, h2⟩ := ih (all ++ batch) (calls ++ [StoreCall.schemesNext])
        refine ⟨StoreCall.schemesNext :: extra, ?_, ?_⟩
        · simp only [collectTeamSchemes, hb, if_true, h1]
          simp
        · intro c hc
          rcases List.mem_cons.mp hc with hc | hc
          · exact hc
          · exact h2 c hc
      · refine ⟨[StoreCall.schemesNext], ?_, by simp⟩
        simp only [collectTeamSchemes, hb, if_false]

/-- A builder that returns a fixed rule list without any call is quiet. -/
theorem builderQuiet_static {ρ μ : Type} (a : App ρ μ) (key : String)
    (rules : App ρ μ → permissionsMap) :
    BuilderQuiet a { Key := key, Migration := fun a1 w => (Except.ok (rules a1), w) } := by
  intro w
  exact ⟨rules a, [], by simp, by simp⟩

theorem builderQuiet_channelModeration {ρ μ : Type} (a : App ρ μ) (key : String) :
    BuilderQuiet a { Key := key, Migration := channelModerationPermissionsMigration } := by
  intro w
  obtain ⟨extra, h1, h2⟩ :=
    collectTeamSchemes_calls (a.SchemesIterator a.SCHEME_SCOPE_TEAM 100) [] w.calls
  refine ⟨((channelModerationPermissionsMigration a w).1.toOption).getD [], extra, ?_, h2⟩
  simp only [channelModerationPermissionsMigration, h1]
  rfl

/-- Every builder of the table returns a rule list and leaves the stores
alone. -/
theorem PermissionsMigrations_quiet {ρ μ : Type} (a : App ρ μ) :
    ∀ entry ∈ PermissionsMigrations a, BuilderQuiet a entry := by
  intro entry hentry
  simp only [PermissionsMigrations, List.mem_cons, List.mem_singleton, List.not_mem_nil,
    or_false] at hentry
  rcases hentry with h | h | h | h | h | h | h | h | h | h
  · subst h; exact builderQuiet_static a _ _
  · subst h; exact builderQuiet_static a _ _
  · subst h; exact builderQuiet_static a _ _
  · subst h; exact builderQuiet_static a _ _
  · subst h; exact builderQuiet_static a _ _
  · subst h; exact builderQuiet_static a _ _
  · subst h; exact builderQuiet_static a _ _
  · subst h; exact builderQuiet_static a _ _
  · subst h; exact builderQuiet_static a _ _
  · subst h; exact builderQuiet_channelModeration a _

/-- A run of `doPermissionsMigration` without error leaves the key marked and
keeps the markers found before, on a marker store that finds what was saved. -/
theorem doPermissionsMigration_marks {ρ μ : Type} (a : App ρ μ)
    (hset : ∀ system m system1, a.SystemSave system m = (none, system1) →
      MarkerFound a system1 m.Name)
    (hkeep : ∀ system m system1 k, a.SystemSave system m = (none, system1) →
      MarkerFound a system k → MarkerFound a system1 k)
    (key : String) (migrationMap : permissionsMap) (w w1 : World ρ μ)
    (hrun : doPermissionsMigration a key migrationMap w = some (none, w1)) :
    MarkerFound a w1.system key ∧ ∀ k, MarkerFound a w.system k → MarkerFound a w1.system k := by
  cases hm : a.SystemGetByName w.system key with
  | ok marker =>
      rw [doPermissionsMigration_short_circuit a key migrationMap w marker hm] at hrun
      simp only [Option.some.injEq, Prod.mk.injEq, true_and] at hrun
      subst hrun
      exact ⟨⟨marker, hm⟩, fun _ h => h⟩
  | error err0 =>
      cases hr : a.GetAllRoles w.roles with
      | error err =>
          simp [doPermissionsMigration, hm, hr] at hrun
      | ok roles =>
          obtain ⟨updated, _, hsave, _⟩ :=
            doPermissionsMigration_of_no_error a key migrationMap w w1 roles err0 hm hr hrun
          exact ⟨hset _ _ _ hsave, fun k hk => hkeep _ _ _ k hsave hk⟩

/-- A run of the catalog loop without error leaves every key of the list
marked. -/
theorem runPermissionsMigrations_marks {ρ μ : Type} (a : App ρ μ)
    (hset : ∀ system m system1, a.SystemSave system m = (none, system1) →
      MarkerFound a system1 m.Name)
    (hkeep : ∀ system m system1 k, a.SystemSave system m = (none, system1) →
      MarkerFound a system k → MarkerFound a system1 k)
    (entries : List (MigrationEntry ρ μ)) :
    ∀ (w w1 : World ρ μ), (∀ entry ∈ entries, BuilderQuiet a entry) →
      runPermissionsMigrations a entries w = some (none, w1) →
      (∀ k, MarkerFound a w.system k → MarkerFound a w1.system k) ∧
      ∀ entry ∈ entries, MarkerFound a w1.system entry.Key := by
  induction entries with
  | nil =>
      intro w w1 _ hrun
      simp only [runPermissionsMigrations, Option.some.injEq, Prod.mk.injEq, true_and] at hrun
      subst hrun
      exact ⟨fun _ h => h, by simp⟩
  | cons entry rest ih =>
      intro w w1 hq hrun
      obtain ⟨migMap, extra, hb, _⟩ := hq entry (List.mem_cons_self _ _) w
      simp only [runPermissionsMigrations, hb] at hrun
      cases hd : doPermissionsMigration a entry.Key migMap
          { roles := w.roles, system := w.system, calls := w.calls ++ extra } with
      | none => simp [hd] at hrun
      | some res =>
          obtain ⟨e, w2⟩ := res
          cases e with
          | some err => simp [hd] at hrun
          | none =>
              simp only [hd] at hrun
              obtain ⟨hk1, hk2⟩ := doPermissionsMigration_marks a hset hkeep _ _ _ w2 hd
              obtain ⟨hr1, hr2⟩ := ih w2 w1 (fun e he => hq e (List.mem_cons_of_mem _ he)) hrun
              refine ⟨fun k hk => hr1 k (hk2 k hk), ?_⟩
              intro e he
              rcases List.mem_cons.mp he with he | he
              · subst he
                exact hr1 _ hk1
              · exact hr2 e he

/-- The catalog loop when every key of the list is marked: no error, the
stores are untouched, and only marker lookups and scheme-iterator calls are
made. -/
theorem runPermissionsMigrations_marked {ρ μ : Type} (a : App ρ μ)
    (entries : List (MigrationEntry ρ μ)) :
    ∀ (w : World ρ μ), (∀ entry ∈ entries, BuilderQuiet a entry) →
      (∀ entry ∈ entries, MarkerFound a w.system entry.Key) →
      ∃ extra, runPermissionsMigrations a entries w
          = some (none, { roles := w.roles, system := w.system, calls := w.calls ++ extra }) ∧
        ∀ c ∈ extra, c = StoreCall.schemesNext ∨ ∃ k, c = StoreCall.systemGetByName k := by
  induction entries with
  | nil =>
      intro w _ _
      exact ⟨[], by simp [runPermissionsMigrations], by simp⟩
  | cons entry rest ih =>
      intro w hq hfound
      obtain ⟨migMap, extra, hb, hx⟩ := hq entry (List.mem_cons_self _ _) w
      obtain ⟨marker, hm⟩ := hfound entry (List.mem_cons_self _ _)
      have hd := doPermissionsMigration_short_circuit a entry.Key migMap
        { roles := w.roles, system := w.system, calls := w.calls ++ extra } marker hm
      obtain ⟨extra2, hr, hx2⟩ := ih
        { roles := w.roles, system := w.system,
          calls := w.calls ++ extra ++ [StoreCall.systemGetByName entry.Key] }
        (fun e he => hq e (List.mem_cons_of_mem _ he))
        (fun e he => hfound e (List.mem_cons_of_mem _ he))
      refine ⟨extra ++ [StoreCall.systemGetByName entry.Key] ++ extra2, ?_, ?_⟩
      · simp only [runPermissionsMigrations, hb, hd, hr]
        simp
      · intro c hc
        simp only [List.mem_append, List.mem_singleton] at hc
        rcases hc with (hc | hc) | hc
        · exact Or.inl (hx c hc)
        · exact Or.inr ⟨_, hc⟩
        · exact hx2 c hc

theorem memApp_marker_set (failRole : List String) (schemes : List (List Scheme))
    (moderated : AList (fun _ : String => String)) (system : List System) (m : System)
    (system1 : List System)
    (h : (memApp failRole [] schemes moderated).SystemSave system m = (none, system1)) :
    MarkerFound (memApp failRole [] schemes moderated) system1 m.Name := by
  simp only [memApp, List.not_mem_nil, if_false, Prod.mk.injEq, true_and] at h
  subst h
  simp only [MarkerFound, memApp, List.find?_append]
  cases hf : List.find? (fun x => decide (x.Name = m.Name)) system with
  | some x => exact ⟨x, by simp⟩
  | none => exact ⟨m, by simp⟩

theorem memApp_marker_keep (failRole : List String) (schemes : List (List Scheme))
    (moderated : AList (fun _ : String => String)) (system : List System) (m : System)
    (system1 : List System) (k : String)
    (h : (memApp failRole [] schemes moderated).SystemSave system m = (none, system1))
    (hk : MarkerFound (memApp failRole [] schemes moderated) system k) :
    MarkerFound (memApp failRole [] schemes moderated) system1 k := by
  simp only [memApp, List.not_mem_nil, if_false, Prod.mk.injEq, true_and] at h
  subst h
  obtain ⟨x, hx⟩ := hk
  simp only [MarkerFound, memApp, List.find?_append] at hx ⊢
  cases hf : List.find? (fun x => decide (x.Name = k)) system with
  | some y => exact ⟨y, by simp⟩
  | none => simp [hf] at hx

/-- The catalog loop on entries that all run without error. -/
theorem runPermissionsMigrations_of_succeed {ρ μ : Type} (a : App ρ μ)
    (entries : List (MigrationEntry ρ μ)) :
    ∀ (w w1 : World ρ μ), EntriesSucceed a entries w w1 →
      runPermissionsMigrations a entries w = some (none, w1) := by
  induction entries with
  | nil =>
      intro w w1 h
      simp only [EntriesSucceed] at h
      subst h
      rfl
  | cons entry rest ih =>
      intro w w1 h
      obtain ⟨mid, ⟨migMap, w0, hb, hd⟩, hrest⟩ := h
      simp only [runPermissionsMigrations, hb, hd]
      exact ih mid w1 hrest

/-! ## Claims on DoPermissionsMigrations -/

/-- The catalog loop on a list whose entries before the failing one run
without error. -/
theorem runPermissionsMigrations_first_error {ρ μ : Type} (a : App ρ μ)
    (pre : List (MigrationEntry ρ μ)) :
    ∀ (entry : MigrationEntry ρ μ) (post : List (MigrationEntry ρ μ)) (w wi w1 : World ρ μ)
      (err : GoError),
      EntriesSucceed a pre w wi → EntryFails a entry wi err w1 →
      runPermissionsMigrations a (pre ++ entry :: post) w = some (some err, w1) := by
  induction pre with
  | nil =>
      intro entry post w wi w1 err hpre hfail
      simp only [EntriesSucceed] at hpre
      subst hpre
      rcases hfail with hb | ⟨migMap, w0, appErr, hb, hd, he⟩
      · simp [runPermissionsMigrations, hb]
      · simp [runPermissionsMigrations, hb, hd, he]
  | cons e rest ih =>
      intro entry post w wi w1 err hpre hfail
      obtain ⟨mid, ⟨migMap, w0, hb, hd⟩, hrest⟩ := hpre
      have := ih entry post mid wi w1 err hrest hfail
      simp only [List.cons_append, runPermissionsMigrations, hb, hd]
      exact this

/-- C4: `DoPermissionsMigrations` runs the entries of the table in their
declaration order: if the entries before the `i`-th run without error and the
`i`-th entry fails (in its builder or in `doPermissionsMigration`), the call
returns exactly that error and ends in the world the failing entry left, so
no store call is made for a later entry and what the earlier entries saved
stays in place. -/
theorem DoPermissionsMigrations_first_error {ρ μ : Type} (a : App ρ μ)
    (pre : List (MigrationEntry ρ μ)) (entry : MigrationEntry ρ μ)
    (post : List (MigrationEntry ρ μ)) (w wi w1 : World ρ μ) (err : GoError)
    (hsplit : PermissionsMigrations a = pre ++ entry :: post)
    (hpre : EntriesSucceed a pre w wi) (hfail : EntryFails a entry wi err w1) :
    DoPermissionsMigrations a w = some (some err, w1) := by
  rw [DoPermissionsMigrations, hsplit]
  exact runPermissionsMigrations_first_error a pre entry post w wi w1 err hpre hfail

theorem DoPermissionsMigrations_first_error_witness :
    DoPermissionsMigrations (memApp [] ["webhook_permissions_split"] [] ∅) sampleWorld
      = some (some (GoError.appError { Id := "store.sql_system.save.app_error" }),
          sampleWorldAfterWebhook) :=
  DoPermissionsMigrations_first_error (memApp [] ["webhook_permissions_split"] [] ∅)
    [{ Key := "emoji_permissions_split", Migration := getEmojisPermissionsSplitMigration }]
    { Key := "webhook_permissions_split", Migration := getWebhooksPermissionsSplitMigration }
    ((PermissionsMigrations (memApp [] ["webhook_permissions_split"] [] ∅)).drop 2)
    sampleWorld sampleWorldAfterEmoji sampleWorldAfterWebhook
    (GoError.appError { Id := "store.sql_system.save.app_error" })
    rfl
    ⟨sampleWorldAfterEmoji, ⟨_, sampleWorld, rfl, by decide⟩, rfl⟩
    (Or.inr ⟨_, sampleWorldAfterEmoji, { Id := "store.sql_system.save.app_error" }, rfl,
      by decide, rfl⟩)

/-- C5: on a marker store that finds a saved key at every later lookup, if a
first call of `DoPermissionsMigrations` returns no error, a second call right
after it returns no error, makes no `RoleSave` call (only marker lookups and
scheme-iterator calls), and leaves the role store and the marker store in the
state the first call left them in. -/
theorem DoPermissionsMigrations_twice {ρ μ : Type} (a : App ρ μ) (w w1 : World ρ μ)
    (hset : ∀ system m system1, a.SystemSave system m = (none, system1) →
      MarkerFound a system1 m.Name)
    (hkeep : ∀ system m system1 k, a.SystemSave system m = (none, system1) →
      MarkerFound a system k → MarkerFound a system1 k)
    (hfirst : DoPermissionsMigrations a w = some (none, w1)) :
    ∃ extra,
      DoPermissionsMigrations a w1
        = some (none, { roles := w1.roles, system := w1.system, calls := w1.calls ++ extra }) ∧
      (∀ c ∈ extra, c = StoreCall.schemesNext ∨ ∃ k, c = StoreCall.systemGetByName k) ∧
      (∀ c ∈ extra, ∀ role, c ≠ StoreCall.roleSave role) := by
  obtain ⟨_, hmarked⟩ := runPermissionsMigrations_marks a hset hkeep (PermissionsMigrations a)
    w w1 (PermissionsMigrations_quiet a) hfirst
  obtain ⟨extra, hrun, hx⟩ := runPermissionsMigrations_marked a (PermissionsMigrations a) w1
    (PermissionsMigrations_quiet a) hmarked
  refine ⟨extra, hrun, hx, ?_⟩
  intro c hc role hcr
  rcases hx c hc with h | ⟨k, h⟩
  · rw [h] at hcr
    cases hcr
  · rw [h] at hcr
    cases hcr

theorem DoPermissionsMigrations_twice_witness :
    DoPermissionsMigrations (memApp [] [] [] ∅) smallWorld = some (none, smallWorldAfter) ∧
    ∃ extra,
      DoPermissionsMigrations (memApp [] [] [] ∅) smallWorldAfter
        = some (none, { roles := smallWorldAfter.roles, system := smallWorldAfter.system,
                        calls := smallWorldAfter.calls ++ extra }) ∧
      (∀ c ∈ extra, c = StoreCall.schemesNext ∨ ∃ k, c = StoreCall.systemGetByName k) ∧
      (∀ c ∈ extra, ∀ role, c ≠ StoreCall.roleSave role) := by
  have hfirst : DoPermissionsMigrations (memApp [] [] [] ∅) smallWorld
      = some (none, smallWorldAfter) := by
    apply runPermissionsMigrations_of_succeed
    refine ⟨smallWorldAt 1, ⟨_, smallWorldAt 0, rfl, ?_⟩, ?_⟩
    · decide
    refine ⟨smallWorldAt 2, ⟨_, smallWorldAt 1, rfl, ?_⟩, ?_⟩
    · decide
    refine ⟨smallWorldAt 3, ⟨_, smallWorldAt 2, rfl, ?_⟩, ?_⟩
    · decide
    refine ⟨smallWorldAt 4, ⟨_, smallWorldAt 3, rfl, ?_⟩, ?_⟩
    · decide
    refine ⟨smallWorldAt 5, ⟨_, smallWorldAt 4, rfl, ?_⟩, ?_⟩
    · decide
    refine ⟨smallWorldAt 6, ⟨_, smallWorldAt 5, rfl, ?_⟩, ?_⟩
    · decide
    refine ⟨smallWorldAt 7, ⟨_, smallWorldAt 6, rfl, ?_⟩, ?_⟩
    · decide
    refine ⟨smallWorldAt 8, ⟨_, smallWorldAt 7, rfl, ?_⟩, ?_⟩
    · decide
    refine ⟨smallWorldAt 9, ⟨_, smallWorldAt 8, rfl, ?_⟩, ?_⟩
    · decide
    refine ⟨smallWorldAt 10, ⟨_, { smallWorldAt 9 with
        calls := (smallWorldAt 9).calls ++ [StoreCall.schemesNext] }, rfl, ?_⟩, ?_⟩
    · decide
    exact rfl
  exact ⟨hfirst, DoPermissionsMigrations_twice (memApp [] [] [] ∅) smallWorld smallWorldAfter
    (memApp_marker_set [] [] ∅) (memApp_marker_keep [] [] ∅) hfirst⟩

/-! ## Claims on re-running a migration -/

/-- C8 as stated fails for `channelModerationPermissionsMigration`: with the
built-in channel roles, the channel user holding `create_post_public` only
and listed after the channel admin, the first role pass gives the channel
admin nothing and the channel user `use_channel_mentions`; the second pass
then gives the channel admin `use_channel_mentions`. -/
theorem rolePass_not_idempotent_channelModeration :
    ∃ entry ∈ PermissionsMigrations (memApp [] [] [] moderatedSample), ∃ migMap w0,
      entry.Migration (memApp [] [] [] moderatedSample) smallWorld = (Except.ok migMap, w0) ∧
      (moderationRoles.map Role.Name).Nodup ∧
      ¬ RolePassIdempotent migMap moderationRoles := by
  refine ⟨{ Key := (memApp [] [] [] moderatedSample).MIGRATION_KEY_CHANNEL_MODERATIONS_PERMISSIONS,
            Migration := channelModerationPermissionsMigration },
    by simp [PermissionsMigrations], moderationRules, _, rfl, by decide, ?_⟩
  rintro ⟨first, second, h1, h2, hf⟩
  have e1 : rolePass moderationRules moderationRoles
      = some [⟨"1", "channel_admin", []⟩,
              ⟨"2", "channel_user", ["use_channel_mentions", "create_post_public"]⟩] := by
    decide
  rw [e1] at h1
  cases h1
  have e2 : rolePass moderationRules
      [⟨"1", "channel_admin", []⟩,
       ⟨"2", "channel_user", ["use_channel_mentions", "create_post_public"]⟩]
      = some [⟨"1", "channel_admin", ["use_channel_mentions"]⟩,
              ⟨"2", "channel_user", ["use_channel_mentions", "create_post_public"]⟩] := by
    decide
  rw [e2] at h2
  cases h2
  cases hf with
  | cons hhead _ =>
      have := (hhead.2 "use_channel_mentions").mp (by simp)
      simp at this

/-- C8, amended: for each of the nine migrations of the table that come
before `channelModerationPermissionsMigration` and every list of roles with
unique names, the role pass (build the snapshot, apply the rule list to every
role in list order) run again on the roles the first pass produced leaves
every role with the permission set the first pass gave it. -/
theorem rolePass_idempotent_fixed_rules {ρ μ : Type} (a : App ρ μ) (entry : MigrationEntry ρ μ)
    (hentry : entry ∈ (PermissionsMigrations a).take 9) (w w0 : World ρ μ)
    (migMap : permissionsMap) (hb : entry.Migration a w = (Except.ok migMap, w0))
    (roles : List Role) (hnd : (roles.map Role.Name).Nodup) :
    RolePassIdempotent migMap roles := by
  simp only [PermissionsMigrations, List.take_succ_cons, List.take_zero, List.mem_cons,
    List.mem_singleton, List.not_mem_nil, or_false] at hentry
  rcases hentry with h | h | h | h | h | h | h | h | h
  · subst h; exact idempotent_emojis a w w0 migMap hb roles hnd
  · subst h; exact idempotent_webhooks a w w0 migMap hb roles hnd
  · subst h; exact idempotent_listJoin a w w0 migMap hb roles hnd
  · subst h; exact idempotent_permanentDelete a w w0 migMap hb roles hnd
  · subst h; exact idempotent_addBot a w w0 migMap hb roles hnd
  · subst h; exact idempotent_applyChannelManageDelete a w w0 migMap hb roles hnd
  · subst h; exact idempotent_removeChannelManageDelete a w w0 migMap hb roles hnd
  · subst h; exact idempotent_viewMembers a w w0 migMap hb roles hnd
  · subst h; exact idempotent_manageGuests a w w0 migMap hb roles hnd

theorem rolePass_idempotent_fixed_rules_witness :
    (sampleRoles.map Role.Name).Nodup ∧
    RolePassIdempotent
      [{ On := permissionExists PERMISSION_MANAGE_EMOJIS,
         Add := [PERMISSION_CREATE_EMOJIS, PERMISSION_DELETE_EMOJIS],
         Remove := [PERMISSION_MANAGE_EMOJIS] },
       { On := permissionExists PERMISSION_MANAGE_OTHERS_EMOJIS,
         Add := [PERMISSION_DELETE_OTHERS_EMOJIS],
         Remove := [PERMISSION_MANAGE_OTHERS_EMOJIS] }]
      sampleRoles :=
  ⟨by decide,
   rolePass_idempotent_fixed_rules (memApp [] [] [] ∅)
    { Key := "emoji_permissions_split", Migration := getEmojisPermissionsSplitMigration }
    (by simp [PermissionsMigrations, memApp]) sampleWorld sampleWorld _ rfl sampleRoles
    (by decide)⟩

/-! ## Claims on the predicate combinators and on rule order -/

/-- The granted permissions after a rule list that removes nothing only grow. -/
theorem applyTransformations_no_remove_grows (n : String) (migrationMap : permissionsMap) :
    ∀ (roleMap final : RoleMap), (roleMap.lookup n).isSome = true →
      (∀ rule ∈ migrationMap, rule.Remove = []) →
      applyTransformations n migrationMap roleMap = some final →
      ∀ p, permissionExists p n roleMap = true → permissionExists p n final = true := by
  induction migrationMap with
  | nil =>
      intro roleMap final _ _ ha p hp
      simp only [applyTransformations, Option.some.injEq] at ha
      subst ha
      exact hp
  | cons rule rest ih =>
      intro roleMap final h hrem ha p hp
      obtain ⟨mid, hstep, hmid, _, hspec⟩ := applyTransformation_spec n roleMap rule h
      simp only [applyTransformations, hstep] at ha
      have hg := (specRuleStep_grants hspec).2 p
      have hR := hrem rule (List.mem_cons_self _ _)
      refine ih mid final hmid (fun r hr => hrem r (List.mem_cons_of_mem _ hr)) ha p ?_
      rw [hg]
      by_cases hOn : rule.On n roleMap = true
      · by_cases hA : p ∈ rule.Add
        · simp [hOn, hR, hA]
        · simp [hOn, hR, hA, hp]
      · simp [hOn, hp]


/-- C11: on every snapshot that has an entry for the subject role, with
rule1 = {always true, Add: [P]} and rule2 = {always true, Remove: [P]}: the
rule list [rule1, rule2] returns a list without `P`, and the rule list
[rule2, rule1] returns a list with `P`. -/
theorem applyPermissionsMap_rule_order (roleName : String) (roleMap : RoleMap) (P : String)
    (h : (roleMap.lookup roleName).isSome = true) :
    (∃ result final,
      applyPermissionsMap roleName roleMap
        [{ On := fun _ _ => true, Add := [P], Remove := [] },
         { On := fun _ _ => true, Add := [], Remove := [P] }] = some (result, final) ∧
      P ∉ result) ∧
    (∃ result final,
      applyPermissionsMap roleName roleMap
        [{ On := fun _ _ => true, Add := [], Remove := [P] },
         { On := fun _ _ => true, Add := [P], Remove := [] }] = some (result, final) ∧
      P ∈ result) := by
  constructor
  · obtain ⟨result, final, hap, _⟩ := applyPermissionsMap_spec roleName roleMap
      [{ On := fun _ _ => true, Add := [P], Remove := [] },
       { On := fun _ _ => true, Add := [], Remove := [P] }] h
    refine ⟨result, final, hap, ?_⟩
    obtain ⟨m1, hs1, hs2⟩ := applyTransformations_two h (applyPermissionsMap_transformations hap)
    have g1 := (specRuleStep_grants hs1).2
    have g2 := (specRuleStep_grants hs2).2
    rw [(applyPermissionsMap_grants h hap).1 P, g2 P]
    simp
  · obtain ⟨result, final, hap, _⟩ := applyPermissionsMap_spec roleName roleMap
      [{ On := fun _ _ => true, Add := [], Remove := [P] },
       { On := fun _ _ => true, Add := [P], Remove := [] }] h
    refine ⟨result, final, hap, ?_⟩
    obtain ⟨m1, hs1, hs2⟩ := applyTransformations_two h (applyPermissionsMap_transformations hap)
    have g1 := (specRuleStep_grants hs1).2
    have g2 := (specRuleStep_grants hs2).2
    rw [(applyPermissionsMap_grants h hap).1 P, g2 P]
    simp


theorem applyPermissionsMap_rule_order_witness :
    ((snapshotOf [("r", ["x"])]).lookup "r").isSome = true ∧
    (∃ result final,
      applyPermissionsMap "r" (snapshotOf [("r", ["x"])])
        [{ On := fun _ _ => true, Add := ["p"], Remove := [] },
         { On := fun _ _ => true, Add := [], Remove := ["p"] }] = some (result, final) ∧
      "p" ∉ result) ∧
    (∃ result final,
      applyPermissionsMap "r" (snapshotOf [("r", ["x"])])
        [{ On := fun _ _ => true, Add := [], Remove := ["p"] },
         { On := fun _ _ => true, Add := ["p"], Remove := [] }] = some (result, final) ∧
      "p" ∈ result) :=
  ⟨by decide, applyPermissionsMap_rule_order "r" _ "p" (by decide)⟩

/-- C14: `permissionOr` of a list is true iff at least one predicate of the list
is true on the subject and snapshot, `permissionAnd` iff every predicate is;
on the empty list `permissionOr` is false and `permissionAnd` is true. -/
theorem permissionOr_permissionAnd_iff (funcs : List PermissionPredicate) (roleName : String)
    (permissionsMap : RoleMap) :
    (permissionOr funcs roleName permissionsMap = true
      ↔ ∃ f ∈ funcs, f roleName permissionsMap = true) ∧
    (permissionAnd funcs roleName permissionsMap = true
      ↔ ∀ f ∈ funcs, f roleName permissionsMap = true) ∧
    permissionOr [] roleName permissionsMap = false ∧
    permissionAnd [] roleName permissionsMap = true := by
  refine ⟨?_, ?_, rfl, rfl⟩
  · induction funcs with
    | nil => simp [permissionOr]
    | cons f rest ih =>
        simp only [permissionOr, List.mem_cons, exists_eq_or_imp]
        by_cases hf : f roleName permissionsMap = true
        · simp [hf]
        · simp [hf, ih]
  · induction funcs with
    | nil => simp [permissionAnd]
    | cons f rest ih =>
        simp only [permissionAnd, List.mem_cons, forall_eq_or_imp]
        by_cases hf : f roleName permissionsMap = true
        · simp [hf, ih]
        · simp [hf]


/-- C15: `permissionExists(p)` is true iff the snapshot has an entry for the
subject role and that entry has the key `p` with value true (so it is false
when the subject has no entry), and `permissionNotExists(p)` is its exact
negation on the same arguments. -/
theorem permissionExists_permissionNotExists_iff (permission roleName : String)
    (permissionsMap : RoleMap) :
    (permissionExists permission roleName permissionsMap = true
      ↔ ∃ inner, permissionsMap.lookup roleName = some inner ∧
          inner.lookup permission = some true) ∧
    permissionNotExists permission roleName permissionsMap
      = !permissionExists permission roleName permissionsMap := by
  constructor
  · rw [permissionExists_eq_true_iff]
    unfold readPermission
    cases h : permissionsMap.lookup roleName with
    | none => simp
    | some inner => simp
  · unfold permissionNotExists permissionExists
    cases h : readPermission permissionsMap roleName permission with
    | none => rfl
    | some v => rfl

/-- C20: on every snapshot that has an entry for the subject role and for every
rule list whose rules all have an empty Remove list, every permission mapped
to true in the subject role's entry before the call is in the list
`applyPermissionsMap` returns. -/
theorem applyPermissionsMap_no_remove_keeps (roleName : String) (roleMap : RoleMap)
    (migrationMap : permissionsMap) (p : String)
    (h : (roleMap.lookup roleName).isSome = true)
    (hrem : ∀ rule ∈ migrationMap, rule.Remove = [])
    (hp : readPermission roleMap roleName p = some true) :
    ∃ result final, applyPermissionsMap roleName roleMap migrationMap = some (result, final) ∧
      p ∈ result := by
  obtain ⟨result, final, hap, _⟩ := applyPermissionsMap_spec roleName roleMap migrationMap h
  refine ⟨result, final, hap, ?_⟩
  rw [(applyPermissionsMap_grants h hap).1 p]
  exact applyTransformations_no_remove_grows roleName migrationMap roleMap final h hrem
    (applyPermissionsMap_transformations hap) p ((permissionExists_eq_true_iff p roleName roleMap).mpr hp)


theorem applyPermissionsMap_no_remove_keeps_witness :
    ((snapshotOf [("system_admin", ["manage_system"])]).lookup "system_admin").isSome = true ∧
    readPermission (snapshotOf [("system_admin", ["manage_system"])]) "system_admin"
      "manage_system" = some true ∧
    ∃ result final,
      applyPermissionsMap "system_admin" (snapshotOf [("system_admin", ["manage_system"])])
        [{ On := isRole "system_admin", Add := ["view_members"], Remove := [] }]
        = some (result, final) ∧
      "manage_system" ∈ result :=
  ⟨by decide, by decide,
   applyPermissionsMap_no_remove_keeps "system_admin" _ _ "manage_system" (by decide)
    (by simp) (by decide)⟩

/-! ## Claims on adds and removes within one rule -/

theorem applyTransformations_append (n : String) (pre post : permissionsMap) :
    ∀ roleMap : RoleMap, applyTransformations n (pre ++ post) roleMap
      = (applyTransformations n pre roleMap).bind (applyTransformations n post) := by
  induction pre with
  | nil => intro roleMap; rfl
  | cons rule rest ih =>
      intro roleMap
      simp only [List.cons_append, applyTransformations]
      cases applyTransformation n roleMap rule with
      | none => rfl
      | some mid => exact ih mid

/-- Rules that do not mention `p` when they fire leave `p` as it is. -/
theorem applyTransformations_no_mention (n p : String) (migrationMap : permissionsMap) :
    ∀ (roleMap final : RoleMap), (roleMap.lookup n).isSome = true →
      NoFiringMention n p migrationMap roleMap →
      applyTransformations n migrationMap roleMap = some final →
      permissionExists p n final = permissionExists p n roleMap := by
  induction migrationMap with
  | nil =>
      intro roleMap final _ _ ha
      simp only [applyTransformations, Option.some.injEq] at ha
      subst ha
      rfl
  | cons rule rest ih =>
      intro roleMap final h hno ha
      obtain ⟨mid, hstep, hmid, _, hspec⟩ := applyTransformation_spec n roleMap rule h
      simp only [applyTransformations, hstep] at ha
      obtain ⟨hfire, hrest⟩ := hno
      rw [ih mid final hmid (hrest mid hstep) ha, (specRuleStep_grants hspec).2 p]
      by_cases hOn : rule.On n roleMap = true
      · obtain ⟨hA, hR⟩ := hfire hOn
        simp [hOn, hA, hR]
      · simp [hOn]

/-- C16: on a snapshot that has an entry for the subject role, if a rule whose
condition holds when it is applied has `p` in its Remove list (in particular
when `p` is in both its Add and its Remove list: the adds come first) and no
later rule whose condition holds mentions `p`, then `p` is not in the list
`applyPermissionsMap` returns; in particular the single rule
{always true, Add: [p], Remove: [p]} yields a list without `p`. -/
theorem applyPermissionsMap_add_then_remove (roleName p : String) (roleMap mid : RoleMap)
    (pre post : permissionsMap) (rule : permissionTransformation)
    (h : (roleMap.lookup roleName).isSome = true)
    (hmid : applyTransformations roleName pre roleMap = some mid)
    (hOn : rule.On roleName mid = true) (hR : p ∈ rule.Remove)
    (hpost : ∀ mid1, applyTransformation roleName mid rule = some mid1 →
      NoFiringMention roleName p post mid1) :
    (∃ result final,
      applyPermissionsMap roleName roleMap (pre ++ rule :: post) = some (result, final) ∧
      p ∉ result) ∧
    (∃ result final,
      applyPermissionsMap roleName roleMap
        [{ On := fun _ _ => true, Add := [p], Remove := [p] }] = some (result, final) ∧
      p ∉ result) := by
  constructor
  · obtain ⟨result, final, hap, _⟩ :=
      applyPermissionsMap_spec roleName roleMap (pre ++ rule :: post) h
    refine ⟨result, final, hap, ?_⟩
    have ht := applyPermissionsMap_transformations hap
    rw [applyTransformations_append, hmid] at ht
    simp only [Option.some_bind, applyTransformations] at ht
    obtain ⟨m0, hm0, hmidp, _, _⟩ := applyTransformations_spec roleName pre roleMap h
    rw [hmid] at hm0
    cases hm0
    obtain ⟨mid1, hstep, hmid1, _, hspec⟩ := applyTransformation_spec roleName mid rule hmidp
    simp only [hstep] at ht
    have hkeep := applyTransformations_no_mention roleName p post mid1 final hmid1
      (hpost mid1 hstep) ht
    rw [(applyPermissionsMap_grants h hap).1 p, hkeep, (specRuleStep_grants hspec).2 p]
    simp [hOn, hR]
  · obtain ⟨result, final, hap, _⟩ := applyPermissionsMap_spec roleName roleMap
      [{ On := fun _ _ => true, Add := [p], Remove := [p] }] h
    refine ⟨result, final, hap, ?_⟩
    have hs := applyTransformations_one h (applyPermissionsMap_transformations hap)
    rw [(applyPermissionsMap_grants h hap).1 p, (specRuleStep_grants hs).2 p]
    simp

theorem applyPermissionsMap_add_then_remove_witness :
    ((snapshotOf [("r", ["x"])]).lookup "r").isSome = true ∧
    (∃ result final,
      applyPermissionsMap "r" (snapshotOf [("r", ["x"])])
        ([] ++ { On := permissionExists "x", Add := ["p", "a"], Remove := ["p"] } ::
          [{ On := isRole "other", Add := ["p"], Remove := [] },
           { On := fun _ _ => true, Add := ["q"], Remove := ["x"] }]) = some (result, final) ∧
      "p" ∉ result) ∧
    (∃ result final,
      applyPermissionsMap "r" (snapshotOf [("r", ["x"])])
        [{ On := fun _ _ => true, Add := ["p"], Remove := ["p"] }] = some (result, final) ∧
      "p" ∉ result) :=
  ⟨by decide,
   applyPermissionsMap_add_then_remove "r" "p" (snapshotOf [("r", ["x"])])
    (snapshotOf [("r", ["x"])]) []
    [{ On := isRole "other", Add := ["p"], Remove := [] },
     { On := fun _ _ => true, Add := ["q"], Remove := ["x"] }]
    { On := permissionExists "x", Add := ["p", "a"], Remove := ["p"] }
    (by decide) rfl (by decide) (by decide)
    (by intro mid1 _; simp [NoFiringMention, isRole])⟩

/-! ## Claims on channelModerationPermissionsMigration -/

theorem collectTeamSchemes_fst (batches : List (List Scheme)) :
    ∀ (all : List Scheme) (calls : List StoreCall),
      (collectTeamSchemes batches all calls).1 = all ++ consumedSchemes batches := by
  induction batches with
  | nil => intro all calls; simp [collectTeamSchemes, consumedSchemes]
  | cons batch rest ih =>
      intro all calls
      by_cases hb : batch.length > 0
      · simp only [collectTeamSchemes, hb, if_true, ih]
        simp [consumedSchemes, hb]
      · simp only [collectTeamSchemes, hb, if_false]
        simp [consumedSchemes, hb]

theorem foldl_append_singleton {α β : Type} (f : α → β) (l : List α) :
    ∀ init : List β, l.foldl (fun acc x => acc ++ [f x]) init = init ++ l.map f := by
  induction l with
  | nil => intro init; simp
  | cons x rest ih => intro init; simp [ih]

theorem foldl_moderation (perms : List String) (pairs : List rolePair) :
    ∀ init : permissionsMap,
      pairs.foldl (fun acc pair => acc ++ perms.map (moderationTransformation pair)) init
      = init ++ moderationRulesFor pairs perms := by
  induction pairs with
  | nil => intro init; simp [moderationRulesFor]
  | cons pair rest ih =>
      intro init
      rw [List.foldl_cons, ih]
      simp [moderationRulesFor]

theorem length_moderationRulesFor (pairs : List rolePair) (perms : List String) :
    (moderationRulesFor pairs perms).length = pairs.length * perms.length := by
  induction pairs with
  | nil => simp [moderationRulesFor]
  | cons pair rest ih =>
      have : moderationRulesFor (pair :: rest) perms
          = perms.map (moderationTransformation pair) ++ moderationRulesFor rest perms := by
        simp [moderationRulesFor]
      rw [this, List.length_append, ih, List.length_map, List.length_cons]
      ring

/-- C12: `channelModerationPermissionsMigration` returns no error and, for the
`n` schemes of the batches the iterator returns before its first empty batch
and the `m` entries of the moderated-permission table, a list of
`(n + 1) * m + 1` rules: one rule per role pair and moderated permission, for
the built-in channel admin/user pair and then for every scheme's pair,
followed by the rule that adds `use_channel_mentions`. -/
theorem channelModerationPermissionsMigration_rules {ρ μ : Type} (a : App ρ μ)
    (w : World ρ μ) :
    (channelModerationPermissionsMigration a w).1
        = Except.ok
            (moderationRulesFor
                (moderationRolePairs a
                  (consumedSchemes (a.SchemesIterator a.SCHEME_SCOPE_TEAM 100)))
                a.ModeratedPermissions.keys
              ++ [useChannelMentionsRule]) ∧
      (moderationRulesFor
          (moderationRolePairs a (consumedSchemes (a.SchemesIterator a.SCHEME_SCOPE_TEAM 100)))
          a.ModeratedPermissions.keys
        ++ [useChannelMentionsRule]).length
        = ((consumedSchemes (a.SchemesIterator a.SCHEME_SCOPE_TEAM 100)).length + 1)
            * a.ModeratedPermissions.entries.length + 1 := by
  refine ⟨?_, ?_⟩
  · simp only [channelModerationPermissionsMigration, collectTeamSchemes_fst, List.nil_append,
      foldl_moderation, foldl_append_singleton]
    rfl
  · rw [List.length_append, length_moderationRulesFor]
    simp [moderationRolePairs, AList.keys, List.keys]

/-! ## Claims on false entries -/

theorem permissionNotExists_eq_not (permission roleName : String) (roleMap : RoleMap) :
    permissionNotExists permission roleName roleMap
      = !permissionExists permission roleName roleMap := by
  unfold permissionNotExists permissionExists
  cases readPermission roleMap roleName permission with
  | none => rfl
  | some v => rfl

theorem grantsCond_permissionNotExists (permission : String) :
    GrantsCond (permissionNotExists permission) := by
  intro n roleMap roleMap1 hs
  rw [permissionNotExists_eq_not, permissionNotExists_eq_not, hs n permission]

theorem grantsCond_of_built {c : PermissionPredicate} (h : BuiltCondition c) : GrantsCond c := by
  induction h with
  | isRole role => exact grantsCond_isRole role
  | permissionExists permission => exact grantsCond_permissionExists permission
  | permissionNotExists permission => exact grantsCond_permissionNotExists permission
  | onOtherRole otherRole function _ ih => exact grantsCond_onOtherRole otherRole function ih
  | permissionOr funcs _ ih => exact grantsCond_permissionOr funcs ih
  | permissionAnd funcs _ ih => exact grantsCond_permissionAnd funcs ih

/-- Rule lists whose conditions depend on the granted permissions only take
snapshots that grant the same permissions to snapshots that grant the same
permissions. -/
theorem applyTransformations_sameGrants (n : String) (migrationMap : permissionsMap) :
    ∀ (roleMap roleMap1 final final1 : RoleMap),
      (roleMap.lookup n).isSome = true → (roleMap1.lookup n).isSome = true →
      (∀ rule ∈ migrationMap, GrantsCond rule.On) →
      SameGrants roleMap roleMap1 →
      applyTransformations n migrationMap roleMap = some final →
      applyTransformations n migrationMap roleMap1 = some final1 →
      SameGrants final final1 := by
  induction migrationMap with
  | nil =>
      intro roleMap roleMap1 final final1 _ _ _ hs ha ha1
      simp only [applyTransformations, Option.some.injEq] at ha ha1
      subst ha
      subst ha1
      exact hs
  | cons rule rest ih =>
      intro roleMap roleMap1 final final1 h h1 hc hs ha ha1
      obtain ⟨mid, hstep, hmid, _, hspec⟩ := applyTransformation_spec n roleMap rule h
      obtain ⟨mid1, hstep1, hmid1, _, hspec1⟩ := applyTransformation_spec n roleMap1 rule h1
      simp only [applyTransformations, hstep] at ha
      simp only [applyTransformations, hstep1] at ha1
      obtain ⟨f, g⟩ := specRuleStep_grants hspec
      obtain ⟨f1, g1⟩ := specRuleStep_grants hspec1
      have hOn := hc rule (List.mem_cons_self _ _) n roleMap roleMap1 hs
      refine ih mid mid1 final final1 hmid hmid1
        (fun r hr => hc r (List.mem_cons_of_mem _ hr)) ?_ ha ha1
      intro r p
      by_cases hr : r = n
      · subst hr
        rw [g p, g1 p, hOn, hs r p]
      · rw [f r hr p, f1 r hr p, hs r p]

theorem deletePermission_spec (roleMap : RoleMap) (r p : String)
    (hfalse : readPermission roleMap r p = some false) :
    SameGrants roleMap (deletePermission roleMap r p) ∧
    ∀ n, (roleMap.lookup n).isSome = true →
      ((deletePermission roleMap r p).lookup n).isSome = true := by
  unfold readPermission at hfalse
  cases hl : roleMap.lookup r with
  | none => simp [hl] at hfalse
  | some inner =>
      simp only [hl] at hfalse
      have hdel : deletePermission roleMap r p = roleMap.insert r (inner.erase p) := by
        simp [deletePermission, hl]
      rw [hdel]
      constructor
      · intro r1 q
        by_cases hr : r1 = r
        · subst hr
          simp only [permissionExists, readPermission, hl, AList.lookup_insert]
          by_cases hq : q = p
          · subst hq
            simp [hfalse, AList.lookup_erase]
          · rw [AList.lookup_erase_ne hq]
        · simp only [permissionExists, readPermission, AList.lookup_insert_ne hr]
      · intro n hn
        by_cases hr : n = r
        · subst hr
          simp [AList.lookup_insert]
        · rw [AList.lookup_insert_ne hr]
          exact hn

/-- C13: for every snapshot `s` that has an entry for the subject role, every
role `r` and permission `p` with `s[r][p] = false`, and every rule list whose
conditions are built only from `isRole`, `permissionExists`,
`permissionNotExists`, `onOtherRole`, `permissionOr` and `permissionAnd`:
`applyPermissionsMap` on `s` and on `s` with the entry `s[r][p]` deleted
return lists with the same members. -/
theorem applyPermissionsMap_false_is_absent (roleName : String) (roleMap : RoleMap)
    (migrationMap : permissionsMap) (r p : String)
    (h : (roleMap.lookup roleName).isSome = true)
    (hfalse : readPermission roleMap r p = some false)
    (hbuilt : ∀ rule ∈ migrationMap, BuiltCondition rule.On) :
    ∃ result final result1 final1,
      applyPermissionsMap roleName roleMap migrationMap = some (result, final) ∧
      applyPermissionsMap roleName (deletePermission roleMap r p) migrationMap
        = some (result1, final1) ∧
      ∀ q, q ∈ result ↔ q ∈ result1 := by
  obtain ⟨hs, hpres⟩ := deletePermission_spec roleMap r p hfalse
  have h1 := hpres roleName h
  obtain ⟨result, final, hap, _⟩ := applyPermissionsMap_spec roleName roleMap migrationMap h
  obtain ⟨result1, final1, hap1, _⟩ :=
    applyPermissionsMap_spec roleName (deletePermission roleMap r p) migrationMap h1
  refine ⟨result, final, result1, final1, hap, hap1, ?_⟩
  intro q
  have hsame := applyTransformations_sameGrants roleName migrationMap roleMap
    (deletePermission roleMap r p) final final1 h h1
    (fun rule hrule => grantsCond_of_built (hbuilt rule hrule)) hs
    (applyPermissionsMap_transformations hap) (applyPermissionsMap_transformations hap1)
  rw [(applyPermissionsMap_grants h hap).1 q, (applyPermissionsMap_grants h1 hap1).1 q,
    hsame roleName q]

theorem applyPermissionsMap_false_is_absent_witness :
    (falseEntrySnapshot.lookup "r").isSome = true ∧
    readPermission falseEntrySnapshot "r" "p" = some false ∧
    ∃ result final result1 final1,
      applyPermissionsMap "r" falseEntrySnapshot
        [{ On := permissionNotExists "p", Add := ["a"], Remove := [] },
         { On := permissionAnd [isRole "r", permissionOr [permissionExists "p",
             onOtherRole "r" (permissionExists "x")]], Add := ["b"], Remove := ["x"] }]
        = some (result, final) ∧
      applyPermissionsMap "r" (deletePermission falseEntrySnapshot "r" "p")
        [{ On := permissionNotExists "p", Add := ["a"], Remove := [] },
         { On := permissionAnd [isRole "r", permissionOr [permissionExists "p",
             onOtherRole "r" (permissionExists "x")]], Add := ["b"], Remove := ["x"] }]
        = some (result1, final1) ∧
      ∀ q, q ∈ result ↔ q ∈ result1 :=
  ⟨by decide, by decide,
   applyPermissionsMap_false_is_absent "r" falseEntrySnapshot _ "r" "p" (by decide) (by decide)
    (by
      intro rule hrule
      simp only [List.mem_cons, List.mem_singleton, List.not_mem_nil, or_false] at hrule
      rcases hrule with rfl | rfl
      · exact BuiltCondition.permissionNotExists _
      · refine BuiltCondition.permissionAnd _ ?_
        intro f hf
        simp only [List.mem_cons, List.mem_singleton, List.not_mem_nil, or_false] at hf
        rcases hf with rfl | rfl
        · exact BuiltCondition.isRole _
        · refine BuiltCondition.permissionOr _ ?_
          intro g hg
          simp only [List.mem_cons, List.mem_singleton, List.not_mem_nil, or_false] at hg
          rcases hg with rfl | rfl
          · exact BuiltCondition.permissionExists _
          · exact BuiltCondition.onOtherRole _ _ (BuiltCondition.permissionExists _))⟩

/-! ## Claims on the order of the roles and on panics -/

/-- C17: the outcome of the role pass depends on the order of the roles: with
the rule list `channelModerationPermissionsMigration` builds for the built-in
channel roles (its rules read the channel user role through `onOtherRole`)
and the two orderings of the same two roles of unique names, the channel admin
role ends without `use_channel_mentions` when it is processed first and with
it when it is processed last. -/
theorem rolePass_depends_on_role_order :
    moderationRules
      = moderationRulesFor [{ targetRole := "channel_admin", otherRole := "channel_user" }]
          moderatedSample.keys ++ [useChannelMentionsRule] ∧
    (moderationRoles.map Role.Name).Nodup ∧
    moderationRoles.reverse.Perm moderationRoles ∧
    ∃ updated1 updated2,
      rolePass moderationRules moderationRoles = some updated1 ∧
      rolePass moderationRules moderationRoles.reverse = some updated2 ∧
      ∃ r1 ∈ updated1, ∃ r2 ∈ updated2,
        r1.Name = r2.Name ∧ ¬ (∀ p, p ∈ r1.Permissions ↔ p ∈ r2.Permissions) := by
  refine ⟨rfl, by decide, List.reverse_perm _,
    [⟨"1", "channel_admin", []⟩,
     ⟨"2", "channel_user", ["use_channel_mentions", "create_post_public"]⟩],
    [⟨"2", "channel_user", ["use_channel_mentions", "create_post_public"]⟩,
     ⟨"1", "channel_admin", ["use_channel_mentions"]⟩],
    by decide, by decide,
    ⟨"1", "channel_admin", []⟩, by simp,
    ⟨"1", "channel_admin", ["use_channel_mentions"]⟩, by simp, rfl, ?_⟩
  intro h
  have := (h "use_channel_mentions").mpr (by simp)
  simp at this

theorem callsHaveEntry_of_entries (migrationMap : permissionsMap) (roles : List Role) :
    ∀ roleMap : RoleMap, (∀ role ∈ roles, (roleMap.lookup role.Name).isSome = true) →
      CallsHaveEntry migrationMap roles roleMap := by
  induction roles with
  | nil => intro _ _; trivial
  | cons role rest ih =>
      intro roleMap hall
      have hrole := hall role (List.mem_cons_self _ _)
      refine ⟨hrole, ?_⟩
      intro permissions roleMap1 hap
      exact ih roleMap1 (fun r hr =>
        applyPermissionsMap_keeps_entries hrole hap r.Name (hall r (List.mem_cons_of_mem _ hr)))

theorem saveRoles_total {ρ μ : Type} (a : App ρ μ) (migrationMap : permissionsMap)
    (roles : List Role) :
    ∀ (roleMap : RoleMap) (w : World ρ μ),
      (∀ role ∈ roles, (roleMap.lookup role.Name).isSome = true) →
      ∃ res, saveRoles a migrationMap roles roleMap w = some res := by
  induction roles with
  | nil => intro roleMap w _; exact ⟨_, rfl⟩
  | cons role rest ih =>
      intro roleMap w hall
      have hrole := hall role (List.mem_cons_self _ _)
      obtain ⟨result, mid, hap, _⟩ := applyPermissionsMap_spec role.Name roleMap migrationMap hrole
      have hkeep := applyPermissionsMap_keeps_entries hrole hap
      simp only [saveRoles, hap]
      cases hsave : a.RoleSave w.roles { role with Permissions := result } with
      | mk res roles1 =>
          cases res with
          | error err => exact ⟨_, rfl⟩
          | ok r1 =>
              exact ih mid _ (fun r hr => hkeep r.Name (hall r (List.mem_cons_of_mem _ hr)))

/-- C18: for every list of roles the store can return (roles sharing a name
and roles without permissions included), the snapshot is built without a
panic and every call of `applyPermissionsMap` in the role loop is made with a
subject role that has an entry; hence the role pass and
`doPermissionsMigration` never take the panic branch (`none`), whatever the
stores answer. -/
theorem doPermissionsMigration_writes_have_entry {ρ μ : Type} (a : App ρ μ) (key : String)
    (migrationMap : permissionsMap) (w : World ρ μ) (roles : List Role) :
    (∃ roleMap, buildRoleMap roles ∅ = some roleMap ∧
      CallsHaveEntry migrationMap roles roleMap) ∧
    (∃ updated, rolePass migrationMap roles = some updated) ∧
    ∃ res, doPermissionsMigration a key migrationMap w = some res := by
  refine ⟨?_, ?_, ?_⟩
  · obtain ⟨roleMap, hb, _, _, h3, _⟩ := buildRoleMap_spec roles ∅
    exact ⟨roleMap, hb, callsHaveEntry_of_entries migrationMap roles roleMap h3⟩
  · obtain ⟨_, updated, _, _, _, hp, _⟩ := rolePass_total migrationMap roles
    exact ⟨updated, hp⟩
  · unfold doPermissionsMigration
    cases a.SystemGetByName w.system key with
    | ok marker => exact ⟨_, rfl⟩
    | error err0 =>
        cases hr : a.GetAllRoles w.roles with
        | error err => exact ⟨_, rfl⟩
        | ok loaded =>
            obtain ⟨roleMap, hb, _, _, h3, _⟩ := buildRoleMap_spec loaded ∅
            obtain ⟨res, hs⟩ := saveRoles_total a migrationMap loaded roleMap
              { roles := w.roles, system := w.system,
                calls := w.calls ++ [StoreCall.systemGetByName key] ++ [StoreCall.getAllRoles] }
              h3
            simp only [hb, hs]
            obtain ⟨e, mid, w3⟩ := res
            cases e with
            | some err => exact ⟨_, rfl⟩
            | none =>
                cases hm : a.SystemSave w3.system { Name := key, Value := "true" } with
                | mk e2 system1 =>
                    cases e2 with
                    | some err => simp only [hm]; exact ⟨_, rfl⟩
                    | none => simp only [hm]; exact ⟨_, rfl⟩

/-! ## Claims on the channel manage and delete migrations -/

/-- A rule `{On: permissionAnd(isRole(C), onOtherRole(T, permissionExists(P))),
Add: [P]}` with `T` different from `C`: role `C` is granted `P` when `T`
holds it, and nothing else changes. -/
theorem crossAddRule_step (C T P n : String) (roleMap mid : RoleMap) (hne : T ≠ C)
    (h : (roleMap.lookup n).isSome = true)
    (hstep : applyTransformation n roleMap
      { On := permissionAnd [isRole C, onOtherRole T (permissionExists P)],
        Add := [P], Remove := [] } = some mid) :
    (mid.lookup n).isSome = true ∧
    (∀ q, permissionExists q T mid = permissionExists q T roleMap) ∧
    ∀ r q, permissionExists q r mid = true ↔
      permissionExists q r roleMap = true ∨
      (r = n ∧ n = C ∧ q = P ∧ permissionExists P T roleMap = true) := by
  obtain ⟨m, hm, hpres, _, hspec⟩ := applyTransformation_spec n roleMap _ h
  rw [hstep] at hm
  cases hm
  obtain ⟨f, g⟩ := specRuleStep_grants hspec
  have hmain : ∀ r q, permissionExists q r mid = true ↔
      permissionExists q r roleMap = true ∨
      (r = n ∧ n = C ∧ q = P ∧ permissionExists P T roleMap = true) := by
    intro r q
    by_cases hr : r = n
    · subst hr
      rw [g q]
      simp only [permissionAnd, isRole, onOtherRole]
      by_cases hC : r = C
      · by_cases hT : permissionExists P T roleMap = true
        · by_cases hq : q = P
          · simp [hC, hT, hq]
          · simp [hC, hT, hq]
        · simp [hC, hT]
      · simp [hC]
    · rw [f r hr q]
      simp [hr]
  refine ⟨hpres, ?_, hmain⟩
  intro q
  rw [Bool.eq_iff_iff, hmain T q]
  constructor
  · rintro (h1 | ⟨h1, h2, _, _⟩)
    · exact h1
    · exact absurd (h1.trans h2) hne
  · intro h1
    exact Or.inl h1

/-- A rule `{On: permissionAnd(isRole(T), permissionExists(P)), Remove: [P]}`:
role `T` loses `P`, and nothing else changes. -/
theorem guardedRemoveRule_step (T P n : String) (roleMap mid : RoleMap)
    (h : (roleMap.lookup n).isSome = true)
    (hstep : applyTransformation n roleMap
      { On := permissionAnd [isRole T, permissionExists P],
        Add := [], Remove := [P] } = some mid) :
    (mid.lookup n).isSome = true ∧
    ∀ r q, permissionExists q r mid = true ↔
      permissionExists q r roleMap = true ∧ ¬ (r = n ∧ n = T ∧ q = P) := by
  obtain ⟨m, hm, hpres, _, hspec⟩ := applyTransformation_spec n roleMap _ h
  rw [hstep] at hm
  cases hm
  obtain ⟨f, g⟩ := specRuleStep_grants hspec
  refine ⟨hpres, ?_⟩
  intro r q
  by_cases hr : r = n
  · subst hr
    rw [g q]
    simp only [permissionAnd, isRole]
    by_cases hT : r = T
    · by_cases hP : permissionExists P r roleMap = true
      · by_cases hq : q = P
        · simp [hT, hP, hq]
        · simp [hT, hP, hq]
      · by_cases hq : q = P
        · subst hq
          simp [hT, hP]
        · simp [hT, hP, hq]
    · simp [hT]
  · rw [f r hr q]
    simp [hr]

theorem applyTransformations_four {n : String} {r1 r2 r3 r4 : permissionTransformation}
    {roleMap final : RoleMap}
    (ha : applyTransformations n [r1, r2, r3, r4] roleMap = some final) :
    ∃ m1 m2 m3, applyTransformation n roleMap r1 = some m1 ∧
      applyTransformation n m1 r2 = some m2 ∧ applyTransformation n m2 r3 = some m3 ∧
      applyTransformation n m3 r4 = some final := by
  simp only [applyTransformations] at ha
  cases h1 : applyTransformation n roleMap r1 with
  | none => simp [h1] at ha
  | some m1 =>
      simp only [h1] at ha
      cases h2 : applyTransformation n m1 r2 with
      | none => simp [h2] at ha
      | some m2 =>
          simp only [h2] at ha
          cases h3 : applyTransformation n m2 r3 with
          | none => simp [h3] at ha
          | some m3 =>
              simp only [h3] at ha
              cases h4 : applyTransformation n m3 r4 with
              | none => simp [h4] at ha
              | some m4 =>
                  simp only [h4, Option.some.injEq] at ha
                  subst ha
                  exact ⟨m1, m2, m3, rfl, h2, h3, h4⟩

/-- One role under the rules of `applyChannelManageDeleteToChannelUser`. -/
theorem applyChannelManageDelete_step {ρ μ : Type} (a : App ρ μ) (w w0 : World ρ μ)
    (migMap : permissionsMap)
    (hb : applyChannelManageDeleteToChannelUser a w = (Except.ok migMap, w0))
    (hne : a.TEAM_USER_ROLE_ID ≠ a.CHANNEL_USER_ROLE_ID)
    (n : String) (roleMap final : RoleMap) (h : (roleMap.lookup n).isSome = true)
    (ha : applyTransformations n migMap roleMap = some final) (r p : String) :
    permissionExists p r final = true ↔
      permissionExists p r roleMap = true ∨
      (r = n ∧ n = a.CHANNEL_USER_ROLE_ID ∧ p ∈ channelManageDeletePermissions ∧
        permissionExists p a.TEAM_USER_ROLE_ID roleMap = true) := by
  simp only [applyChannelManageDeleteToChannelUser, Prod.mk.injEq, Except.ok.injEq] at hb
  obtain ⟨hb, _⟩ := hb
  subst hb
  obtain ⟨m1, m2, m3, h1, h2, h3, h4⟩ := applyTransformations_four ha
  obtain ⟨p1, t1, e1⟩ := crossAddRule_step _ _ _ n roleMap m1 hne h h1
  obtain ⟨p2, t2, e2⟩ := crossAddRule_step _ _ _ n m1 m2 hne p1 h2
  obtain ⟨p3, t3, e3⟩ := crossAddRule_step _ _ _ n m2 m3 hne p2 h3
  obtain ⟨_, _, e4⟩ := crossAddRule_step _ _ _ n m3 final hne p3 h4
  rw [e4 r p, e3 r p, e2 r p, e1 r p, t3, t2, t1, t2, t1, t1]
  simp only [channelManageDeletePermissions, List.mem_cons, List.mem_singleton,
    List.not_mem_nil, or_false]
  constructor
  · rintro ((((h0 | ⟨ha, hb, hc, hd⟩) | ⟨ha, hb, hc, hd⟩) | ⟨ha, hb, hc, hd⟩) | ⟨ha, hb, hc, hd⟩)
    · exact Or.inl h0
    · exact Or.inr ⟨ha, hb, Or.inl hc, hc ▸ hd⟩
    · exact Or.inr ⟨ha, hb, Or.inr (Or.inl hc), hc ▸ hd⟩
    · exact Or.inr ⟨ha, hb, Or.inr (Or.inr (Or.inl hc)), hc ▸ hd⟩
    · exact Or.inr ⟨ha, hb, Or.inr (Or.inr (Or.inr hc)), hc ▸ hd⟩
  · rintro (h0 | ⟨ha, hb, hc | hc | hc | hc, hd⟩)
    · exact Or.inl (Or.inl (Or.inl (Or.inl h0)))
    · exact Or.inl (Or.inl (Or.inl (Or.inr ⟨ha, hb, hc, hc ▸ hd⟩)))
    · exact Or.inl (Or.inl (Or.inr ⟨ha, hb, hc, hc ▸ hd⟩))
    · exact Or.inl (Or.inr ⟨ha, hb, hc, hc ▸ hd⟩)
    · exact Or.inr ⟨ha, hb, hc, hc ▸ hd⟩

/-- One role under the rules of `removeChannelManageDeleteFromTeamUser`, when
`model.PERMISSION_DELETE_PRIVATE_CHANNEL.Id` is `delete_private_channel`. -/
theorem removeChannelManageDelete_step {ρ μ : Type} (a : App ρ μ) (w w0 : World ρ μ)
    (migMap : permissionsMap)
    (hb : removeChannelManageDeleteFromTeamUser a w = (Except.ok migMap, w0))
    (hId : a.PERMISSION_DELETE_PRIVATE_CHANNEL_Id = PERMISSION_DELETE_PRIVATE_CHANNEL)
    (n : String) (roleMap final : RoleMap) (h : (roleMap.lookup n).isSome = true)
    (ha : applyTransformations n migMap roleMap = some final) (r p : String) :
    permissionExists p r final = true ↔
      permissionExists p r roleMap = true ∧
      ¬ (r = n ∧ n = a.TEAM_USER_ROLE_ID ∧ p ∈ channelManageDeletePermissions) := by
  simp only [removeChannelManageDeleteFromTeamUser, Prod.mk.injEq, Except.ok.injEq, hId] at hb
  obtain ⟨hb, _⟩ := hb
  subst hb
  obtain ⟨m1, m2, m3, h1, h2, h3, h4⟩ := applyTransformations_four ha
  obtain ⟨p1, e1⟩ := guardedRemoveRule_step _ _ n roleMap m1 h h1
  obtain ⟨p2, e2⟩ := guardedRemoveRule_step _ _ n m1 m2 p1 h2
  obtain ⟨p3, e3⟩ := guardedRemoveRule_step _ _ n m2 m3 p2 h3
  obtain ⟨_, e4⟩ := guardedRemoveRule_step _ _ n m3 final p3 h4
  rw [e4 r p, e3 r p, e2 r p, e1 r p]
  simp only [channelManageDeletePermissions, List.mem_cons, List.mem_singleton,
    List.not_mem_nil, or_false]
  tauto

theorem buildRoleMap_grants_of_mem (roles : List Role) (roleMap : RoleMap)
    (hnd : (roles.map Role.Name).Nodup) (hb : buildRoleMap roles ∅ = some roleMap)
    (role : Role) (hrole : role ∈ roles) (p : String) :
    permissionExists p role.Name roleMap = true ↔ p ∈ role.Permissions := by
  obtain ⟨rm, hb1, _, _, _, h4⟩ := buildRoleMap_spec roles ∅
  rw [hb] at hb1
  cases hb1
  obtain ⟨inner, hin, hcontent⟩ := h4 hnd role hrole
  rw [permissionExists_eq_true_iff, readPermission_of_lookup hin, hcontent p]
  by_cases hp : p ∈ role.Permissions
  · simp [hp]
  · simp [hp]

/-- The role loop under the rules of `applyChannelManageDeleteToChannelUser`. -/
theorem applyChannelManageDelete_updateRoles {ρ μ : Type} (a : App ρ μ) (w w0 : World ρ μ)
    (migMap : permissionsMap)
    (hb : applyChannelManageDeleteToChannelUser a w = (Except.ok migMap, w0))
    (hne : a.TEAM_USER_ROLE_ID ≠ a.CHANNEL_USER_ROLE_ID) (roles : List Role) :
    ∀ (roleMap final : RoleMap) (first : List Role),
      (∀ role ∈ roles, (roleMap.lookup role.Name).isSome = true) →
      updateRoles migMap roles roleMap = some (first, final) →
      ∀ r p, permissionExists p r final = true ↔
        permissionExists p r roleMap = true ∨
        (r = a.CHANNEL_USER_ROLE_ID ∧ a.CHANNEL_USER_ROLE_ID ∈ roles.map Role.Name ∧
          p ∈ channelManageDeletePermissions ∧
          permissionExists p a.TEAM_USER_ROLE_ID roleMap = true) := by
  induction roles with
  | nil =>
      intro roleMap final first _ hu r p
      simp only [updateRoles, Option.some.injEq, Prod.mk.injEq] at hu
      rw [hu.2]
      simp
  | cons role rest ih =>
      intro roleMap final first hall hu r p
      have hrole := hall role (List.mem_cons_self _ _)
      simp only [updateRoles] at hu
      cases hap : applyPermissionsMap role.Name roleMap migMap with
      | none => simp [hap] at hu
      | some pr =>
          obtain ⟨perms, mid⟩ := pr
          simp only [hap] at hu
          cases hrest : updateRoles migMap rest mid with
          | none => simp [hrest] at hu
          | some pr2 =>
              obtain ⟨updated1, final1⟩ := pr2
              simp only [hrest, Option.some.injEq, Prod.mk.injEq] at hu
              obtain ⟨h1, h2⟩ := hu
              subst h1
              subst h2
              have hkeep := applyPermissionsMap_keeps_entries hrole hap
              have hall1 : ∀ x ∈ rest, (mid.lookup x.Name).isSome = true :=
                fun x hx => hkeep x.Name (hall x (List.mem_cons_of_mem _ hx))
              have hstep := applyChannelManageDelete_step a w w0 migMap hb hne role.Name
                roleMap mid hrole (applyPermissionsMap_transformations hap)
              have hT : ∀ q, permissionExists q a.TEAM_USER_ROLE_ID mid = true ↔
                  permissionExists q a.TEAM_USER_ROLE_ID roleMap = true := by
                intro q
                rw [hstep a.TEAM_USER_ROLE_ID q]
                constructor
                · rintro (h0 | ⟨h1, h2, _, _⟩)
                  · exact h0
                  · exact absurd (h1.trans h2) hne
                · exact fun h0 => Or.inl h0
              rw [ih mid final1 updated1 hall1 hrest r p, hstep r p, hT p]
              simp only [List.map_cons, List.mem_cons]
              constructor
              · rintro ((h0 | ⟨h1, h2, h3, h4⟩) | ⟨h1, h2, h3, h4⟩)
                · exact Or.inl h0
                · exact Or.inr ⟨h1.trans h2, Or.inl h2.symm, h3, h4⟩
                · exact Or.inr ⟨h1, Or.inr h2, h3, h4⟩
              · rintro (h0 | ⟨h1, h2 | h2, h3, h4⟩)
                · exact Or.inl (Or.inl h0)
                · exact Or.inl (Or.inr ⟨h1.trans h2, h2.symm, h3, h4⟩)
                · exact Or.inr ⟨h1, h2, h3, h4⟩

/-- The role loop under the rules of `removeChannelManageDeleteFromTeamUser`. -/
theorem removeChannelManageDelete_updateRoles {ρ μ : Type} (a : App ρ μ) (w w0 : World ρ μ)
    (migMap : permissionsMap)
    (hb : removeChannelManageDeleteFromTeamUser a w = (Except.ok migMap, w0))
    (hId : a.PERMISSION_DELETE_PRIVATE_CHANNEL_Id = PERMISSION_DELETE_PRIVATE_CHANNEL)
    (roles : List Role) :
    ∀ (roleMap final : RoleMap) (first : List Role),
      (∀ role ∈ roles, (roleMap.lookup role.Name).isSome = true) →
      updateRoles migMap roles roleMap = some (first, final) →
      ∀ r p, permissionExists p r final = true ↔
        permissionExists p r roleMap = true ∧
        ¬ (r = a.TEAM_USER_ROLE_ID ∧ a.TEAM_USER_ROLE_ID ∈ roles.map Role.Name ∧
          p ∈ channelManageDeletePermissions) := by
  induction roles with
  | nil =>
      intro roleMap final first _ hu r p
      simp only [updateRoles, Option.some.injEq, Prod.mk.injEq] at hu
      rw [hu.2]
      simp
  | cons role rest ih =>
      intro roleMap final first hall hu r p
      have hrole := hall role (List.mem_cons_self _ _)
      simp only [updateRoles] at hu
      cases hap : applyPermissionsMap role.Name roleMap migMap with
      | none => simp [hap] at hu
      | some pr =>
          obtain ⟨perms, mid⟩ := pr
          simp only [hap] at hu
          cases hrest : updateRoles migMap rest mid with
          | none => simp [hrest] at hu
          | some pr2 =>
              obtain ⟨updated1, final1⟩ := pr2
              simp only [hrest, Option.some.injEq, Prod.mk.injEq] at hu
              obtain ⟨h1, h2⟩ := hu
              subst h1
              subst h2
              have hkeep := applyPermissionsMap_keeps_entries hrole hap
              have hall1 : ∀ x ∈ rest, (mid.lookup x.Name).isSome = true :=
                fun x hx => hkeep x.Name (hall x (List.mem_cons_of_mem _ hx))
              have hstep := removeChannelManageDelete_step a w w0 migMap hb hId role.Name
                roleMap mid hrole (applyPermissionsMap_transformations hap)
              rw [ih mid final1 updated1 hall1 hrest r p, hstep r p]
              simp only [List.map_cons, List.mem_cons]
              constructor
              · rintro ⟨⟨h0, h1⟩, h2⟩
                refine ⟨h0, ?_⟩
                rintro ⟨h3, h4 | h4, h5⟩
                · exact h1 ⟨h3.trans h4, h4.symm, h5⟩
                · exact h2 ⟨h3, h4, h5⟩
              · rintro ⟨h0, h1⟩
                refine ⟨⟨h0, ?_⟩, ?_⟩
                · rintro ⟨h3, h4, h5⟩
                  exact h1 ⟨h3.trans h4, Or.inl h4.symm, h5⟩
                · rintro ⟨h3, h4, h5⟩
                  exact h1 ⟨h3, Or.inr h4, h5⟩

/-- The two role passes of `applyChannelManageDeleteToChannelUser` and
`removeChannelManageDeleteFromTeamUser`, the second on any ordering of the
roles the first produced. -/
theorem channelManageDelete_passes {ρ μ : Type} (a : App ρ μ) (wa wa0 wb wb0 : World ρ μ)
    (applyRules removeRules : permissionsMap)
    (hba : applyChannelManageDeleteToChannelUser a wa = (Except.ok applyRules, wa0))
    (hbr : removeChannelManageDeleteFromTeamUser a wb = (Except.ok removeRules, wb0))
    (hne : a.TEAM_USER_ROLE_ID ≠ a.CHANNEL_USER_ROLE_ID)
    (hId : a.PERMISSION_DELETE_PRIVATE_CHANNEL_Id = PERMISSION_DELETE_PRIVATE_CHANNEL)
    (roles1 roles2 first : List Role) (hnd : (roles1.map Role.Name).Nodup)
    (teamUser : Role) (hT : teamUser ∈ roles1) (hTn : teamUser.Name = a.TEAM_USER_ROLE_ID)
    (h1 : rolePass applyRules roles1 = some first) (hperm : roles2.Perm first) :
    ∃ second, rolePass removeRules roles2 = some second ∧
      (second.map Role.Name).Perm (roles1.map Role.Name) ∧
      ∀ s ∈ second, ∃ role ∈ roles1, s.Name = role.Name ∧
        ∀ p, p ∈ s.Permissions ↔
          (p ∈ role.Permissions ∨
            (role.Name = a.CHANNEL_USER_ROLE_ID ∧ p ∈ channelManageDeletePermissions ∧
              p ∈ teamUser.Permissions)) ∧
          ¬ (role.Name = a.TEAM_USER_ROLE_ID ∧ p ∈ channelManageDeletePermissions) := by
  -- first pass
  obtain ⟨rm0, hb0, _, _, h30, _⟩ := buildRoleMap_spec roles1 ∅
  obtain ⟨first1, fin1, hu1, _, _⟩ := updateRoles_spec applyRules roles1 rm0 h30
  have hfirst : first1 = first := by
    simp only [rolePass, hb0, hu1, Option.some.injEq] at h1
    exact h1
  subst hfirst
  have hF1 := updateRoles_grants applyRules roles1 rm0 fin1 first1 hnd h30 hu1
  have hpass1 := applyChannelManageDelete_updateRoles a wa wa0 applyRules hba hne roles1 rm0 fin1
    first1 h30 hu1
  have hnames1 : first1.map Role.Name = roles1.map Role.Name :=
    forall₂_names hF1 (fun _ _ h => h.1)
  -- second pass
  have hnames2 : (roles2.map Role.Name).Perm (roles1.map Role.Name) := by
    rw [← hnames1]
    exact hperm.map _
  have hnd2 : (roles2.map Role.Name).Nodup := hnames2.nodup_iff.mpr hnd
  obtain ⟨rm1, hb1, _, _, h31, _⟩ := buildRoleMap_spec roles2 ∅
  obtain ⟨second, fin2, hu2, _, _⟩ := updateRoles_spec removeRules roles2 rm1 h31
  have hF2 := updateRoles_grants removeRules roles2 rm1 fin2 second hnd2 h31 hu2
  have hpass2 := removeChannelManageDelete_updateRoles a wb wb0 removeRules hbr hId roles2 rm1
    fin2 second h31 hu2
  have hsecond : second.map Role.Name = roles2.map Role.Name :=
    forall₂_names hF2 (fun _ _ h => h.1)
  refine ⟨second, by simp [rolePass, hb1, hu2], ?_, ?_⟩
  · rw [hsecond]
    exact hnames2
  · intro s hs
    obtain ⟨u, hu, hsu⟩ := forall₂_exists_left hF2 s hs
    have hu1' : u ∈ first1 := hperm.mem_iff.mp hu
    obtain ⟨role, hrole, hru⟩ := forall₂_exists_left hF1 u hu1'
    refine ⟨role, hrole, hsu.1.trans hru.1, ?_⟩
    intro p
    have hTmem : a.TEAM_USER_ROLE_ID ∈ roles2.map Role.Name :=
      hnames2.mem_iff.mpr (List.mem_map.mpr ⟨teamUser, hT, hTn⟩)
    have hCmem : role.Name = a.CHANNEL_USER_ROLE_ID →
        a.CHANNEL_USER_ROLE_ID ∈ roles1.map Role.Name :=
      fun h => List.mem_map.mpr ⟨role, hrole, h⟩
    have e1 : permissionExists p u.Name rm1 = true ↔ p ∈ u.Permissions :=
      buildRoleMap_grants_of_mem roles2 rm1 hnd2 hb1 u hu p
    have e2 : permissionExists p role.Name rm0 = true ↔ p ∈ role.Permissions :=
      buildRoleMap_grants_of_mem roles1 rm0 hnd hb0 role hrole p
    have e3 : permissionExists p a.TEAM_USER_ROLE_ID rm0 = true ↔ p ∈ teamUser.Permissions := by
      rw [← hTn]
      exact buildRoleMap_grants_of_mem roles1 rm0 hnd hb0 teamUser hT p
    rw [hsu.2 p, hpass2 u.Name p, e1, hru.2 p, hpass1 role.Name p, e2, e3, hru.1]
    constructor
    · rintro ⟨h0 | ⟨h1, _, h3, h4⟩, h5⟩
      · exact ⟨Or.inl h0, fun h => h5 ⟨h.1, hTmem, h.2⟩⟩
      · exact ⟨Or.inr ⟨h1, h3, h4⟩, fun h => h5 ⟨h.1, hTmem, h.2⟩⟩
    · rintro ⟨h0 | ⟨h1, h3, h4⟩, h5⟩
      · exact ⟨Or.inl h0, fun h => h5 ⟨h.1, h.2.2⟩⟩
      · exact ⟨Or.inr ⟨h1, hCmem h1, h3, h4⟩, fun h => h5 ⟨h.1, h.2.2⟩⟩

/-- A run of `doPermissionsMigration` with the marker absent, the roles loaded,
every save of an updated role succeeding and the marker write succeeding:
it returns no error, and the world it leaves. -/
theorem doPermissionsMigration_all_ok {ρ μ : Type} (a : App ρ μ) (key : String)
    (migrationMap : permissionsMap) (w : World ρ μ) (roles : List Role) (err0 : AppError)
    (system1 : μ)
    (hmarker : a.SystemGetByName w.system key = Except.error err0)
    (hroles : a.GetAllRoles w.roles = Except.ok roles)
    (hsave : ∀ updated, rolePass migrationMap roles = some updated →
      ∀ i r, updated[i]? = some r →
        ∃ r1, (a.RoleSave (roleStoreAfter a (updated.take i) w.roles) r).1 = Except.ok r1)
    (hmark : a.SystemSave w.system { Name := key, Value := "true" } = (none, system1)) :
    ∃ updated, rolePass migrationMap roles = some updated ∧
      doPermissionsMigration a key migrationMap w
        = some (none,
            { roles := roleStoreAfter a updated w.roles, system := system1,
              calls := w.calls ++ [StoreCall.systemGetByName key, StoreCall.getAllRoles]
                ++ updated.map StoreCall.roleSave
                ++ [StoreCall.systemSave { Name := key, Value := "true" }] }) := by
  obtain ⟨roleMap, updated, final, hb, hu, hp, _⟩ := rolePass_total migrationMap roles
  refine ⟨updated, hp, ?_⟩
  have hs := saveRoles_all_ok a migrationMap roles roleMap
    { w with calls := w.calls ++ [StoreCall.systemGetByName key] ++ [StoreCall.getAllRoles] }
    updated final hu (hsave updated hp)
  simp only [doPermissionsMigration, hmarker, hroles, hb, hs, hmark]
  simp

/-- C19: for every store whose roles have unique names and include the team
user role, with both markers absent and every store call of the two runs
succeeding (the saves of the updated roles, the two marker writes, and a
second load that returns the saved roles in any order): the run of
`doPermissionsMigration` with the rules of `applyChannelManageDeleteToChannelUser`
and then the run with the rules of `removeChannelManageDeleteFromTeamUser`, on
the world the first left, both return no error, and the roles saved by the
second run are the loaded roles, each with a permission list such that, for
each of the four permissions manage_private_channel_properties,
delete_private_channel, manage_public_channel_properties and
delete_public_channel, the team user role does not hold it, the channel user
role holds it iff the channel user role or the team user role held it before,
any other role holds it iff it did before, and every other permission of
every role is held iff it was before.  The constants of package `model` enter
as `hne` (the two role names differ) and `hId` (the id of
`model.PERMISSION_DELETE_PRIVATE_CHANNEL` is "delete_private_channel"). -/
theorem doPermissionsMigration_channel_manage_delete {ρ μ : Type} (a : App ρ μ)
    (wa wa0 wb wb0 : World ρ μ) (applyRules removeRules : permissionsMap)
    (hba : applyChannelManageDeleteToChannelUser a wa = (Except.ok applyRules, wa0))
    (hbr : removeChannelManageDeleteFromTeamUser a wb = (Except.ok removeRules, wb0))
    (hne : a.TEAM_USER_ROLE_ID ≠ a.CHANNEL_USER_ROLE_ID)
    (hId : a.PERMISSION_DELETE_PRIVATE_CHANNEL_Id = PERMISSION_DELETE_PRIVATE_CHANNEL)
    (key1 key2 : String) (w : World ρ μ) (roles1 : List Role) (err1 err2 : AppError)
    (system1 system2 : μ)
    (hnd : (roles1.map Role.Name).Nodup)
    (teamUser : Role) (hT : teamUser ∈ roles1) (hTn : teamUser.Name = a.TEAM_USER_ROLE_ID)
    (hm1 : a.SystemGetByName w.system key1 = Except.error err1)
    (hg1 : a.GetAllRoles w.roles = Except.ok roles1)
    (hsave1 : ∀ first, rolePass applyRules roles1 = some first →
      ∀ i r, first[i]? = some r →
        ∃ r1, (a.RoleSave (roleStoreAfter a (first.take i) w.roles) r).1 = Except.ok r1)
    (hs1 : a.SystemSave w.system { Name := key1, Value := "true" } = (none, system1))
    (hm2 : a.SystemGetByName system1 key2 = Except.error err2)
    (hstore : ∀ first, rolePass applyRules roles1 = some first →
      ∃ roles2, a.GetAllRoles (roleStoreAfter a first w.roles) = Except.ok roles2 ∧
        roles2.Perm first)
    (hsave2 : ∀ first roles2 second, rolePass applyRules roles1 = some first →
      a.GetAllRoles (roleStoreAfter a first w.roles) = Except.ok roles2 →
      rolePass removeRules roles2 = some second →
      ∀ i r, second[i]? = some r →
        ∃ r1, (a.RoleSave (roleStoreAfter a (second.take i)
          (roleStoreAfter a first w.roles)) r).1 = Except.ok r1)
    (hs2 : a.SystemSave system1 { Name := key2, Value := "true" } = (none, system2)) :
    ∃ w1 w2 second,
      doPermissionsMigration a key1 applyRules w = some (none, w1) ∧
      doPermissionsMigration a key2 removeRules w1 = some (none, w2) ∧
      w2.roles = roleStoreAfter a second w1.roles ∧
      w2.calls = w1.calls ++ [StoreCall.systemGetByName key2, StoreCall.getAllRoles]
        ++ second.map StoreCall.roleSave
        ++ [StoreCall.systemSave { Name := key2, Value := "true" }] ∧
      (second.map Role.Name).Perm (roles1.map Role.Name) ∧
      ∀ s ∈ second, ∃ role ∈ roles1, s.Name = role.Name ∧
        ∀ p,
          (p ∉ channelManageDeletePermissions → (p ∈ s.Permissions ↔ p ∈ role.Permissions)) ∧
          (p ∈ channelManageDeletePermissions → role.Name = a.TEAM_USER_ROLE_ID →
            p ∉ s.Permissions) ∧
          (p ∈ channelManageDeletePermissions → role.Name = a.CHANNEL_USER_ROLE_ID →
            (p ∈ s.Permissions ↔ p ∈ role.Permissions ∨ p ∈ teamUser.Permissions)) ∧
          (p ∈ channelManageDeletePermissions → role.Name ≠ a.TEAM_USER_ROLE_ID →
            role.Name ≠ a.CHANNEL_USER_ROLE_ID →
            (p ∈ s.Permissions ↔ p ∈ role.Permissions)) := by
  obtain ⟨first, hfirst, hrun1⟩ :=
    doPermissionsMigration_all_ok a key1 applyRules w roles1 err1 system1 hm1 hg1 hsave1 hs1
  obtain ⟨roles2, hg2, hperm⟩ := hstore first hfirst
  obtain ⟨second, hsecond, hrun2⟩ :=
    doPermissionsMigration_all_ok a key2 removeRules
      { roles := roleStoreAfter a first w.roles, system := system1,
        calls := w.calls ++ [StoreCall.systemGetByName key1, StoreCall.getAllRoles]
          ++ first.map StoreCall.roleSave
          ++ [StoreCall.systemSave { Name := key1, Value := "true" }] }
      roles2 err2 system2 hm2 hg2
      (fun second1 h1 => hsave2 first roles2 second1 hfirst hg2 h1) hs2
  obtain ⟨second1, hsecond1, hnames, hall⟩ := channelManageDelete_passes a wa wa0 wb wb0
    applyRules removeRules hba hbr hne hId roles1 roles2 first hnd teamUser hT hTn hfirst hperm
  rw [hsecond] at hsecond1
  cases hsecond1
  refine ⟨_, _, second, hrun1, hrun2, rfl, rfl, hnames, ?_⟩
  intro s hs
  obtain ⟨role, hrole, hname, hp⟩ := hall s hs
  refine ⟨role, hrole, hname, ?_⟩
  intro p
  rw [hp p]
  refine ⟨?_, ?_, ?_, ?_⟩
  · intro hfour
    constructor
    · rintro ⟨h0 | ⟨_, h3, _⟩, _⟩
      · exact h0
      · exact absurd h3 hfour
    · intro h0
      exact ⟨Or.inl h0, fun h => hfour h.2⟩
  · intro hfour hteam h
    exact h.2 ⟨hteam, hfour⟩
  · intro hfour hchannel
    constructor
    · rintro ⟨h0 | ⟨_, _, h4⟩, _⟩
      · exact Or.inl h0
      · exact Or.inr h4
    · rintro (h0 | h0)
      · exact ⟨Or.inl h0, fun h => hne (h.1.symm.trans hchannel)⟩
      · exact ⟨Or.inr ⟨hchannel, hfour, h0⟩, fun h => hne (h.1.symm.trans hchannel)⟩
  · intro _ hnt hnc
    constructor
    · rintro ⟨h0 | ⟨h1, _, _⟩, _⟩
      · exact h0
      · exact absurd h1 hnc
    · intro h0
      exact ⟨Or.inl h0, fun h => hnt h.1⟩

theorem doPermissionsMigration_channel_manage_delete_witness :
    ∃ w1 w2 second,
      doPermissionsMigration (memApp [] [] [] ∅) "apply_channel_manage_delete_to_channel_user"
        channelApplyRules channelWorld = some (none, w1) ∧
      doPermissionsMigration (memApp [] [] [] ∅) "remove_channel_manage_delete_from_team_user"
        channelRemoveRules w1 = some (none, w2) ∧
      w2.roles = roleStoreAfter (memApp [] [] [] ∅) second w1.roles ∧
      w2.calls
        = w1.calls
          ++ [StoreCall.systemGetByName "remove_channel_manage_delete_from_team_user",
              StoreCall.getAllRoles]
          ++ second.map StoreCall.roleSave
          ++ [StoreCall.systemSave
                { Name := "remove_channel_manage_delete_from_team_user", Value := "true" }] ∧
      (second.map Role.Name).Perm (channelRoles.map Role.Name) ∧
      ∀ s ∈ second, ∃ role ∈ channelRoles, s.Name = role.Name ∧
        ∀ p,
          (p ∉ channelManageDeletePermissions → (p ∈ s.Permissions ↔ p ∈ role.Permissions)) ∧
          (p ∈ channelManageDeletePermissions →
            role.Name = (memApp [] [] [] ∅).TEAM_USER_ROLE_ID → p ∉ s.Permissions) ∧
          (p ∈ channelManageDeletePermissions →
            role.Name = (memApp [] [] [] ∅).CHANNEL_USER_ROLE_ID →
            (p ∈ s.Permissions ↔ p ∈ role.Permissions ∨
              p ∈ (⟨"1", "team_user", ["manage_private_channel_properties",
                "delete_public_channel", "read_channel"]⟩ : Role).Permissions)) ∧
          (p ∈ channelManageDeletePermissions →
            role.Name ≠ (memApp [] [] [] ∅).TEAM_USER_ROLE_ID →
            role.Name ≠ (memApp [] [] [] ∅).CHANNEL_USER_ROLE_ID →
            (p ∈ s.Permissions ↔ p ∈ role.Permissions)) :=
  doPermissionsMigration_channel_manage_delete (memApp [] [] [] ∅)
    channelWorld channelWorld channelWorld channelWorld channelApplyRules channelRemoveRules
    rfl rfl (by decide) rfl
    "apply_channel_manage_delete_to_channel_user" "remove_channel_manage_delete_from_team_user"
    channelWorld channelRoles
    ⟨"store.sql_system.get_by_name.app_error"⟩ ⟨"store.sql_system.get_by_name.app_error"⟩
    [⟨"apply_channel_manage_delete_to_channel_user", "true"⟩]
    [⟨"apply_channel_manage_delete_to_channel_user", "true"⟩,
     ⟨"remove_channel_manage_delete_from_team_user", "true"⟩]
    (by decide)
    ⟨"1", "team_user", ["manage_private_channel_properties", "delete_public_channel",
      "read_channel"]⟩
    (by decide) rfl rfl rfl
    (fun _ _ _ r _ => ⟨r, rfl⟩)
    rfl rfl
    (by
      intro first hfirst
      have e : rolePass channelApplyRules channelRoles = some channelRolesAfterApply := by
        decide
      rw [e] at hfirst
      cases hfirst
      exact ⟨channelRolesAfterApply, rfl, List.Perm.refl _⟩)
    (fun _ _ _ _ _ _ _ r _ => ⟨r, rfl⟩)
    rfl

/-- The two sample runs in full: the worlds they leave. -/
theorem channelWorld_runs :
    doPermissionsMigration (memApp [] [] [] ∅) "apply_channel_manage_delete_to_channel_user"
        channelApplyRules channelWorld = some (none, channelWorldAfterApply) ∧
    doPermissionsMigration (memApp [] [] [] ∅) "remove_channel_manage_delete_from_team_user"
        channelRemoveRules channelWorldAfterApply = some (none, channelWorldAfterRemove) := by
  constructor <;> decide

end Mattermost
